import Mathlib

/-!
# Stenography: encoder and decoder

A shallow embedding of `Encoder.cpp` and `Decoder.cpp`.

* Images (`cv::Mat` of `Vec3b`) are `Mat`: the two dimensions and the channel
  values as a function of row, column and channel.
* OpenCV's `RNG` and the `double` arithmetic of the platform are not part of
  the two programs; they are the fields of `Lib`. `ieeeLib` is the library
  with IEEE 754 `double`s: there `(int)(v + d)` is the rounded sum with its
  fractional part discarded.
* `unsigned long` has width `W` bits (a parameter); `int` is 32 bits wide.
* The `while(keepGoing)` loops have no bound in the programs; the embedding
  runs each of them for at most `fuel` attempts and reports `Err.outOfFuel`
  when that is not enough.
* An access outside the grid is undefined in the programs; the embedding
  reports `Err.outOfRange`.
* Reading and writing files and images is outside: an image is given as
  loaded, the file to hide as its list of bytes (`st_size` is its length),
  the password as the bytes typed, and the results are the image saved and
  the bytes written.
-/

set_option autoImplicit false

namespace Stenography

/-! ## Machine integers -/

/-- Conversion to the 32-bit `int` type (two's complement). -/
def toInt32 (z : Int) : Int := (z + 2 ^ 31) % 2 ^ 32 - 2 ^ 31

/-- Conversion of an `int` to `unsigned long` (`W` bits). -/
def toULong (W : Nat) (z : Int) : Nat := (z % 2 ^ W).toNat

/-! ## Images -/

/-- A three-channel 8-bit image: `px i j k` is `at<Vec3b>(i,j)[k]`. -/
structure Mat where
  rows : Nat
  cols : Nat
  px : Nat → Nat → Nat → Nat

/-- Read `m.at<Vec3b>(i,j)[k]`. -/
def Mat.get (m : Mat) (i j k : Nat) : Nat := m.px i j k

/-- Write `m.at<Vec3b>(i,j)[k] = v`. -/
def Mat.set (m : Mat) (i j k v : Nat) : Mat :=
  { m with px := fun a b c => if a = i ∧ b = j ∧ c = k then v else m.px a b c }

/-- The triple `(i, j, k)` lies inside the grid of `m`. -/
def Mat.inRange (m : Mat) (i j k : Nat) : Prop := i < m.rows ∧ j < m.cols ∧ k < 3

instance (m : Mat) (i j k : Nat) : Decidable (m.inRange i j k) := by
  unfold Mat.inRange; infer_instance

/-- `Mat::empty()`. -/
def Mat.empty (m : Mat) : Bool := m.rows * m.cols == 0

/-- A site: row, column, channel. -/
abbrev Site := Nat × Nat × Nat

/-! ## The library the programs are linked against -/

/-- OpenCV's `RNG` (state type `G`) and the platform's `double` (type `D`). -/
structure Lib (G D : Type) where
  /-- `RNG(seed)`. -/
  mkRNG : Nat → G
  /-- `randomGenerator(N)`: the value drawn and the new state. -/
  uniform : G → Nat → Nat × G
  /-- `randomGenerator.gaussian(sigma)`: the value drawn and the new state. -/
  gaussian : G → D → D × G
  /-- `(int)(v + d)` for a channel value `v` and a double `d`. -/
  addToInt : Nat → D → Int
  /-- The double `3`. -/
  three : D

/-- Results other than success. -/
inductive Err where
  | invalidInput
  | fileTooBig
  | imageTooSmall
  | sizeMismatch
  | outOfRange
  | outOfFuel
  deriving DecidableEq

/-- State of the traversal: the generator, the `visited` matrix, and (for the
statements only, read by no code) the accepted sites in order. -/
structure Walk (G : Type) where
  rng : G
  visited : Mat
  sites : List Site

/-- Run `body` for each element of the list in order, stopping at an error. -/
def forEachM {σ α : Type} (body : σ → α → Except Err σ) : List α → σ → Except Err σ
  | [], s => .ok s
  | a :: as, s =>
    match body s a with
    | .error e => .error e
    | .ok s1 => forEachM body as s1

/-- The `visited` matrix after the initialisation loops: all zero. -/
def zeroMat (rows cols : Nat) : Mat := { rows := rows, cols := cols, px := fun _ _ _ => 0 }

/-- The generator after one attempt of a `while(keepGoing)` loop. -/
def attemptRng {G D : Type} (L : Lib G D) (rows cols : Nat) (g : G) : G :=
  (L.uniform (L.uniform (L.uniform g rows).2 cols).2 3).2

/-- The triple drawn by one attempt of a `while(keepGoing)` loop. -/
def attemptSite {G D : Type} (L : Lib G D) (rows cols : Nat) (g : G) : Site :=
  ((L.uniform g rows).1, (L.uniform (L.uniform g rows).2 cols).1,
    (L.uniform (L.uniform (L.uniform g rows).2 cols).2 3).1)

/-- Every bounded draw with a positive bound is below the bound. -/
def Bounded {G D : Type} (L : Lib G D) : Prop :=
  ∀ (g : G) (b : Nat), 0 < b → (L.uniform g b).1 < b

/-- In the stream of attempts that starts at `g`, every site of the grid
turns up again after any number of attempts. -/
def Fair {G D : Type} (L : Lib G D) (rows cols : Nat) (g : G) : Prop :=
  ∀ (k x y c : Nat), x < rows → y < cols → c < 3 →
    ∃ n, attemptSite L rows cols ((attemptRng L rows cols)^[k + n] g) = (x, y, c)

/-! ## Encoder.cpp -/

namespace Encoder

/-- The `while (c = *str++)` loop of `hash`; the list is the bytes before the
terminator that `c_str()` appends, so the empty list is the terminator. -/
def hashLoop (W : Nat) : Nat → List Nat → Nat
  | h, [] => h
  | h, c :: str =>
    if c = 0 then h
    else hashLoop W ((((h <<< 5) % 2 ^ W + h) % 2 ^ W + c) % 2 ^ W) str

/-- `unsigned long hash(unsigned char *str)`. -/
def hash (W : Nat) (str : List Nat) : Nat := hashLoop W 5381 str

/-- `unsigned char getBitN(int val, int n)`. -/
def getBitN (val : Int) (n : Nat) : Nat := (Int.land 1 (val >>> n)).toNat % 256

/-- `unsigned char getBitN2(unsigned char val, int n)`. -/
def getBitN2 (val : Nat) (n : Nat) : Nat := (1 &&& (val >>> n)) % 256

/-- Body of the innermost loop of `noiseGenerator` on (image, generator). -/
def noiseStep {G D : Type} (L : Lib G D) (sigma : D) (i j : Nat) (st : Mat × G) (k : Nat) :
    Mat × G :=
  let generatedNumber := (L.gaussian st.2 sigma).1
  let n := L.addToInt (st.1.get i j k) generatedNumber
  let n := if n > 255 then 255 else if n < 0 then 0 else n
  (st.1.set i j k n.toNat, (L.gaussian st.2 sigma).2)

/-- The three nested loops of `noiseGenerator`, with the generator they leave. -/
def noiseLoop {G D : Type} (L : Lib G D) (image : Mat) (sigma : D) (randomGenerator : G) :
    Mat × G :=
  (List.range image.rows).foldl (fun st i =>
    (List.range image.cols).foldl (fun st j =>
      (List.range 3).foldl (noiseStep L sigma i j) st) st) (image, randomGenerator)

/-- `void noiseGenerator(Mat *image, double sigma, RNG randomGenerator)`: the
image is changed through the pointer, the generator is a by-value copy. -/
def noiseGenerator {G D : Type} (L : Lib G D) (image : Mat) (sigma : D) (randomGenerator : G) :
    Mat :=
  (noiseLoop L image sigma randomGenerator).1

/-- The three checks of `main` on the file size (lines 89-110), on the
dimensions of the carrier and `st_size`; `none` when all pass. -/
def sizeChecks (W : Nat) (rows cols : Nat) (stSize : Nat) : Option Err :=
  if stSize ≥ 2 ^ 32 then some .fileTooBig
  else
    let fileSize := stSize % 2 ^ W
    if toULong W (toInt32 (toInt32 ((cols : Int) * rows) - 32)) < fileSize then some .fileTooBig
    else if toInt32 (toInt32 ((cols : Int) * rows) - 32) < 0 then some .imageTooSmall
    else none

/-- One `while(keepGoing)` loop up to and including the marking of the
accepted site; the rest of the accepting branch is run by the caller. -/
def nextSite {G D : Type} (L : Lib G D) (carrier : Mat) :
    Nat → Walk G → Except Err (Site × Walk G)
  | 0, _ => .error .outOfFuel
  | fuel + 1, w =>
    let x := (L.uniform w.rng carrier.rows).1
    let g1 := (L.uniform w.rng carrier.rows).2
    let y := (L.uniform g1 carrier.cols).1
    let g2 := (L.uniform g1 carrier.cols).2
    let channel := (L.uniform g2 3).1
    let g3 := (L.uniform g2 3).2
    if w.visited.inRange x y channel then
      if w.visited.get x y channel = 0 then
        .ok ((x, y, channel),
          { rng := g3, visited := w.visited.set x y channel 1,
            sites := w.sites ++ [(x, y, channel)] })
      else nextSite L carrier fuel { w with rng := g3 }
    else .error .outOfRange

/-- The accepting branch of the header loop after the marking (lines 161-169). -/
def sizeAccept (carrier : Mat) (fileSize : Nat) (i : Nat) (s : Site) : Mat :=
  if getBitN (toInt32 fileSize) i ≠ 0 then
    if carrier.get s.1 s.2.1 s.2.2 < 255 then
      carrier.set s.1 s.2.1 s.2.2 (carrier.get s.1 s.2.1 s.2.2 + 1)
    else if carrier.get s.1 s.2.1 s.2.2 = 255 then
      carrier.set s.1 s.2.1 s.2.2 (carrier.get s.1 s.2.1 s.2.2 - 1)
    else carrier
  else carrier

/-- The accepting branch of the payload loop after the marking (lines 215-223). -/
def fileAccept (carrier : Mat) (bit : Nat) (s : Site) : Mat :=
  if bit ≠ 0 then
    if carrier.get s.1 s.2.1 s.2.2 < 255 then
      carrier.set s.1 s.2.1 s.2.2 (carrier.get s.1 s.2.1 s.2.2 + 1)
    else if carrier.get s.1 s.2.1 s.2.2 = 255 then
      carrier.set s.1 s.2.1 s.2.2 (carrier.get s.1 s.2.1 s.2.2 - 1)
    else carrier
  else carrier

/-- Body of `for(int i=0; i<32; i++)` (lines 144-172) on (walk, carrier). -/
def sizeStep {G D : Type} (L : Lib G D) (fuel : Nat) (fileSize : Nat)
    (st : Walk G × Mat) (i : Nat) : Except Err (Walk G × Mat) :=
  match nextSite L st.2 fuel st.1 with
  | .error e => .error e
  | .ok r => .ok (r.2, sizeAccept st.2 fileSize i r.1)

/-- Body of `for(int j=0; j<8; j++)` (lines 196-226) for the byte `sequence0`. -/
def bitStep {G D : Type} (L : Lib G D) (fuel : Nat) (sequence0 : Nat)
    (st : Walk G × Mat) (j : Nat) : Except Err (Walk G × Mat) :=
  match nextSite L st.2 fuel st.1 with
  | .error e => .error e
  | .ok r => .ok (r.2, fileAccept st.2 (getBitN2 (sequence0 % 256) j) r.1)

/-- Body of `for(int i=0; i<fileSize; i++)` (lines 190-227): read byte `i` of
the file, then embed its eight bits. -/
def byteStep {G D : Type} (L : Lib G D) (fuel : Nat) (file : List Nat)
    (st : Walk G × Mat) (i : Nat) : Except Err (Walk G × Mat) :=
  forEachM (bitStep L fuel (file.getD i 0)) (List.range 8) st

/-- The common shape of `sizeStep` and `bitStep`: one `while(keepGoing)` loop
that embeds `bit` at the accepted site. -/
def embedStep {G D : Type} (L : Lib G D) (fuel : Nat)
    (st : Walk G × Mat) (bit : Nat) : Except Err (Walk G × Mat) :=
  match nextSite L st.2 fuel st.1 with
  | .error e => .error e
  | .ok r => .ok (r.2, fileAccept st.2 bit r.1)

/-- The bits the two loops of `main` embed, in order: 32 bits of `fileSize`,
then 8 bits of each of the first `fileSize` bytes of the file. -/
def bitStream (fileSize : Nat) (file : List Nat) : List Nat :=
  (List.range 32).map (fun i => getBitN (toInt32 fileSize) i)
    ++ (List.range fileSize).flatMap
        (fun i => (List.range 8).map (fun j => getBitN2 (file.getD i 0 % 256) j))

/-- Lines 119-172 of `main`: seed, generator, noise, `visited`, header loop,
from a carrier that passed the checks; the state in which the loop ends. -/
def headerRun {G D : Type} (L : Lib G D) (W : Nat) (fuel : Nat) (carrier : Mat)
    (fileSize : Nat) (password : List Nat) : Except Err (Walk G × Mat) :=
  let seed := hash W password
  let randomGenerator := L.mkRNG seed
  let carrier1 := noiseGenerator L carrier L.three randomGenerator
  let visited := zeroMat carrier1.rows carrier1.cols
  forEachM (sizeStep L fuel fileSize) (List.range 32)
    ({ rng := randomGenerator, visited := visited, sites := [] }, carrier1)

/-- Body of `main` from the loaded carrier, the bytes of the file to hide and
the password typed, to the state in which the payload loop ends. -/
def run {G D : Type} (L : Lib G D) (W : Nat) (fuel : Nat) (carrier : Mat)
    (file : List Nat) (password : List Nat) : Except Err (Walk G × Mat) :=
  if carrier.empty then .error .invalidInput
  else
    match sizeChecks W carrier.rows carrier.cols file.length with
    | some e => .error e
    | none =>
      let fileSize := file.length % 2 ^ W
      match headerRun L W fuel carrier fileSize password with
      | .error e => .error e
      | .ok st1 => forEachM (byteStep L fuel file) (List.range fileSize) st1

/-- `main` of the encoder: the image that is saved. -/
def main {G D : Type} (L : Lib G D) (W : Nat) (fuel : Nat) (carrier : Mat)
    (file : List Nat) (password : List Nat) : Except Err Mat :=
  match run L W fuel carrier file password with
  | .error e => .error e
  | .ok st => .ok st.2

end Encoder

/-! ## Decoder.cpp -/

namespace Decoder

/-- The `while (c = *str++)` loop of `hash`. -/
def hashLoop (W : Nat) : Nat → List Nat → Nat
  | h, [] => h
  | h, c :: str =>
    if c = 0 then h
    else hashLoop W ((((h <<< 5) % 2 ^ W + h) % 2 ^ W + c) % 2 ^ W) str

/-- `unsigned long hash(unsigned char *str)`. -/
def hash (W : Nat) (str : List Nat) : Nat := hashLoop W 5381 str

/-- `unsigned char setBitN(unsigned char val, int n)`. -/
def setBitN (val : Nat) (n : Nat) : Nat := (val ||| (1 <<< n)) % 256

/-- Body of the innermost loop of `noiseGenerator` on (image, generator). -/
def noiseStep {G D : Type} (L : Lib G D) (sigma : D) (i j : Nat) (st : Mat × G) (k : Nat) :
    Mat × G :=
  let generatedNumber := (L.gaussian st.2 sigma).1
  let n := L.addToInt (st.1.get i j k) generatedNumber
  let n := if n > 255 then 255 else if n < 0 then 0 else n
  (st.1.set i j k n.toNat, (L.gaussian st.2 sigma).2)

/-- The three nested loops of `noiseGenerator`, with the generator they leave. -/
def noiseLoop {G D : Type} (L : Lib G D) (image : Mat) (sigma : D) (randomGenerator : G) :
    Mat × G :=
  (List.range image.rows).foldl (fun st i =>
    (List.range image.cols).foldl (fun st j =>
      (List.range 3).foldl (noiseStep L sigma i j) st) st) (image, randomGenerator)

/-- `void noiseGenerator(Mat *image, double sigma, RNG randomGenerator)`. -/
def noiseGenerator {G D : Type} (L : Lib G D) (image : Mat) (sigma : D) (randomGenerator : G) :
    Mat :=
  (noiseLoop L image sigma randomGenerator).1

/-- The two checks of `main` on the images (lines 78-90). -/
def sizeChecks (encoded base : Mat) : Option Err :=
  if encoded.rows ≠ base.rows ∨ encoded.cols ≠ base.cols then some .sizeMismatch
  else if toInt32 (toInt32 ((encoded.cols : Int) * encoded.rows) - 32) < 0 then some .imageTooSmall
  else none

/-- One `while(keepGoing)` loop up to and including the marking of the
accepted site; the rest of the accepting branch is run by the caller. -/
def nextSite {G D : Type} (L : Lib G D) (encoded : Mat) :
    Nat → Walk G → Except Err (Site × Walk G)
  | 0, _ => .error .outOfFuel
  | fuel + 1, w =>
    let x := (L.uniform w.rng encoded.rows).1
    let g1 := (L.uniform w.rng encoded.rows).2
    let y := (L.uniform g1 encoded.cols).1
    let g2 := (L.uniform g1 encoded.cols).2
    let channel := (L.uniform g2 3).1
    let g3 := (L.uniform g2 3).2
    if w.visited.inRange x y channel then
      if w.visited.get x y channel = 0 then
        .ok ((x, y, channel),
          { rng := g3, visited := w.visited.set x y channel 1,
            sites := w.sites ++ [(x, y, channel)] })
      else nextSite L encoded fuel { w with rng := g3 }
    else .error .outOfRange

/-- The variables of the header loop. -/
structure SizeState (G : Type) where
  walk : Walk G
  fileSize : Nat
  tmpSize : Nat
  n : Nat

/-- Body of `for(int i=0; i<32; i++)` (lines 133-167). -/
def sizeStep {G D : Type} (L : Lib G D) (fuel : Nat) (encoded base : Mat)
    (st : SizeState G) (i : Nat) : Except Err (SizeState G) :=
  match nextSite L encoded fuel st.walk with
  | .error e => .error e
  | .ok r =>
    let tmpSize :=
      if encoded.get r.1.1 r.1.2.1 r.1.2.2 ≠ base.get r.1.1 r.1.2.1 r.1.2.2 then
        setBitN (st.tmpSize % 256) st.n
      else st.tmpSize
    let n := st.n + 1
    if (i + 1) % 8 = 0 then
      .ok { walk := r.2, fileSize := (st.fileSize + tmpSize * 2 ^ (i - 7)) % 2 ^ 32,
            tmpSize := 0, n := 0 }
    else .ok { walk := r.2, fileSize := st.fileSize, tmpSize := tmpSize, n := n }

/-- The variables of the payload loop; `out` is what has been written to the file. -/
structure FileState (G : Type) where
  walk : Walk G
  sequence0 : Nat
  n : Nat
  out : List Nat

/-- Body of `for(int j=0; j<8; j++)` (lines 176-210). -/
def bitStep {G D : Type} (L : Lib G D) (fuel : Nat) (encoded base : Mat)
    (st : FileState G) (_j : Nat) : Except Err (FileState G) :=
  match nextSite L encoded fuel st.walk with
  | .error e => .error e
  | .ok r =>
    let sequence0 :=
      if encoded.get r.1.1 r.1.2.1 r.1.2.2 ≠ base.get r.1.1 r.1.2.1 r.1.2.2 then
        setBitN (st.sequence0 % 256) st.n
      else st.sequence0
    let n := st.n + 1
    if n % 8 = 0 then
      .ok { walk := r.2, sequence0 := 0, n := 0, out := st.out ++ [sequence0] }
    else .ok { walk := r.2, sequence0 := sequence0, n := n, out := st.out }

/-- Body of `for(int i=0; i<fileSize; i++)` (lines 173-211). -/
def byteStep {G D : Type} (L : Lib G D) (fuel : Nat) (encoded base : Mat)
    (st : FileState G) (_i : Nat) : Except Err (FileState G) :=
  forEachM (bitStep L fuel encoded base) (List.range 8) st

/-- Lines 99-167 of `main`: seed, generator, noise on the base, `visited`,
header loop; the state in which the loop ends. -/
def headerRun {G D : Type} (L : Lib G D) (W : Nat) (fuel : Nat) (encoded base : Mat)
    (password : List Nat) : Except Err (SizeState G) :=
  let seed := hash W password
  let randomGenerator := L.mkRNG seed
  let base1 := noiseGenerator L base L.three randomGenerator
  let visited := zeroMat encoded.rows encoded.cols
  forEachM (sizeStep L fuel encoded base1) (List.range 32)
    { walk := { rng := randomGenerator, visited := visited, sites := [] },
      fileSize := 0, tmpSize := 0, n := 0 }

/-- Body of `main` from the two loaded images and the password typed, to the
state in which the payload loop ends. -/
def run {G D : Type} (L : Lib G D) (W : Nat) (fuel : Nat) (encoded base : Mat)
    (password : List Nat) : Except Err (FileState G) :=
  if encoded.empty || base.empty then .error .invalidInput
  else
    match sizeChecks encoded base with
    | some e => .error e
    | none =>
      match headerRun L W fuel encoded base password with
      | .error e => .error e
      | .ok st1 =>
        forEachM
          (byteStep L fuel encoded (noiseGenerator L base L.three (L.mkRNG (hash W password))))
          (List.range st1.fileSize)
          { walk := st1.walk, sequence0 := 0, n := 0, out := [] }

/-- `main` of the decoder: the bytes written to the output file. -/
def main {G D : Type} (L : Lib G D) (W : Nat) (fuel : Nat) (encoded base : Mat)
    (password : List Nat) : Except Err (List Nat) :=
  match run L W fuel encoded base password with
  | .error e => .error e
  | .ok st => .ok st.out

end Decoder

/-! ## Invariants used in the statements -/

/-- The traversal state is consistent on a `rows x cols` grid: `visited` has
that size, the accepted sites are distinct and inside the grid, and a triple
is marked exactly when it has been accepted. -/
def WalkInv {G : Type} (rows cols : Nat) (w : Walk G) : Prop :=
  w.visited.rows = rows ∧ w.visited.cols = cols ∧ w.sites.Nodup
    ∧ (∀ s ∈ w.sites, s.1 < rows ∧ s.2.1 < cols ∧ s.2.2 < 3)
    ∧ (∀ x y c, w.visited.get x y c ≠ 0 ↔ (x, y, c) ∈ w.sites)

/-- The traversal state `b` comes after `a`: consistency is kept, the
accepted sites of `a` are an initial part of those of `b`, and marks are kept. -/
def WalkExtends {G : Type} (rows cols : Nat) (a b : Walk G) : Prop :=
  (WalkInv rows cols a → WalkInv rows cols b)
    ∧ (∃ l, b.sites = a.sites ++ l)
    ∧ ∀ x y c, a.visited.get x y c ≠ 0 → b.visited.get x y c ≠ 0

/-- The second state continues the first: marks are kept, and the image is
unchanged at every marked triple. -/
def Continues {G : Type} (a b : Walk G × Mat) : Prop :=
  b.2.rows = a.2.rows ∧ b.2.cols = a.2.cols
    ∧ ∀ x y c, a.1.visited.get x y c ≠ 0 →
        b.1.visited.get x y c ≠ 0 ∧ b.2.get x y c = a.2.get x y c

/-- The image equals `B` at every triple that is not marked. -/
def AgreesOffMarks {G : Type} (B : Mat) (st : Walk G × Mat) : Prop :=
  ∀ x y c, st.1.visited.get x y c = 0 → st.2.get x y c = B.get x y c

/-- Invariant of the encoder's loops on a `rows x cols` carrier whose noised
form is `B`. -/
def EncInv {G : Type} (rows cols : Nat) (B : Mat) (st : Walk G × Mat) : Prop :=
  WalkInv rows cols st.1 ∧ AgreesOffMarks B st ∧ st.2.rows = rows ∧ st.2.cols = cols

/-- Every channel inside the grid of `m` is at most 255. -/
def Mat.isByte (m : Mat) : Prop :=
  ∀ i j k, i < m.rows → j < m.cols → k < 3 → m.get i j k ≤ 255

/-! ## The streams of draws, and what is read off the sites -/

/-- The bound of bounded draw number `d` of a traversal: rows, cols, 3 in turn. -/
def boundAt (rows cols d : Nat) : Nat :=
  if d % 3 = 0 then rows else if d % 3 = 1 then cols else 3

/-- The generator after `d` bounded draws of a traversal. -/
def drawRng {G D : Type} (L : Lib G D) (rows cols : Nat) : Nat → G → G
  | 0, g => g
  | d + 1, g => (L.uniform (drawRng L rows cols d g) (boundAt rows cols d)).2

/-- The value of bounded draw number `d` of a traversal that starts at `g`. -/
def drawVal {G D : Type} (L : Lib G D) (rows cols d : Nat) (g : G) : Nat :=
  (L.uniform (drawRng L rows cols d g) (boundAt rows cols d)).1

/-- The generator after `n` Gaussian draws. -/
def gaussRng {G D : Type} (L : Lib G D) (sigma : D) : Nat → G → G
  | 0, g => g
  | n + 1, g => (L.gaussian (gaussRng L sigma n g) sigma).2

/-- The value of Gaussian draw number `n` from `g`. -/
def gaussVal {G D : Type} (L : Lib G D) (sigma : D) (n : Nat) (g : G) : D :=
  (L.gaussian (gaussRng L sigma n g) sigma).1

/-- An `int` clamped to `[0, 255]` and stored in a channel. -/
def clampByte (n : Int) : Nat := (if n > 255 then 255 else if n < 0 then 0 else n).toNat

/-- `n` selections in a row on a grid of the size of `image`. -/
def walkN {G D : Type} (L : Lib G D) (image : Mat) (fuel : Nat) : Nat → Walk G → Except Err (Walk G)
  | 0, w => .ok w
  | n + 1, w =>
    match Encoder.nextSite L image fuel w with
    | .error e => .error e
    | .ok r => walkN L image fuel n r.2

/-- The value the accepting branches of the encoder leave in a channel that
held `v`, when the bit embedded is `bit`. -/
def embedded (bit v : Nat) : Nat :=
  if bit ≠ 0 then (if v < 255 then v + 1 else if v = 255 then v - 1 else v) else v

/-- 1 when the two images differ at the site, 0 when they agree. -/
def diffBit (encoded base : Mat) (s : Site) : Nat :=
  if encoded.get s.1 s.2.1 s.2.2 ≠ base.get s.1 s.2.1 s.2.2 then 1 else 0

/-- The number whose bits, least significant first, are the list. -/
def bitsVal : List Nat → Nat
  | [] => 0
  | b :: bs => b + 2 * bitsVal bs

/-- State of the noise loops after `n` draws on `image` from `g`: the
generator has made `n` draws, and the channels with index below `n` (the index
of channel `c` of pixel `(x, y)` being `(x * cols + y) * 3 + c`) hold their
clamped noised value, the others their value in `image`. -/
def NoiseDone {G D : Type} (L : Lib G D) (sigma : D) (image : Mat) (g : G) (n : Nat)
    (st : Mat × G) : Prop :=
  st.2 = gaussRng L sigma n g ∧ st.1.rows = image.rows ∧ st.1.cols = image.cols
    ∧ ∀ x y c, st.1.get x y c =
        if y < image.cols ∧ c < 3 ∧ (x * image.cols + y) * 3 + c < n then
          clampByte (L.addToInt (image.get x y c)
            (gaussVal L sigma ((x * image.cols + y) * 3 + c) g))
        else image.get x y c

/-! ## The arithmetic of `double` -/

/-- An IEEE 754 binary64 value, given by its 64 bits. -/
structure Double where
  bits : Nat

/-- The number a `double` stands for: sign bit 63, exponent bits 62-52,
fraction bits 51-0; `none` for the infinities and the NaNs. -/
def Double.value (d : Double) : Option ℚ :=
  let b : Nat := d.bits % 2 ^ 64
  let sign : ℚ := if b / 2 ^ 63 = 1 then -1 else 1
  let ex : Nat := b / 2 ^ 52 % 2 ^ 11
  let frac : Nat := b % 2 ^ 52
  if ex = 2047 then none
  else if ex = 0 then some (sign * frac / 2 ^ 1074)
  else some (sign * (2 ^ 52 + frac) * 2 ^ ex / 2 ^ 1075)

/-- The nearest integer, a tie going to the even one. -/
def roundHalfEven (t : ℚ) : Int :=
  if t - ⌊t⌋ < 1 / 2 then ⌊t⌋
  else if 1 / 2 < t - ⌊t⌋ then ⌊t⌋ + 1
  else if ⌊t⌋ % 2 = 0 then ⌊t⌋
  else ⌊t⌋ + 1

/-- The exponent of the spacing of the `double`s around `x`: 52 below the
exponent of `x`, and -1074 at least. -/
def ulpExp (x : ℚ) : Int := max (Int.log 2 |x| - 52) (-1074)

/-- The result of a `double` operation whose exact result is `x`, in the
default rounding mode: the nearest multiple of the spacing around `x`, a tie
going to the even one; `none` when that is beyond the largest `double` (the
result is an infinity). -/
def roundDouble (x : ℚ) : Option ℚ :=
  let r : ℚ := roundHalfEven (x / 2 ^ ulpExp x) * 2 ^ ulpExp x
  if |r| < 2 ^ 1024 then some r else none

/-- A number with its fractional part discarded (toward zero). -/
def truncInt (x : ℚ) : Int := if 0 ≤ x then ⌊x⌋ else ⌈x⌉

/-- The numbers that are finite `double`s. -/
def IsDouble (y : ℚ) : Prop :=
  ∃ m e : Int, y = m * 2 ^ e ∧ |m| < 2 ^ 53 ∧ -1074 ≤ e ∧ |y| < 2 ^ 1024

/-- The `int` that `image->at<Vec3b>(i,j)[k]+generatedNumber` is stored as
(Encoder.cpp line 64), with IEEE 754 `double`s: the channel value `v` becomes
a `double` unchanged, the sum is rounded to a `double`, and the conversion to
`int` discards the fractional part. Where C leaves the conversion undefined
(the sum is an infinity or a NaN, or its integral part is not an `int`) the
result is what `undef` gives. -/
def intOfSum (undef : Nat → Double → Int) (v : Nat) (d : Double) : Int :=
  match d.value with
  | none => undef v d
  | some q =>
    match roundDouble (v + q) with
    | none => undef v d
    | some s =>
      if -2 ^ 31 ≤ truncInt s ∧ truncInt s < 2 ^ 31 then truncInt s else undef v d

/-- The library made of a generator and IEEE 754 `double`s; `three` is the
`double` 3. -/
def ieeeLib {G : Type} (mkRNG : Nat → G) (uniform : G → Nat → Nat × G)
    (gaussian : G → Double → Double × G) (undef : Nat → Double → Int) : Lib G Double where
  mkRNG := mkRNG
  uniform := uniform
  gaussian := gaussian
  addToInt := intOfSum undef
  three := ⟨0x4008000000000000⟩

/-! ## A small library instance for concrete runs -/

/-- A counter generator: the state counts the draws made; draw number `t`
with bound `b` is digit `t % 3` (base 6) of `t / 3`, reduced modulo `b`. The
Gaussian draw is `-sigma`, `0` or `sigma` in turn, and doubles are integers. -/
def demoLib : Lib Nat Int where
  mkRNG := fun seed => 3 * seed
  uniform := fun t b => (((t / 3) / 6 ^ (t % 3)) % b, t + 1)
  gaussian := fun t sigma => (sigma * ((t % 3 : Nat) - 1 : Int), t + 1)
  addToInt := fun v d => v + d
  three := 3

/-- A Gaussian draw for concrete runs: the state counts the draws made, and
draw number `t` is -3.5, 0.75 or 300.25 in turn. -/
def demoGaussian (t : Nat) (_sigma : Double) : Double × Nat :=
  (if t % 3 = 0 then ⟨0xC00C000000000000⟩
    else if t % 3 = 1 then ⟨0x3FE8000000000000⟩
    else ⟨0x4072C40000000000⟩, t + 1)

/-- A carrier of the given size with channel values `0 .. 255` repeating. -/
def demoMat (rows cols : Nat) : Mat :=
  { rows := rows, cols := cols, px := fun i j k => (7 * i + 85 * j + 127 * k) % 256 }

/-- A traversal state on a 6x6 grid in which the triple (0, 0, 0) is taken. -/
def demoWalk : Walk Nat :=
  { rng := 0, visited := (zeroMat 6 6).set 0 0 0 1, sites := [(0, 0, 0)] }

end Stenography

/-! # Properties -/

namespace Stenography

/-! ## Machine integers -/

theorem toInt32_of_range (z : Int) (h0 : -2 ^ 31 ≤ z) (h1 : z < 2 ^ 31) : toInt32 z = z := by
  unfold toInt32
  have : (z + 2 ^ 31) % 2 ^ 32 = z + 2 ^ 31 := Int.emod_eq_of_lt (by omega) (by omega)
  omega

/-- The `int` expression `cols*rows-32` when the pixel count fits in an `int`. -/
theorem pixelsMinus32 (rows cols : Nat) (h : rows * cols < 2 ^ 31) :
    toInt32 (toInt32 ((cols : Int) * rows) - 32) = (rows * cols : Nat) - 32 := by
  have h1 : ((cols : Int) * rows) = ((rows * cols : Nat) : Int) := by push_cast; ring
  have h2 : (((rows * cols : Nat) : Int)) < 2 ^ 31 := by exact_mod_cast h
  rw [h1, toInt32_of_range _ (by omega) h2, toInt32_of_range _ (by omega) (by omega)]

theorem toULong_nonneg (W : Nat) (z : Int) (h0 : 0 ≤ z) (h1 : z < 2 ^ W) :
    toULong W z = z.toNat := by
  unfold toULong
  rw [Int.emod_eq_of_lt h0 h1]

theorem toULong_neg (W : Nat) (z : Int) (h0 : z < 0) (h1 : -2 ^ W ≤ z) :
    (toULong W z : Int) = z + 2 ^ W := by
  unfold toULong
  have h2 : z % 2 ^ W = (z + 2 ^ W) % 2 ^ W := by simp
  have h3 : (z + 2 ^ W) % 2 ^ W = z + 2 ^ W := Int.emod_eq_of_lt (by omega) (by omega)
  rw [h2, h3, Int.toNat_of_nonneg (by omega)]

theorem two_pow_le_width (W : Nat) (hW : 32 < W) : (2 : Nat) ^ 33 ≤ 2 ^ W :=
  Nat.pow_le_pow_right (by norm_num) hW

/-- The checks of the encoder, when the pixel count fits in an `int` and
`unsigned long` is wider than 32 bits. -/
theorem Encoder.sizeChecks_eq (W rows cols stSize : Nat) (hW : 32 < W)
    (hpix : rows * cols < 2 ^ 31) :
    Encoder.sizeChecks W rows cols stSize =
      if 2 ^ 32 ≤ stSize then some .fileTooBig
      else if rows * cols < 32 then some .imageTooSmall
      else if rows * cols - 32 < stSize then some .fileTooBig
      else none := by
  unfold Encoder.sizeChecks
  have hM := two_pow_le_width W hW
  have hMi : (2 : Int) ^ 33 ≤ 2 ^ W := by exact_mod_cast hM
  rw [pixelsMinus32 rows cols hpix]
  generalize rows * cols = p at *
  by_cases hbig : 2 ^ 32 ≤ stSize
  · rw [if_pos hbig, if_pos hbig]
  · have hmod : stSize % 2 ^ W = stSize := Nat.mod_eq_of_lt (by omega)
    rw [if_neg hbig, if_neg hbig]
    simp only [hmod]
    by_cases hsmall : p < 32
    · have hneg : ((p : Int) - 32) < 0 := by omega
      have hu := toULong_neg W _ hneg (by omega)
      have hnot : ¬ (toULong W ((p : Int) - 32) < stSize) := by
        intro hlt
        have : (toULong W ((p : Int) - 32) : Int) < stSize := by exact_mod_cast hlt
        omega
      rw [if_neg hnot, if_pos hneg, if_pos hsmall]
    · have hnn : (0 : Int) ≤ (p : Int) - 32 := by omega
      have hu := toULong_nonneg W _ hnn (by omega)
      have hnl : ¬ (((p : Int) - 32) < 0) := by omega
      have ht : ((p : Int) - 32).toNat = p - 32 := by omega
      rw [hu, ht, if_neg hnl, if_neg hsmall]

/-- The checks of the encoder pass when the carrier has at least 32 pixels,
the file has at most `rows*cols - 32` bytes and `unsigned long` has at least
32 bits. -/
theorem Encoder.sizeChecks_of_room (W rows cols stSize : Nat) (hW : 32 ≤ W)
    (hpix : rows * cols < 2 ^ 31) (h32 : 32 ≤ rows * cols)
    (hle : stSize ≤ rows * cols - 32) :
    Encoder.sizeChecks W rows cols stSize = none := by
  unfold Encoder.sizeChecks
  have hM : (2 : Nat) ^ 32 ≤ 2 ^ W := Nat.pow_le_pow_right (by norm_num) hW
  have hMi : (2 : Int) ^ 32 ≤ 2 ^ W := by exact_mod_cast hM
  rw [pixelsMinus32 rows cols hpix]
  generalize rows * cols = p at *
  have hbig : ¬ (2 ^ 32 ≤ stSize) := by omega
  have hmod : stSize % 2 ^ W = stSize := Nat.mod_eq_of_lt (by omega)
  rw [if_neg hbig]
  simp only [hmod]
  have hnn : (0 : Int) ≤ (p : Int) - 32 := by omega
  have hu := toULong_nonneg W _ hnn (by omega)
  have hnl : ¬ (((p : Int) - 32) < 0) := by omega
  have ht : ((p : Int) - 32).toNat = p - 32 := by omega
  rw [hu, ht, if_neg hnl, if_neg (by omega)]

theorem Decoder.decoder_sizeChecks_eq (encoded base : Mat) (hpix : encoded.rows * encoded.cols < 2 ^ 31) :
    Decoder.sizeChecks encoded base =
      if encoded.rows ≠ base.rows ∨ encoded.cols ≠ base.cols then some .sizeMismatch
      else if encoded.rows * encoded.cols < 32 then some .imageTooSmall
      else none := by
  unfold Decoder.sizeChecks
  rw [pixelsMinus32 _ _ hpix]
  generalize encoded.rows * encoded.cols = p at *
  by_cases hsmall : p < 32
  · have hneg : ((p : Int) - 32) < 0 := by omega
    rw [if_pos hneg, if_pos hsmall]
  · have hnl : ¬ (((p : Int) - 32) < 0) := by omega
    rw [if_neg hnl, if_neg hsmall]

/-! ## The hash -/

theorem hash_step (W h c : Nat) :
    (((h <<< 5) % 2 ^ W + h) % 2 ^ W + c) % 2 ^ W = (h * 33 + c) % 2 ^ W := by
  rw [Nat.shiftLeft_eq]
  have e : h * 33 = h * 2 ^ 5 + h := by norm_num; ring
  rw [e]
  simp [Nat.add_mod]

theorem Encoder.hashLoop_eq_foldl (W : Nat) (str : List Nat) (h : Nat) :
    Encoder.hashLoop W h str
      = (str.takeWhile (fun c => c ≠ 0)).foldl (fun acc c => (acc * 33 + c) % 2 ^ W) h := by
  induction str generalizing h with
  | nil => simp [Encoder.hashLoop]
  | cons c str ih =>
    by_cases hc : c = 0
    · simp [Encoder.hashLoop, hc, List.takeWhile]
    · have e := hash_step W h c
      simp only [Encoder.hashLoop, hc, if_false, ih, e]
      simp [List.takeWhile, hc]

theorem Decoder.hashLoop_eq_encoder (W : Nat) (str : List Nat) (h : Nat) :
    Decoder.hashLoop W h str = Encoder.hashLoop W h str := by
  induction str generalizing h with
  | nil => simp [Decoder.hashLoop, Encoder.hashLoop]
  | cons c str ih => simp [Decoder.hashLoop, Encoder.hashLoop, ih]

/-- C8. For every password, `hash` is the left fold, from 5381, of
`acc ↦ (acc * 33 + c) mod 2^W` over the bytes before the first null byte; the
empty password gives 5381; the encoder's and the decoder's `hash` agree. -/
theorem C8_hash_is_djb2 (W : Nat) (str : List Nat) :
    Encoder.hash W str
        = (str.takeWhile (fun c => c ≠ 0)).foldl (fun acc c => (acc * 33 + c) % 2 ^ W) 5381
      ∧ Encoder.hash W [] = 5381
      ∧ Decoder.hash W str = Encoder.hash W str := by
  refine ⟨Encoder.hashLoop_eq_foldl W str 5381, rfl, ?_⟩
  exact Decoder.hashLoop_eq_encoder W str 5381

/-! ## Reading and writing a channel -/

@[simp] theorem Mat.get_set_same (m : Mat) (i j k v : Nat) : (m.set i j k v).get i j k = v := by
  simp [Mat.get, Mat.set]

theorem Mat.get_set_other (m : Mat) (i j k v a b c : Nat) (h : (a, b, c) ≠ (i, j, k)) :
    (m.set i j k v).get a b c = m.get a b c := by
  have h1 : ¬ (a = i ∧ b = j ∧ c = k) := by
    rintro ⟨rfl, rfl, rfl⟩; exact h rfl
  simp [Mat.get, Mat.set, h1]

@[simp] theorem Mat.set_rows (m : Mat) (i j k v : Nat) : (m.set i j k v).rows = m.rows := rfl

@[simp] theorem Mat.set_cols (m : Mat) (i j k v : Nat) : (m.set i j k v).cols = m.cols := rfl

/-! ## The saturating increment -/

/-- C6. For a channel value `v` in `[0,255]`, the accepting branch of the
header loop and that of the payload loop both leave `v + 1` (or `254` when
`v = 255`) at the site when the bit is 1, a value in `[0,255]` at distance one
from `v`, and leave `v` when the bit is 0. -/
theorem C6_saturation_policy (carrier : Mat) (s : Site) (fileSize i bit v : Nat)
    (hv : carrier.get s.1 s.2.1 s.2.2 = v) (h255 : v ≤ 255) :
    (Encoder.getBitN (toInt32 fileSize) i ≠ 0 →
        (Encoder.sizeAccept carrier fileSize i s).get s.1 s.2.1 s.2.2
          = if v < 255 then v + 1 else 254)
      ∧ (Encoder.getBitN (toInt32 fileSize) i = 0 →
        (Encoder.sizeAccept carrier fileSize i s).get s.1 s.2.1 s.2.2 = v)
      ∧ (bit ≠ 0 →
        (Encoder.fileAccept carrier bit s).get s.1 s.2.1 s.2.2 = if v < 255 then v + 1 else 254)
      ∧ (bit = 0 → (Encoder.fileAccept carrier bit s).get s.1 s.2.1 s.2.2 = v)
      ∧ (if v < 255 then v + 1 else 254) ≤ 255
      ∧ ((if v < 255 then v + 1 else 254) = v + 1 ∨ (if v < 255 then v + 1 else 254) + 1 = v) := by
  subst hv
  refine ⟨?_, ?_, ?_, ?_, ?_, ?_⟩
  · intro hb
    by_cases hlt : carrier.get s.1 s.2.1 s.2.2 < 255
    · simp [Encoder.sizeAccept, hb, hlt]
    · have he : carrier.get s.1 s.2.1 s.2.2 = 255 := by omega
      simp [Encoder.sizeAccept, hb, he]
  · intro hb
    simp [Encoder.sizeAccept, hb]
  · intro hb
    by_cases hlt : carrier.get s.1 s.2.1 s.2.2 < 255
    · simp [Encoder.fileAccept, hb, hlt]
    · have he : carrier.get s.1 s.2.1 s.2.2 = 255 := by omega
      simp [Encoder.fileAccept, hb, he]
  · intro hb
    simp [Encoder.fileAccept, hb]
  · split <;> omega
  · split <;> omega

/-- C6 at the value 255 of a concrete carrier. -/
theorem C6_saturation_policy_witness :
    (Encoder.getBitN (toInt32 1) 0 ≠ 0 →
        (Encoder.sizeAccept (demoMat 6 6) 1 0 (0, 3, 0)).get 0 3 0
          = if 255 < 255 then 255 + 1 else 254)
      ∧ (Encoder.getBitN (toInt32 1) 0 = 0 →
        (Encoder.sizeAccept (demoMat 6 6) 1 0 (0, 3, 0)).get 0 3 0 = 255)
      ∧ ((1 : Nat) ≠ 0 →
        (Encoder.fileAccept (demoMat 6 6) 1 (0, 3, 0)).get 0 3 0
          = if 255 < 255 then 255 + 1 else 254)
      ∧ ((1 : Nat) = 0 → (Encoder.fileAccept (demoMat 6 6) 1 (0, 3, 0)).get 0 3 0 = 255)
      ∧ (if 255 < 255 then 255 + 1 else 254) ≤ 255
      ∧ ((if 255 < 255 then 255 + 1 else 254) = 255 + 1
          ∨ (if 255 < 255 then 255 + 1 else 254) + 1 = 255) :=
  C6_saturation_policy (demoMat 6 6) (0, 3, 0) 1 0 1 255 (by decide) (by decide)

/-! ## Noise -/

/-- C10. On every buffer, sigma and generator state the decoder's
`noiseGenerator` gives the buffer the encoder's gives; so with the same
password the decoder's noised base is the encoder's noised carrier when base
and carrier are the same image. -/
theorem C10_noise_same_in_both {G D : Type} (L : Lib G D) (B : Mat) (sigma : D) (g : G) :
    Decoder.noiseGenerator L B sigma g = Encoder.noiseGenerator L B sigma g
      ∧ ∀ (W : Nat) (password : List Nat),
          Decoder.noiseGenerator L B L.three (L.mkRNG (Decoder.hash W password))
            = Encoder.noiseGenerator L B L.three (L.mkRNG (Encoder.hash W password)) := by
  refine ⟨rfl, fun W password => ?_⟩
  have h : Decoder.hash W password = Encoder.hash W password :=
    Decoder.hashLoop_eq_encoder W password 5381
  rw [h]
  rfl

/-! ## Errors of the loops -/

theorem forEachM_error {σ α : Type} (body : σ → α → Except Err σ) (P : Err → Prop)
    (hbody : ∀ s a e, body s a = .error e → P e) (l : List α) (s : σ) (e : Err)
    (h : forEachM body l s = .error e) : P e := by
  induction l generalizing s with
  | nil => simp [forEachM] at h
  | cons a as ih =>
    unfold forEachM at h
    cases hb : body s a with
    | error e1 =>
      rw [hb] at h
      simp only [Except.error.injEq] at h
      subst h
      exact hbody s a e1 hb
    | ok s1 =>
      rw [hb] at h
      exact ih s1 h

theorem Encoder.nextSite_error {G D : Type} (L : Lib G D) (carrier : Mat) (fuel : Nat)
    (w : Walk G) (e : Err) (h : Encoder.nextSite L carrier fuel w = .error e) :
    e = .outOfFuel ∨ e = .outOfRange := by
  induction fuel generalizing w with
  | zero =>
    simp only [Encoder.nextSite, Except.error.injEq] at h
    exact Or.inl h.symm
  | succ fuel ih =>
    simp only [Encoder.nextSite] at h
    split at h
    · split at h
      · simp at h
      · exact ih _ h
    · simp only [Except.error.injEq] at h
      exact Or.inr h.symm

theorem Decoder.nextSite_eq_encoder {G D : Type} (L : Lib G D) (image : Mat) (fuel : Nat)
    (w : Walk G) : Decoder.nextSite L image fuel w = Encoder.nextSite L image fuel w := by
  induction fuel generalizing w with
  | zero => rfl
  | succ fuel ih =>
    simp only [Decoder.nextSite, Encoder.nextSite, ih]

theorem Encoder.run_error {G D : Type} (L : Lib G D) (W fuel : Nat) (carrier : Mat)
    (file password : List Nat) (e : Err)
    (h : Encoder.run L W fuel carrier file password = .error e) :
    (carrier.empty = true ∧ e = .invalidInput)
      ∨ (carrier.empty = false ∧ Encoder.sizeChecks W carrier.rows carrier.cols file.length = some e)
      ∨ (carrier.empty = false ∧ Encoder.sizeChecks W carrier.rows carrier.cols file.length = none
          ∧ (e = .outOfFuel ∨ e = .outOfRange)) := by
  unfold Encoder.run at h
  cases hempty : carrier.empty with
  | true =>
    rw [hempty] at h
    simp only [if_true, Except.error.injEq] at h
    exact Or.inl ⟨rfl, h.symm⟩
  | false =>
    rw [hempty] at h
    simp only [Bool.false_eq_true, if_false] at h
    cases hchk : Encoder.sizeChecks W carrier.rows carrier.cols file.length with
    | some e1 =>
      rw [hchk] at h
      simp only [Except.error.injEq] at h
      subst h
      exact Or.inr (Or.inl ⟨rfl, rfl⟩)
    | none =>
      rw [hchk] at h
      simp only at h
      refine Or.inr (Or.inr ⟨rfl, rfl, ?_⟩)
      have hnext : ∀ (c : Mat) (w : Walk G) (e : Err),
          Encoder.nextSite L c fuel w = .error e → e = .outOfFuel ∨ e = .outOfRange :=
        fun c w e => Encoder.nextSite_error L c fuel w e
      cases hhead : Encoder.headerRun L W fuel carrier (file.length % 2 ^ W) password with
      | error e1 =>
        rw [hhead] at h
        simp only [Except.error.injEq] at h
        subst h
        unfold Encoder.headerRun at hhead
        refine forEachM_error _ (fun e => e = .outOfFuel ∨ e = .outOfRange) ?_ _ _ _ hhead
        intro s a e hs
        unfold Encoder.sizeStep at hs
        split at hs
        · rename_i e2 heq
          simp only [Except.error.injEq] at hs
          subst hs
          exact hnext _ _ _ heq
        · simp at hs
      | ok st1 =>
        rw [hhead] at h
        simp only at h
        refine forEachM_error _ (fun e => e = .outOfFuel ∨ e = .outOfRange) ?_ _ _ _ h
        intro s a e hs
        unfold Encoder.byteStep at hs
        refine forEachM_error _ (fun e => e = .outOfFuel ∨ e = .outOfRange) ?_ _ _ _ hs
        intro s a e hs
        unfold Encoder.bitStep at hs
        split at hs
        · rename_i e2 heq
          simp only [Except.error.injEq] at hs
          subst hs
          exact hnext _ _ _ heq
        · simp at hs

theorem Decoder.sizeStep_error {G D : Type} (L : Lib G D) (fuel : Nat) (encoded base : Mat)
    (st : Decoder.SizeState G) (i : Nat) (e : Err)
    (h : Decoder.sizeStep L fuel encoded base st i = .error e) :
    Decoder.nextSite L encoded fuel st.walk = .error e := by
  unfold Decoder.sizeStep at h
  cases hn : Decoder.nextSite L encoded fuel st.walk with
  | error e1 =>
    rw [hn] at h
    simpa using h
  | ok r =>
    rw [hn] at h
    by_cases h8 : (i + 1) % 8 = 0
    · simp [h8] at h
    · simp [h8] at h

theorem Decoder.bitStep_error {G D : Type} (L : Lib G D) (fuel : Nat) (encoded base : Mat)
    (st : Decoder.FileState G) (j : Nat) (e : Err)
    (h : Decoder.bitStep L fuel encoded base st j = .error e) :
    Decoder.nextSite L encoded fuel st.walk = .error e := by
  unfold Decoder.bitStep at h
  cases hn : Decoder.nextSite L encoded fuel st.walk with
  | error e1 =>
    rw [hn] at h
    simpa using h
  | ok r =>
    rw [hn] at h
    by_cases h8 : (st.n + 1) % 8 = 0
    · simp [h8] at h
    · simp [h8] at h

theorem Decoder.decoder_run_error {G D : Type} (L : Lib G D) (W fuel : Nat) (encoded base : Mat)
    (password : List Nat) (e : Err)
    (h : Decoder.run L W fuel encoded base password = .error e) :
    ((encoded.empty || base.empty) = true ∧ e = .invalidInput)
      ∨ ((encoded.empty || base.empty) = false ∧ Decoder.sizeChecks encoded base = some e)
      ∨ ((encoded.empty || base.empty) = false ∧ Decoder.sizeChecks encoded base = none
          ∧ (e = .outOfFuel ∨ e = .outOfRange)) := by
  unfold Decoder.run at h
  cases hempty : (encoded.empty || base.empty) with
  | true =>
    rw [hempty] at h
    simp only [if_true, Except.error.injEq] at h
    exact Or.inl ⟨rfl, h.symm⟩
  | false =>
    rw [hempty] at h
    simp only [Bool.false_eq_true, if_false] at h
    cases hchk : Decoder.sizeChecks encoded base with
    | some e1 =>
      rw [hchk] at h
      simp only [Except.error.injEq] at h
      subst h
      exact Or.inr (Or.inl ⟨rfl, rfl⟩)
    | none =>
      rw [hchk] at h
      simp only at h
      refine Or.inr (Or.inr ⟨rfl, rfl, ?_⟩)
      have hnext : ∀ (c : Mat) (w : Walk G) (e : Err),
          Decoder.nextSite L c fuel w = .error e → e = .outOfFuel ∨ e = .outOfRange := by
        intro c w e he
        rw [Decoder.nextSite_eq_encoder] at he
        exact Encoder.nextSite_error L c fuel w e he
      cases hhead : Decoder.headerRun L W fuel encoded base password with
      | error e1 =>
        rw [hhead] at h
        simp only [Except.error.injEq] at h
        subst h
        unfold Decoder.headerRun at hhead
        refine forEachM_error _ (fun e => e = .outOfFuel ∨ e = .outOfRange) ?_ _ _ _ hhead
        intro s a e hs
        exact hnext _ _ _ (Decoder.sizeStep_error L fuel _ _ s a e hs)
      | ok st1 =>
        rw [hhead] at h
        simp only at h
        refine forEachM_error _ (fun e => e = .outOfFuel ∨ e = .outOfRange) ?_ _ _ _ h
        intro s a e hs
        unfold Decoder.byteStep at hs
        refine forEachM_error _ (fun e => e = .outOfFuel ∨ e = .outOfRange) ?_ _ _ _ hs
        intro s a e hs
        exact hnext _ _ _ (Decoder.bitStep_error L fuel _ _ s a e hs)

theorem Encoder.main_error_iff {G D : Type} (L : Lib G D) (W fuel : Nat) (carrier : Mat)
    (file password : List Nat) (e : Err) :
    Encoder.main L W fuel carrier file password = .error e
      ↔ Encoder.run L W fuel carrier file password = .error e := by
  unfold Encoder.main
  cases Encoder.run L W fuel carrier file password <;> simp

theorem Decoder.decoder_main_error_iff {G D : Type} (L : Lib G D) (W fuel : Nat) (encoded base : Mat)
    (password : List Nat) (e : Err) :
    Decoder.main L W fuel encoded base password = .error e
      ↔ Decoder.run L W fuel encoded base password = .error e := by
  unfold Decoder.main
  cases Decoder.run L W fuel encoded base password <;> simp

theorem Encoder.run_of_check {G D : Type} (L : Lib G D) (W fuel : Nat) (carrier : Mat)
    (file password : List Nat) (e : Err) (hne : carrier.empty = false)
    (hchk : Encoder.sizeChecks W carrier.rows carrier.cols file.length = some e) :
    Encoder.run L W fuel carrier file password = .error e := by
  unfold Encoder.run
  rw [hne, hchk]
  simp

theorem Decoder.decoder_run_of_check {G D : Type} (L : Lib G D) (W fuel : Nat) (encoded base : Mat)
    (password : List Nat) (e : Err) (hne : (encoded.empty || base.empty) = false)
    (hchk : Decoder.sizeChecks encoded base = some e) :
    Decoder.run L W fuel encoded base password = .error e := by
  unfold Decoder.run
  rw [hne, hchk]
  simp

theorem Mat.empty_eq_false_iff (m : Mat) : m.empty = false ↔ 0 < m.rows * m.cols := by
  unfold Mat.empty
  simp [Nat.pos_iff_ne_zero]

/-! ## The size checks -/

/-- C3, as the code has it. With a non-empty image whose pixel count fits in
an `int` (and `unsigned long` wider than 32 bits), the encoder ends in the
"image is too small" error exactly when the carrier has fewer than 32 pixels
and the file is shorter than 2^32 bytes, and the decoder exactly when the two
images have the same dimensions and fewer than 32 pixels. -/
theorem C3_too_small_is_fewer_than_32_pixels {G D : Type} (L : Lib G D) (W fuel : Nat)
    (carrier encoded base : Mat) (file password : List Nat) (hW : 32 < W)
    (hc0 : 0 < carrier.rows * carrier.cols) (hc1 : carrier.rows * carrier.cols < 2 ^ 31)
    (he0 : 0 < encoded.rows * encoded.cols) (he1 : encoded.rows * encoded.cols < 2 ^ 31) :
    (Encoder.main L W fuel carrier file password = .error .imageTooSmall
        ↔ carrier.rows * carrier.cols < 32 ∧ file.length < 2 ^ 32)
      ∧ (Decoder.main L W fuel encoded base password = .error .imageTooSmall
        ↔ encoded.rows = base.rows ∧ encoded.cols = base.cols
            ∧ encoded.rows * encoded.cols < 32) := by
  have hcne : carrier.empty = false := (Mat.empty_eq_false_iff carrier).2 hc0
  have hene : encoded.empty = false := (Mat.empty_eq_false_iff encoded).2 he0
  constructor
  · rw [Encoder.main_error_iff]
    have hchk := Encoder.sizeChecks_eq W carrier.rows carrier.cols file.length hW hc1
    constructor
    · intro h
      rcases Encoder.run_error L W fuel carrier file password _ h with h1 | h1 | h1
      · exact absurd h1.2 (by decide)
      · have h2 := h1.2
        rw [hchk] at h2
        split at h2
        · exact absurd h2 (by decide)
        · split at h2
          · constructor <;> omega
          · split at h2 <;> exact absurd h2 (by decide)
      · rcases h1.2.2 with h3 | h3 <;> exact absurd h3 (by decide)
    · rintro ⟨h1, h2⟩
      apply Encoder.run_of_check L W fuel carrier file password _ hcne
      rw [hchk, if_neg (by omega), if_pos h1]
  · rw [Decoder.decoder_main_error_iff]
    have hchk := Decoder.decoder_sizeChecks_eq encoded base he1
    constructor
    · intro h
      rcases Decoder.decoder_run_error L W fuel encoded base password _ h with h1 | h1 | h1
      · exact absurd h1.2 (by decide)
      · have h2 := h1.2
        rw [hchk] at h2
        split at h2
        · exact absurd h2 (by decide)
        · rename_i hdim
          split at h2
          · refine ⟨?_, ?_, ?_⟩ <;> omega
          · exact absurd h2 (by decide)
      · rcases h1.2.2 with h3 | h3 <;> exact absurd h3 (by decide)
    · rintro ⟨h1, h2, h3⟩
      have hbne : base.empty = false := by
        rw [Mat.empty_eq_false_iff, ← h1, ← h2]; exact he0
      apply Decoder.decoder_run_of_check L W fuel encoded base password _ (by simp [hene, hbne])
      rw [hchk, if_neg (by omega), if_pos h3]

/-- C3 on a 4x4 carrier and an empty file. -/
theorem C3_too_small_is_fewer_than_32_pixels_witness :
    (Encoder.main demoLib 64 0 (demoMat 4 4) [] [] = .error .imageTooSmall
        ↔ (demoMat 4 4).rows * (demoMat 4 4).cols < 32 ∧ ([] : List Nat).length < 2 ^ 32)
      ∧ (Decoder.main demoLib 64 0 (demoMat 4 4) (demoMat 4 4) [] = .error .imageTooSmall
        ↔ (demoMat 4 4).rows = (demoMat 4 4).rows ∧ (demoMat 4 4).cols = (demoMat 4 4).cols
            ∧ (demoMat 4 4).rows * (demoMat 4 4).cols < 32) :=
  C3_too_small_is_fewer_than_32_pixels demoLib 64 0 (demoMat 4 4) (demoMat 4 4) (demoMat 4 4)
    [] [] (by decide) (by decide) (by decide) (by decide) (by decide)

/-- C3 as stated fails: a 4x4 image has 48 sites, not fewer than 32, and both
programs reject it as too small. -/
theorem C3_counterexample :
    ¬ (4 * 4 * 3 < 32)
      ∧ Encoder.main demoLib 64 0 (demoMat 4 4) [] [] = .error .imageTooSmall
      ∧ Decoder.main demoLib 64 0 (demoMat 4 4) (demoMat 4 4) [] = .error .imageTooSmall := by
  refine ⟨by decide, ?_, ?_⟩
  · rfl
  · rfl

/-- C9. On a 1x1 carrier, where the `int` on the left of the comparison with
`fileSize` is -31, the encoder ends in one of the two errors of its size
checks for every non-empty file shorter than 2^32 bytes and every password;
the error is the result of `sizeChecks`, which runs before the noise and the
embedding. -/
theorem C9_one_pixel_carrier_rejected {G D : Type} (L : Lib G D) (W fuel : Nat) (carrier : Mat)
    (file password : List Nat) (hr : carrier.rows = 1) (hc : carrier.cols = 1)
    (_h1 : 1 ≤ file.length) (h2 : file.length < 2 ^ 32) :
    toInt32 (toInt32 ((carrier.cols : Int) * carrier.rows) - 32) = -31
      ∧ ((Encoder.sizeChecks W carrier.rows carrier.cols file.length = some .fileTooBig
            ∧ Encoder.main L W fuel carrier file password = .error .fileTooBig)
          ∨ (Encoder.sizeChecks W carrier.rows carrier.cols file.length = some .imageTooSmall
            ∧ Encoder.main L W fuel carrier file password = .error .imageTooSmall)) := by
  have hne : carrier.empty = false := by
    rw [Mat.empty_eq_false_iff, hr, hc]; decide
  have h31 : toInt32 (toInt32 ((carrier.cols : Int) * carrier.rows) - 32) = -31 := by
    rw [hr, hc]; decide
  refine ⟨h31, ?_⟩
  have hchk : Encoder.sizeChecks W carrier.rows carrier.cols file.length = some .fileTooBig
      ∨ Encoder.sizeChecks W carrier.rows carrier.cols file.length = some .imageTooSmall := by
    unfold Encoder.sizeChecks
    rw [h31, if_neg (by omega)]
    by_cases hlt : toULong W (-31) < file.length % 2 ^ W
    · left; simp [hlt]
    · right; simp [hlt]
  rcases hchk with h | h
  · exact Or.inl ⟨h, (Encoder.main_error_iff L W fuel carrier file password _).2
      (Encoder.run_of_check L W fuel carrier file password _ hne h)⟩
  · exact Or.inr ⟨h, (Encoder.main_error_iff L W fuel carrier file password _).2
      (Encoder.run_of_check L W fuel carrier file password _ hne h)⟩

/-- C9 on a 1x1 carrier with a one-byte file. -/
theorem C9_one_pixel_carrier_rejected_witness :
    toInt32 (toInt32 (((demoMat 1 1).cols : Int) * (demoMat 1 1).rows) - 32) = -31
      ∧ ((Encoder.sizeChecks 64 (demoMat 1 1).rows (demoMat 1 1).cols [7].length
              = some .fileTooBig
            ∧ Encoder.main demoLib 64 5 (demoMat 1 1) [7] [97] = .error .fileTooBig)
          ∨ (Encoder.sizeChecks 64 (demoMat 1 1).rows (demoMat 1 1).cols [7].length
              = some .imageTooSmall
            ∧ Encoder.main demoLib 64 5 (demoMat 1 1) [7] [97] = .error .imageTooSmall)) :=
  C9_one_pixel_carrier_rejected demoLib 64 5 (demoMat 1 1) [7] [97] rfl rfl (by decide)
    (by decide)

/-! ## One selection -/

theorem attemptRng_iterate_succ {G D : Type} (L : Lib G D) (rows cols n : Nat) (g : G) :
    (attemptRng L rows cols)^[n + 1] g
      = (attemptRng L rows cols)^[n] (attemptRng L rows cols g) :=
  Function.iterate_succ_apply _ n g

/-- What an accepted selection says about the state before and after. -/
theorem Encoder.nextSite_ok {G D : Type} (L : Lib G D) (carrier : Mat) (fuel : Nat)
    (w : Walk G) (r : Site × Walk G) (h : Encoder.nextSite L carrier fuel w = .ok r) :
    w.visited.inRange r.1.1 r.1.2.1 r.1.2.2
      ∧ w.visited.get r.1.1 r.1.2.1 r.1.2.2 = 0
      ∧ r.2.visited = w.visited.set r.1.1 r.1.2.1 r.1.2.2 1
      ∧ r.2.sites = w.sites ++ [r.1]
      ∧ ∃ n, n < fuel
          ∧ r.1 = attemptSite L carrier.rows carrier.cols
                    ((attemptRng L carrier.rows carrier.cols)^[n] w.rng)
          ∧ r.2.rng = (attemptRng L carrier.rows carrier.cols)^[n + 1] w.rng
          ∧ ∀ m, m < n →
              w.visited.get
                (attemptSite L carrier.rows carrier.cols
                  ((attemptRng L carrier.rows carrier.cols)^[m] w.rng)).1
                (attemptSite L carrier.rows carrier.cols
                  ((attemptRng L carrier.rows carrier.cols)^[m] w.rng)).2.1
                (attemptSite L carrier.rows carrier.cols
                  ((attemptRng L carrier.rows carrier.cols)^[m] w.rng)).2.2 ≠ 0 := by
  induction fuel generalizing w with
  | zero => simp [Encoder.nextSite] at h
  | succ fuel ih =>
    simp only [Encoder.nextSite] at h
    split at h
    · rename_i hin
      split at h
      · rename_i hz
        simp only [Except.ok.injEq] at h
        subst h
        refine ⟨hin, hz, rfl, rfl, 0, Nat.succ_pos _, rfl, rfl, ?_⟩
        intro m hm
        exact absurd hm (Nat.not_lt_zero m)
      · rename_i hz
        obtain ⟨h1, h2, h3, h4, n, hn, h5, h6, h7⟩ := ih _ h
        refine ⟨h1, h2, h3, h4, n + 1, Nat.succ_lt_succ hn, ?_, ?_, ?_⟩
        · rw [attemptRng_iterate_succ]; exact h5
        · rw [attemptRng_iterate_succ]; exact h6
        · intro m hm
          cases m with
          | zero => exact hz
          | succ m =>
            rw [attemptRng_iterate_succ]
            exact h7 m (Nat.lt_of_succ_lt_succ hm)
    · simp at h

/-- More fuel does not change an accepted selection. -/
theorem Encoder.nextSite_fuel_succ {G D : Type} (L : Lib G D) (carrier : Mat) (fuel : Nat)
    (w : Walk G) (r : Site × Walk G) (h : Encoder.nextSite L carrier fuel w = .ok r) :
    Encoder.nextSite L carrier (fuel + 1) w = .ok r := by
  induction fuel generalizing w with
  | zero => simp [Encoder.nextSite] at h
  | succ fuel ih =>
    rw [Encoder.nextSite] at h ⊢
    split at h
    · rename_i hin
      rw [if_pos hin]
      split at h
      · rename_i hz
        rw [if_pos hz]; exact h
      · rename_i hz
        rw [if_neg hz]; exact ih _ h
    · simp at h

theorem Encoder.nextSite_fuel_le {G D : Type} (L : Lib G D) (carrier : Mat) (fuel fuel1 : Nat)
    (hle : fuel ≤ fuel1) (w : Walk G) (r : Site × Walk G)
    (h : Encoder.nextSite L carrier fuel w = .ok r) :
    Encoder.nextSite L carrier fuel1 w = .ok r := by
  induction hle with
  | refl => exact h
  | step _ ih => exact Encoder.nextSite_fuel_succ L carrier _ w r ih

/-- The selection depends on the image only through its dimensions. -/
theorem Encoder.nextSite_dims {G D : Type} (L : Lib G D) (a b : Mat) (hr : a.rows = b.rows)
    (hc : a.cols = b.cols) (fuel : Nat) (w : Walk G) :
    Encoder.nextSite L a fuel w = Encoder.nextSite L b fuel w := by
  induction fuel generalizing w with
  | zero => rfl
  | succ fuel ih => simp only [Encoder.nextSite, hr, hc, ih]

/-- A selection succeeds within `n + 1` attempts when attempt `n` draws an
unmarked triple and draws stay below their bounds. -/
theorem Encoder.nextSite_of_hit {G D : Type} (L : Lib G D) (hB : Bounded L) (carrier : Mat)
    (hr : 0 < carrier.rows) (hc : 0 < carrier.cols) (n : Nat) (w : Walk G)
    (hvr : w.visited.rows = carrier.rows) (hvc : w.visited.cols = carrier.cols)
    (hit : w.visited.get
        (attemptSite L carrier.rows carrier.cols
          ((attemptRng L carrier.rows carrier.cols)^[n] w.rng)).1
        (attemptSite L carrier.rows carrier.cols
          ((attemptRng L carrier.rows carrier.cols)^[n] w.rng)).2.1
        (attemptSite L carrier.rows carrier.cols
          ((attemptRng L carrier.rows carrier.cols)^[n] w.rng)).2.2 = 0) :
    ∃ r, Encoder.nextSite L carrier (n + 1) w = .ok r := by
  induction n generalizing w with
  | zero =>
    rw [Encoder.nextSite]
    have hin : w.visited.inRange (L.uniform w.rng carrier.rows).1
        (L.uniform (L.uniform w.rng carrier.rows).2 carrier.cols).1
        (L.uniform (L.uniform (L.uniform w.rng carrier.rows).2 carrier.cols).2 3).1 := by
      refine ⟨?_, ?_, ?_⟩
      · rw [hvr]; exact hB _ _ hr
      · rw [hvc]; exact hB _ _ hc
      · exact hB _ _ (by decide)
    rw [if_pos hin]
    have hz : w.visited.get (L.uniform w.rng carrier.rows).1
        (L.uniform (L.uniform w.rng carrier.rows).2 carrier.cols).1
        (L.uniform (L.uniform (L.uniform w.rng carrier.rows).2 carrier.cols).2 3).1 = 0 := hit
    rw [if_pos hz]
    exact ⟨_, rfl⟩
  | succ n ih =>
    rw [Encoder.nextSite]
    have hin : w.visited.inRange (L.uniform w.rng carrier.rows).1
        (L.uniform (L.uniform w.rng carrier.rows).2 carrier.cols).1
        (L.uniform (L.uniform (L.uniform w.rng carrier.rows).2 carrier.cols).2 3).1 := by
      refine ⟨?_, ?_, ?_⟩
      · rw [hvr]; exact hB _ _ hr
      · rw [hvc]; exact hB _ _ hc
      · exact hB _ _ (by decide)
    rw [if_pos hin]
    by_cases hz : w.visited.get (L.uniform w.rng carrier.rows).1
        (L.uniform (L.uniform w.rng carrier.rows).2 carrier.cols).1
        (L.uniform (L.uniform (L.uniform w.rng carrier.rows).2 carrier.cols).2 3).1 = 0
    · rw [if_pos hz]
      exact ⟨_, rfl⟩
    · rw [if_neg hz]
      apply ih
      · exact hvr
      · exact hvc
      · rw [attemptRng_iterate_succ] at hit
        exact hit

/-! ## The traversal invariant -/

theorem WalkInv_zero {G : Type} (rows cols : Nat) (g : G) :
    WalkInv rows cols { rng := g, visited := zeroMat rows cols, sites := [] } := by
  refine ⟨rfl, rfl, List.nodup_nil, ?_, ?_⟩
  · intro s hs; simp at hs
  · intro x y c; simp [zeroMat, Mat.get]

theorem WalkInv_next {G D : Type} (L : Lib G D) (carrier : Mat) (fuel rows cols : Nat)
    (w : Walk G) (r : Site × Walk G) (hw : WalkInv rows cols w)
    (h : Encoder.nextSite L carrier fuel w = .ok r) : WalkInv rows cols r.2 := by
  obtain ⟨hr, hc, hnd, hin, hmark⟩ := hw
  obtain ⟨h1, h2, h3, h4, -⟩ := Encoder.nextSite_ok L carrier fuel w r h
  have hnot : r.1 ∉ w.sites := by
    intro hmem
    have := (hmark r.1.1 r.1.2.1 r.1.2.2).2 hmem
    exact this h2
  refine ⟨?_, ?_, ?_, ?_, ?_⟩
  · rw [h3]; exact hr
  · rw [h3]; exact hc
  · rw [h4]
    exact List.Nodup.append hnd (List.nodup_singleton _) (by simpa using hnot)
  · intro s hs
    rw [h4] at hs
    rcases List.mem_append.1 hs with hs | hs
    · exact hin s hs
    · have : s = r.1 := by simpa using hs
      subst this
      unfold Mat.inRange at h1
      rw [hr, hc] at h1
      exact h1
  · intro x y c
    rw [h3, h4]
    by_cases he : (x, y, c) = (r.1.1, r.1.2.1, r.1.2.2)
    · have hx : x = r.1.1 := congrArg Prod.fst he
      have hy : y = r.1.2.1 := congrArg (fun p => p.2.1) he
      have hc : c = r.1.2.2 := congrArg (fun p => p.2.2) he
      subst hx hy hc
      simp
    · rw [Mat.get_set_other _ _ _ _ _ _ _ _ he, hmark]
      have : (x, y, c) ≠ r.1 := he
      simp [this]

/-! ## One embedding step -/

theorem Encoder.fileAccept_rows (carrier : Mat) (bit : Nat) (s : Site) :
    (Encoder.fileAccept carrier bit s).rows = carrier.rows := by
  unfold Encoder.fileAccept
  split
  · split
    · rfl
    · split <;> rfl
  · rfl

theorem Encoder.fileAccept_cols (carrier : Mat) (bit : Nat) (s : Site) :
    (Encoder.fileAccept carrier bit s).cols = carrier.cols := by
  unfold Encoder.fileAccept
  split
  · split
    · rfl
    · split <;> rfl
  · rfl

theorem Encoder.fileAccept_other (carrier : Mat) (bit : Nat) (s : Site) (x y c : Nat)
    (h : (x, y, c) ≠ s) : (Encoder.fileAccept carrier bit s).get x y c = carrier.get x y c := by
  have h1 : (x, y, c) ≠ (s.1, s.2.1, s.2.2) := h
  unfold Encoder.fileAccept
  split
  · split
    · exact Mat.get_set_other _ _ _ _ _ _ _ _ h1
    · split
      · exact Mat.get_set_other _ _ _ _ _ _ _ _ h1
      · rfl
  · rfl

/-- At the site, the value differs from the one before exactly when the bit is set. -/
theorem Encoder.fileAccept_same (carrier : Mat) (bit : Nat) (s : Site)
    (h255 : carrier.get s.1 s.2.1 s.2.2 ≤ 255) :
    ((Encoder.fileAccept carrier bit s).get s.1 s.2.1 s.2.2 ≠ carrier.get s.1 s.2.1 s.2.2)
      ↔ bit ≠ 0 := by
  unfold Encoder.fileAccept
  by_cases hb : bit ≠ 0
  · rw [if_pos hb]
    by_cases hlt : carrier.get s.1 s.2.1 s.2.2 < 255
    · rw [if_pos hlt, Mat.get_set_same]
      simp [hb]
    · have he : carrier.get s.1 s.2.1 s.2.2 = 255 := by omega
      rw [if_neg hlt, if_pos he, Mat.get_set_same, he]
      simp [hb]
  · rw [if_neg hb]
    simp [hb]

theorem Encoder.sizeStep_eq_embedStep {G D : Type} (L : Lib G D) (fuel fileSize : Nat)
    (st : Walk G × Mat) (i : Nat) :
    Encoder.sizeStep L fuel fileSize st i
      = Encoder.embedStep L fuel st (Encoder.getBitN (toInt32 fileSize) i) := rfl

theorem Encoder.bitStep_eq_embedStep {G D : Type} (L : Lib G D) (fuel sequence0 : Nat)
    (st : Walk G × Mat) (j : Nat) :
    Encoder.bitStep L fuel sequence0 st j
      = Encoder.embedStep L fuel st (Encoder.getBitN2 (sequence0 % 256) j) := rfl

/-- What a successful embedding step says. -/
theorem Encoder.embedStep_ok {G D : Type} (L : Lib G D) (fuel : Nat) (st st1 : Walk G × Mat)
    (bit : Nat) (h : Encoder.embedStep L fuel st bit = .ok st1) :
    ∃ s, Encoder.nextSite L st.2 fuel st.1 = .ok (s, st1.1)
      ∧ st1.2 = Encoder.fileAccept st.2 bit s := by
  unfold Encoder.embedStep at h
  cases hn : Encoder.nextSite L st.2 fuel st.1 with
  | error e => rw [hn] at h; simp at h
  | ok r =>
    rw [hn] at h
    simp only [Except.ok.injEq] at h
    subst h
    exact ⟨r.1, rfl, rfl⟩

theorem Continues_refl {G : Type} (a : Walk G × Mat) : Continues a a :=
  ⟨rfl, rfl, fun _ _ _ h => ⟨h, rfl⟩⟩

theorem Continues_trans {G : Type} (a b c : Walk G × Mat) (hab : Continues a b)
    (hbc : Continues b c) : Continues a c := by
  obtain ⟨h1, h2, h3⟩ := hab
  obtain ⟨k1, k2, k3⟩ := hbc
  refine ⟨k1.trans h1, k2.trans h2, fun x y z h => ?_⟩
  obtain ⟨p, q⟩ := h3 x y z h
  obtain ⟨p1, q1⟩ := k3 x y z p
  exact ⟨p1, q1.trans q⟩

theorem Encoder.embedStep_continues {G D : Type} (L : Lib G D) (fuel : Nat)
    (st st1 : Walk G × Mat) (bit : Nat) (h : Encoder.embedStep L fuel st bit = .ok st1) :
    Continues st st1 := by
  obtain ⟨s, hn, himg⟩ := Encoder.embedStep_ok L fuel st st1 bit h
  obtain ⟨-, h2, h3, -, -⟩ := Encoder.nextSite_ok L st.2 fuel st.1 _ hn
  simp only at h2 h3
  refine ⟨?_, ?_, ?_⟩
  · rw [himg]; exact Encoder.fileAccept_rows _ _ _
  · rw [himg]; exact Encoder.fileAccept_cols _ _ _
  · intro x y c hv
    have hne : (x, y, c) ≠ s := by
      intro he
      subst he
      exact hv h2
    constructor
    · rw [h3, Mat.get_set_other _ _ _ _ _ _ _ _ hne]; exact hv
    · rw [himg]; exact Encoder.fileAccept_other _ _ _ _ _ _ hne

theorem Encoder.embedStep_agrees {G D : Type} (L : Lib G D) (fuel : Nat) (B : Mat)
    (st st1 : Walk G × Mat) (bit : Nat) (h : Encoder.embedStep L fuel st bit = .ok st1)
    (hB : AgreesOffMarks B st) : AgreesOffMarks B st1 := by
  obtain ⟨s, hn, himg⟩ := Encoder.embedStep_ok L fuel st st1 bit h
  obtain ⟨-, h2, h3, -, -⟩ := Encoder.nextSite_ok L st.2 fuel st.1 _ hn
  simp only at h2 h3
  intro x y c hv
  rw [h3] at hv
  by_cases he : (x, y, c) = (s.1, s.2.1, s.2.2)
  · have hx : x = s.1 := congrArg Prod.fst he
    have hy : y = s.2.1 := congrArg (fun p => p.2.1) he
    have hc : c = s.2.2 := congrArg (fun p => p.2.2) he
    subst hx hy hc
    simp at hv
  · rw [Mat.get_set_other _ _ _ _ _ _ _ _ he] at hv
    rw [himg, Encoder.fileAccept_other _ _ _ _ _ _ he]
    exact hB x y c hv

theorem Encoder.embedStep_walkInv {G D : Type} (L : Lib G D) (fuel rows cols : Nat)
    (st st1 : Walk G × Mat) (bit : Nat) (h : Encoder.embedStep L fuel st bit = .ok st1)
    (hw : WalkInv rows cols st.1) :
    WalkInv rows cols st1.1 ∧ st1.1.sites.length = st.1.sites.length + 1 := by
  obtain ⟨s, hn, -⟩ := Encoder.embedStep_ok L fuel st st1 bit h
  refine ⟨WalkInv_next L st.2 fuel rows cols st.1 _ hw hn, ?_⟩
  obtain ⟨-, -, -, h4, -⟩ := Encoder.nextSite_ok L st.2 fuel st.1 _ hn
  simp only at h4
  rw [h4]; simp

/-! ## Loops -/

theorem forEachM_append {σ α : Type} (body : σ → α → Except Err σ) (l1 l2 : List α) (s : σ) :
    forEachM body (l1 ++ l2) s =
      match forEachM body l1 s with
      | .error e => .error e
      | .ok s1 => forEachM body l2 s1 := by
  induction l1 generalizing s with
  | nil => rfl
  | cons a as ih =>
    simp only [List.cons_append, forEachM]
    cases body s a with
    | error e => rfl
    | ok s1 => exact ih s1

theorem forEachM_map {σ α β : Type} (body : σ → β → Except Err σ) (f : α → β) (l : List α)
    (s : σ) : forEachM body (l.map f) s = forEachM (fun s a => body s (f a)) l s := by
  induction l generalizing s with
  | nil => rfl
  | cons a as ih =>
    simp only [List.map_cons, forEachM]
    cases body s (f a) with
    | error e => rfl
    | ok s1 => exact ih s1

theorem forEachM_flatMap {σ α β : Type} (body : σ → β → Except Err σ) (f : α → List β)
    (l : List α) (s : σ) :
    forEachM body (l.flatMap f) s = forEachM (fun s a => forEachM body (f a) s) l s := by
  induction l generalizing s with
  | nil => rfl
  | cons a as ih =>
    rw [List.flatMap_cons, forEachM_append]
    simp only [forEachM]
    cases forEachM body (f a) s with
    | error e => rfl
    | ok s1 => exact ih s1

theorem forEachM_invariant {σ α : Type} (body : σ → α → Except Err σ) (P : σ → Prop)
    (hstep : ∀ s a s1, body s a = .ok s1 → P s → P s1) (l : List α) (s s1 : σ)
    (h : forEachM body l s = .ok s1) (hs : P s) : P s1 := by
  induction l generalizing s with
  | nil =>
    simp only [forEachM, Except.ok.injEq] at h
    subst h; exact hs
  | cons a as ih =>
    unfold forEachM at h
    cases hb : body s a with
    | error e => rw [hb] at h; simp at h
    | ok s2 =>
      rw [hb] at h
      exact ih s2 h (hstep s a s2 hb hs)

theorem forEachM_relation {σ α : Type} (body : σ → α → Except Err σ) (R : σ → σ → Prop)
    (hrefl : ∀ s, R s s) (htrans : ∀ a b c, R a b → R b c → R a c)
    (hstep : ∀ s a s1, body s a = .ok s1 → R s s1) (l : List α) (s s1 : σ)
    (h : forEachM body l s = .ok s1) : R s s1 :=
  forEachM_invariant body (fun t => R s t)
    (fun t a t1 hb ht => htrans s t t1 ht (hstep t a t1 hb)) l s s1 h (hrefl s)

/-- The two loops of the encoder are one pass of `embedStep` over `bitStream`. -/
theorem Encoder.loops_eq_bitStream {G D : Type} (L : Lib G D) (fuel fileSize : Nat)
    (file : List Nat) (st0 : Walk G × Mat) :
    (match forEachM (Encoder.sizeStep L fuel fileSize) (List.range 32) st0 with
      | .error e => .error e
      | .ok st1 => forEachM (Encoder.byteStep L fuel file) (List.range fileSize) st1)
      = forEachM (Encoder.embedStep L fuel) (Encoder.bitStream fileSize file) st0 := by
  unfold Encoder.bitStream
  rw [forEachM_append, forEachM_map]
  have h1 : (fun (s : Walk G × Mat) (a : Nat) =>
      Encoder.embedStep L fuel s (Encoder.getBitN (toInt32 fileSize) a))
        = Encoder.sizeStep L fuel fileSize := rfl
  rw [h1]
  cases forEachM (Encoder.sizeStep L fuel fileSize) (List.range 32) st0 with
  | error e => rfl
  | ok st1 =>
    simp only
    rw [forEachM_flatMap]
    congr 1

theorem Encoder.bitStream_length (fileSize : Nat) (file : List Nat) :
    (Encoder.bitStream fileSize file).length = 32 + 8 * fileSize := by
  unfold Encoder.bitStream
  rw [List.length_append, List.length_map, List.length_range]
  congr 1
  induction fileSize with
  | zero => rfl
  | succ n ih =>
    rw [List.range_succ, List.flatMap_append, List.length_append, ih]
    simp
    omega

/-- Facts about a pass of `embedStep` over a list of bits. -/
theorem Encoder.embedBits_facts {G D : Type} (L : Lib G D) (fuel rows cols : Nat) (B : Mat)
    (bits : List Nat) (st st1 : Walk G × Mat)
    (h : forEachM (Encoder.embedStep L fuel) bits st = .ok st1) :
    Continues st st1
      ∧ (AgreesOffMarks B st → AgreesOffMarks B st1)
      ∧ (WalkInv rows cols st.1 →
          WalkInv rows cols st1.1 ∧ st1.1.sites.length = st.1.sites.length + bits.length) := by
  refine ⟨?_, ?_, ?_⟩
  · exact forEachM_relation _ Continues Continues_refl Continues_trans
      (fun s a s1 hb => Encoder.embedStep_continues L fuel s s1 a hb) bits st st1 h
  · exact forEachM_invariant _ (fun t => AgreesOffMarks B t)
      (fun s a s1 hb hs => Encoder.embedStep_agrees L fuel B s s1 a hb hs) bits st st1 h
  · intro hw
    induction bits generalizing st with
    | nil =>
      simp only [forEachM, Except.ok.injEq] at h
      subst h
      exact ⟨hw, rfl⟩
    | cons b bs ih =>
      unfold forEachM at h
      cases hb : Encoder.embedStep L fuel st b with
      | error e => rw [hb] at h; simp at h
      | ok s2 =>
        rw [hb] at h
        obtain ⟨hw2, hl2⟩ := Encoder.embedStep_walkInv L fuel rows cols st s2 b hb hw
        obtain ⟨hw3, hl3⟩ := ih s2 h hw2
        refine ⟨hw3, ?_⟩
        rw [hl3, hl2, List.length_cons]
        omega

/-! ## The noise overlay -/

theorem foldl_invariant {σ α : Type} (f : σ → α → σ) (P : σ → Prop)
    (hstep : ∀ s a, P s → P (f s a)) (l : List α) (s : σ) (hs : P s) : P (l.foldl f s) := by
  induction l generalizing s with
  | nil => exact hs
  | cons a as ih => exact ih (f s a) (hstep s a hs)

theorem Encoder.noiseStep_dims {G D : Type} (L : Lib G D) (sigma : D) (i j k : Nat)
    (st : Mat × G) :
    (Encoder.noiseStep L sigma i j st k).1.rows = st.1.rows
      ∧ (Encoder.noiseStep L sigma i j st k).1.cols = st.1.cols := ⟨rfl, rfl⟩

theorem Encoder.noiseGenerator_dims {G D : Type} (L : Lib G D) (image : Mat) (sigma : D)
    (g : G) :
    (Encoder.noiseGenerator L image sigma g).rows = image.rows
      ∧ (Encoder.noiseGenerator L image sigma g).cols = image.cols := by
  unfold Encoder.noiseGenerator Encoder.noiseLoop
  refine foldl_invariant _
    (fun (st : Mat × G) => st.1.rows = image.rows ∧ st.1.cols = image.cols) ?_ _ _ ⟨rfl, rfl⟩
  intro s i hs
  refine foldl_invariant _
    (fun (st : Mat × G) => st.1.rows = image.rows ∧ st.1.cols = image.cols) ?_ _ _ hs
  intro s j hs
  refine foldl_invariant _
    (fun (st : Mat × G) => st.1.rows = image.rows ∧ st.1.cols = image.cols) ?_ _ _ hs
  intro s k hs
  exact hs

/-- The value a noise step writes is a byte; other channels keep their value. -/
theorem Encoder.noiseStep_le {G D : Type} (L : Lib G D) (sigma : D) (i j k : Nat)
    (st : Mat × G) (x y c : Nat) (h : (x, y, c) = (i, j, k) ∨ st.1.get x y c ≤ 255) :
    (Encoder.noiseStep L sigma i j st k).1.get x y c ≤ 255 := by
  unfold Encoder.noiseStep
  simp only
  by_cases he : (x, y, c) = (i, j, k)
  · have hx : x = i := congrArg Prod.fst he
    have hy : y = j := congrArg (fun p => p.2.1) he
    have hc : c = k := congrArg (fun p => p.2.2) he
    subst hx hy hc
    rw [Mat.get_set_same]
    split
    · decide
    · split
      · decide
      · omega
  · rw [Mat.get_set_other _ _ _ _ _ _ _ _ he]
    rcases h with h | h
    · exact absurd h he
    · exact h

theorem Encoder.noise_channels_le {G D : Type} (L : Lib G D) (sigma : D) (i j : Nat)
    (ks : List Nat) (st : Mat × G) (x y c : Nat)
    (h : (x = i ∧ y = j ∧ c ∈ ks) ∨ st.1.get x y c ≤ 255) :
    (ks.foldl (Encoder.noiseStep L sigma i j) st).1.get x y c ≤ 255 := by
  induction ks generalizing st with
  | nil =>
    rcases h with h | h
    · simp at h
    · exact h
  | cons k ks ih =>
    rw [List.foldl_cons]
    apply ih
    rcases h with ⟨hx, hy, hc⟩ | h
    · rcases List.mem_cons.1 hc with hc | hc
      · right
        exact Encoder.noiseStep_le L sigma i j k st x y c (Or.inl (by rw [hx, hy, hc]))
      · exact Or.inl ⟨hx, hy, hc⟩
    · right
      exact Encoder.noiseStep_le L sigma i j k st x y c (Or.inr h)

theorem Encoder.noise_cols_le {G D : Type} (L : Lib G D) (sigma : D) (i : Nat)
    (js : List Nat) (st : Mat × G) (x y c : Nat)
    (h : (x = i ∧ y ∈ js ∧ c < 3) ∨ st.1.get x y c ≤ 255) :
    (js.foldl (fun st j => (List.range 3).foldl (Encoder.noiseStep L sigma i j) st) st).1.get
      x y c ≤ 255 := by
  induction js generalizing st with
  | nil =>
    rcases h with h | h
    · simp at h
    · exact h
  | cons j js ih =>
    rw [List.foldl_cons]
    apply ih
    rcases h with ⟨hx, hy, hc⟩ | h
    · rcases List.mem_cons.1 hy with hy | hy
      · right
        exact Encoder.noise_channels_le L sigma i j _ st x y c
          (Or.inl ⟨hx, hy, List.mem_range.2 hc⟩)
      · exact Or.inl ⟨hx, hy, hc⟩
    · right
      exact Encoder.noise_channels_le L sigma i j _ st x y c (Or.inr h)

theorem Encoder.noise_rows_le {G D : Type} (L : Lib G D) (sigma : D) (cols : Nat)
    (is : List Nat) (st : Mat × G) (x y c : Nat)
    (h : (x ∈ is ∧ y < cols ∧ c < 3) ∨ st.1.get x y c ≤ 255) :
    (is.foldl (fun st i => (List.range cols).foldl
      (fun st j => (List.range 3).foldl (Encoder.noiseStep L sigma i j) st) st) st).1.get
      x y c ≤ 255 := by
  induction is generalizing st with
  | nil =>
    rcases h with h | h
    · simp at h
    · exact h
  | cons i is ih =>
    rw [List.foldl_cons]
    apply ih
    rcases h with ⟨hx, hy, hc⟩ | h
    · rcases List.mem_cons.1 hx with hx | hx
      · right
        exact Encoder.noise_cols_le L sigma i _ st x y c
          (Or.inl ⟨hx, List.mem_range.2 hy, hc⟩)
      · exact Or.inl ⟨hx, hy, hc⟩
    · right
      exact Encoder.noise_cols_le L sigma i _ st x y c (Or.inr h)

/-- After the noise overlay every channel inside the grid is a byte. -/
theorem Encoder.noiseGenerator_isByte {G D : Type} (L : Lib G D) (image : Mat) (sigma : D)
    (g : G) : (Encoder.noiseGenerator L image sigma g).isByte := by
  intro i j k hi hj hk
  rw [(Encoder.noiseGenerator_dims L image sigma g).1] at hi
  rw [(Encoder.noiseGenerator_dims L image sigma g).2] at hj
  unfold Encoder.noiseGenerator Encoder.noiseLoop
  exact Encoder.noise_rows_le L sigma image.cols _ _ i j k
    (Or.inl ⟨List.mem_range.2 hi, hj, hk⟩)

/-! ## Bits -/

theorem Int.zero_land_aux (z : Int) : Int.land 0 z = 0 := by
  cases z with
  | ofNat n =>
    show Int.land (Int.ofNat 0) (Int.ofNat n) = 0
    simp [Int.land]
  | negSucc n =>
    show Int.land (Int.ofNat 0) (Int.negSucc n) = 0
    simp [Int.land, Nat.ldiff]

theorem Int.one_land_aux (z : Int) : Int.land 1 z = z % 2 := by
  have h1 : (1 : Int) = Int.bit true 0 := by decide
  rw [h1]
  conv_lhs => rw [← Int.bit_decomp z]
  rw [Int.land_bit, Int.zero_land_aux, Bool.true_and]
  conv_rhs => rw [← Int.bit_decomp z]
  rw [Int.bit_val, Int.bit_val]
  cases z.bodd
  · simp
  · simp; omega

theorem toInt32_high (x : Nat) (h0 : 2 ^ 31 ≤ x) (h1 : x < 2 ^ 32) :
    toInt32 x = (x : Int) - 2 ^ 32 := by
  unfold toInt32
  have h2 : ((x : Int) + 2 ^ 31) % 2 ^ 32 = ((x : Int) + 2 ^ 31 - 2 ^ 32) % 2 ^ 32 := by
    rw [Int.sub_emod, Int.emod_self, sub_zero, Int.emod_emod_of_dvd _ (dvd_refl _)]
  have h3 : ((x : Int) + 2 ^ 31 - 2 ^ 32) % 2 ^ 32 = (x : Int) + 2 ^ 31 - 2 ^ 32 :=
    Int.emod_eq_of_lt (by omega) (by omega)
  rw [h2, h3]
  omega

theorem high_bit_shift (x : Int) (i : Nat) (hi : i < 32) :
    ((x - 2 ^ 32) / 2 ^ i) % 2 = (x / 2 ^ i) % 2 := by
  have hsplit : (2 : Int) ^ 32 = (2 ^ (31 - i) * 2) * 2 ^ i := by
    rw [← pow_succ, ← pow_add]
    congr 1
    omega
  have hpos : ((2 : Int) ^ i) ≠ 0 := by positivity
  rw [hsplit, sub_eq_add_neg, ← neg_mul, Int.add_mul_ediv_right _ _ hpos, ← neg_mul,
    Int.add_mul_emod_self]

/-- `getBitN` on the `int` made from a 32-bit length is bit `i` of the length. -/
theorem Encoder.getBitN_toInt32 (fileSize i : Nat) (hfs : fileSize < 2 ^ 32) (hi : i < 32) :
    Encoder.getBitN (toInt32 fileSize) i = (fileSize / 2 ^ i) % 2 := by
  unfold Encoder.getBitN
  rw [Int.one_land_aux, Int.shiftRight_eq_div_pow, Nat.cast_pow, Nat.cast_ofNat]
  have key : (toInt32 fileSize / 2 ^ i) % 2 = (((fileSize / 2 ^ i) % 2 : Nat) : Int) := by
    have hcast : (((fileSize / 2 ^ i) % 2 : Nat) : Int) = ((fileSize : Int) / 2 ^ i) % 2 := by
      push_cast
      rfl
    rw [hcast]
    by_cases hlt : fileSize < 2 ^ 31
    · rw [toInt32_of_range _ (by omega) (by exact_mod_cast hlt)]
    · rw [toInt32_high fileSize (by omega) hfs, high_bit_shift _ i hi]
  rw [key, Int.toNat_ofNat]
  have hb : (fileSize / 2 ^ i) % 2 < 2 := Nat.mod_lt _ (by decide)
  omega

theorem Encoder.getBitN2_eq (val n : Nat) : Encoder.getBitN2 val n = (val / 2 ^ n) % 2 := by
  unfold Encoder.getBitN2
  rw [Nat.one_and_eq_mod_two, Nat.shiftRight_eq_div_pow]
  have hb : (val / 2 ^ n) % 2 < 2 := Nat.mod_lt _ (by decide)
  omega

/-- Setting bit `n` of a value below `2^n` adds `2^n`. -/
theorem Decoder.setBitN_eq_add (val n : Nat) (hn : n < 8) (hval : val < 2 ^ n) :
    Decoder.setBitN val n = val + 2 ^ n := by
  unfold Decoder.setBitN
  have h1 : val ||| 1 <<< n = val + 2 ^ n := by
    rw [Nat.shiftLeft_eq, one_mul, Nat.or_comm]
    have := Nat.mul_add_lt_is_or hval 1
    rw [mul_one] at this
    rw [← this, Nat.add_comm]
  rw [h1]
  have h2 : 2 ^ n ≤ 2 ^ 7 := Nat.pow_le_pow_right (by decide) (by omega)
  have h3 : (2 : Nat) ^ 7 = 128 := by norm_num
  omega

/-- Adding the next bit to the low `r` bits gives the low `r + 1` bits. -/
theorem low_bits_succ (x r : Nat) :
    x % 2 ^ (r + 1) = x % 2 ^ r + 2 ^ r * ((x / 2 ^ r) % 2) := Nat.mod_pow_succ

theorem div_pow_add (x a r : Nat) : x / 2 ^ a / 2 ^ r = x / 2 ^ (a + r) := by
  rw [Nat.div_div_eq_div_mul, pow_add]

/-! ## The decoder follows the encoder -/

theorem Encoder.embedStep_encInv {G D : Type} (L : Lib G D) (fuel rows cols : Nat) (B : Mat)
    (st st1 : Walk G × Mat) (bit : Nat) (h : Encoder.embedStep L fuel st bit = .ok st1)
    (hinv : EncInv rows cols B st) : EncInv rows cols B st1 := by
  obtain ⟨hw, ha, hr, hc⟩ := hinv
  obtain ⟨k1, k2, -⟩ := Encoder.embedStep_continues L fuel st st1 bit h
  exact ⟨(Encoder.embedStep_walkInv L fuel rows cols st st1 bit h hw).1,
    Encoder.embedStep_agrees L fuel B st st1 bit h ha, k1.trans hr, k2.trans hc⟩

theorem Encoder.embedBits_encInv {G D : Type} (L : Lib G D) (fuel rows cols : Nat) (B : Mat)
    (bits : List Nat) (st st1 : Walk G × Mat)
    (h : forEachM (Encoder.embedStep L fuel) bits st = .ok st1)
    (hinv : EncInv rows cols B st) : EncInv rows cols B st1 :=
  forEachM_invariant _ (fun t => EncInv rows cols B t)
    (fun s a s1 hb hs => Encoder.embedStep_encInv L fuel rows cols B s s1 a hb hs) bits st st1 h
    hinv

/-- One step in both programs: the decoder's selection from the encoder's
traversal state accepts the same site and ends in the same traversal state,
and it sees a difference between the final image and the noised base exactly
when the encoder embedded a non-zero bit. -/
theorem lockstep_step {G D : Type} (L : Lib G D) (fuel rows cols : Nat) (B : Mat)
    (st st1 stEnd : Walk G × Mat) (bit : Nat)
    (h : Encoder.embedStep L fuel st bit = .ok st1) (hcont : Continues st1 stEnd)
    (hinv : EncInv rows cols B st) (hB : B.isByte) (hBr : B.rows = rows) (hBc : B.cols = cols) :
    ∃ s, Decoder.nextSite L stEnd.2 fuel st.1 = .ok (s, st1.1)
      ∧ ((stEnd.2.get s.1 s.2.1 s.2.2 ≠ B.get s.1 s.2.1 s.2.2) ↔ bit ≠ 0) := by
  obtain ⟨hw, ha, hr, hc⟩ := hinv
  obtain ⟨s, hn, himg⟩ := Encoder.embedStep_ok L fuel st st1 bit h
  obtain ⟨c1, c2, c3⟩ := hcont
  obtain ⟨k1, k2, -⟩ := Encoder.embedStep_continues L fuel st st1 bit h
  refine ⟨s, ?_, ?_⟩
  · rw [Decoder.nextSite_eq_encoder,
      Encoder.nextSite_dims L stEnd.2 st.2 (c1.trans k1) (c2.trans k2)]
    exact hn
  · obtain ⟨h1, h2, h3, -, -⟩ := Encoder.nextSite_ok L st.2 fuel st.1 _ hn
    simp only at h1 h2 h3
    have hmarked : st1.1.visited.get s.1 s.2.1 s.2.2 ≠ 0 := by
      rw [h3, Mat.get_set_same]; decide
    have hE : stEnd.2.get s.1 s.2.1 s.2.2 = (Encoder.fileAccept st.2 bit s).get s.1 s.2.1 s.2.2 := by
      rw [(c3 _ _ _ hmarked).2, himg]
    have hBs : st.2.get s.1 s.2.1 s.2.2 = B.get s.1 s.2.1 s.2.2 := ha _ _ _ h2
    have hle : st.2.get s.1 s.2.1 s.2.2 ≤ 255 := by
      rw [hBs]
      obtain ⟨i1, i2, i3⟩ := h1
      rw [hw.1] at i1
      rw [hw.2.1] at i2
      exact hB _ _ _ (by rw [hBr]; exact i1) (by rw [hBc]; exact i2) i3
    rw [hE, ← hBs]
    exact Encoder.fileAccept_same st.2 bit s hle

theorem forEachM_cons_ok {σ α : Type} (body : σ → α → Except Err σ) (a : α) (l : List α)
    (s s2 : σ) (h : forEachM body (a :: l) s = .ok s2) :
    ∃ s1, body s a = .ok s1 ∧ forEachM body l s1 = .ok s2 := by
  unfold forEachM at h
  cases hb : body s a with
  | error e => rw [hb] at h; simp at h
  | ok s1 => rw [hb] at h; exact ⟨s1, rfl, h⟩

theorem Encoder.sizeLoop_eq {G D : Type} (L : Lib G D) (fuel fileSize : Nat) (l : List Nat)
    (st : Walk G × Mat) :
    forEachM (Encoder.sizeStep L fuel fileSize) l st
      = forEachM (Encoder.embedStep L fuel)
          (l.map (fun i => Encoder.getBitN (toInt32 fileSize) i)) st :=
  (forEachM_map (Encoder.embedStep L fuel) _ l st).symm

theorem Encoder.bitLoop_eq {G D : Type} (L : Lib G D) (fuel sequence0 : Nat) (l : List Nat)
    (st : Walk G × Mat) :
    forEachM (Encoder.bitStep L fuel sequence0) l st
      = forEachM (Encoder.embedStep L fuel)
          (l.map (fun j => Encoder.getBitN2 (sequence0 % 256) j)) st :=
  (forEachM_map (Encoder.embedStep L fuel) _ l st).symm

theorem Decoder.sizeStep_of_next {G D : Type} (L : Lib G D) (fuel : Nat) (encoded base : Mat)
    (st : Decoder.SizeState G) (i : Nat) (s : Site) (w1 : Walk G)
    (h : Decoder.nextSite L encoded fuel st.walk = .ok (s, w1)) :
    Decoder.sizeStep L fuel encoded base st i =
      .ok (if (i + 1) % 8 = 0 then
          { walk := w1,
            fileSize := (st.fileSize
              + (if encoded.get s.1 s.2.1 s.2.2 ≠ base.get s.1 s.2.1 s.2.2 then
                  Decoder.setBitN (st.tmpSize % 256) st.n else st.tmpSize) * 2 ^ (i - 7)) % 2 ^ 32,
            tmpSize := 0, n := 0 }
        else
          { walk := w1, fileSize := st.fileSize,
            tmpSize := (if encoded.get s.1 s.2.1 s.2.2 ≠ base.get s.1 s.2.1 s.2.2 then
                  Decoder.setBitN (st.tmpSize % 256) st.n else st.tmpSize),
            n := st.n + 1 }) := by
  unfold Decoder.sizeStep
  rw [h]
  simp only
  split <;> rfl

theorem header_flush (fs q : Nat) (hq : q < 4) :
    (fs % 2 ^ (8 * q) + ((fs / 2 ^ (8 * q)) % 2 ^ 8) * 2 ^ (8 * q)) % 2 ^ 32
      = fs % 2 ^ (8 * (q + 1)) := by
  interval_cases q <;> norm_num <;> omega

/-- The byte being assembled after one more header bit. -/
theorem header_tmp (fs k : Nat) (differs : Prop) [Decidable differs]
    (hk : k % 8 < 8) (hd : differs ↔ (fs / 2 ^ k) % 2 ≠ 0) :
    (if differs then
        Decoder.setBitN (((fs / 2 ^ (8 * (k / 8))) % 2 ^ (k % 8)) % 256) (k % 8)
      else (fs / 2 ^ (8 * (k / 8))) % 2 ^ (k % 8))
      = (fs / 2 ^ (8 * (k / 8))) % 2 ^ (k % 8 + 1) := by
  have hlt : (fs / 2 ^ (8 * (k / 8))) % 2 ^ (k % 8) < 2 ^ (k % 8) :=
    Nat.mod_lt _ (by positivity)
  have h7 : 2 ^ (k % 8) ≤ 2 ^ 7 := Nat.pow_le_pow_right (by decide) (by omega)
  have h256 : ((fs / 2 ^ (8 * (k / 8))) % 2 ^ (k % 8)) % 256
      = (fs / 2 ^ (8 * (k / 8))) % 2 ^ (k % 8) := by
    apply Nat.mod_eq_of_lt
    have : (2 : Nat) ^ 7 = 128 := by norm_num
    omega
  have hdiv : fs / 2 ^ (8 * (k / 8)) / 2 ^ (k % 8) = fs / 2 ^ k := by
    rw [div_pow_add, Nat.div_add_mod]
  rw [low_bits_succ, hdiv, h256]
  have hb : (fs / 2 ^ k) % 2 < 2 := Nat.mod_lt _ (by decide)
  by_cases hdf : differs
  · have h1 : (fs / 2 ^ k) % 2 = 1 := by
      have := hd.1 hdf
      omega
    rw [if_pos hdf, Decoder.setBitN_eq_add _ _ hk hlt, h1, mul_one]
  · have h0 : (fs / 2 ^ k) % 2 = 0 := by
      by_contra hne
      exact hdf (hd.2 hne)
    rw [if_neg hdf, h0, mul_zero, add_zero]

/-- The decoder's header loop, run beside the encoder's from index `k`, ends
in the encoder's traversal state with `fileSize` rebuilt. -/
theorem header_lockstep {G D : Type} (L : Lib G D) (fuel rows cols : Nat) (B : Mat)
    (fileSize : Nat) (hfs : fileSize < 2 ^ 32) (stEnd : Walk G × Mat) (hB : B.isByte)
    (hBr : B.rows = rows) (hBc : B.cols = cols) (n : Nat) :
    ∀ (k : Nat) (st stH : Walk G × Mat) (dst : Decoder.SizeState G), k + n = 32 →
      forEachM (Encoder.sizeStep L fuel fileSize) (List.range' k n) st = .ok stH →
      Continues stH stEnd → EncInv rows cols B st →
      dst.walk = st.1 → dst.n = k % 8 →
      dst.tmpSize = (fileSize / 2 ^ (8 * (k / 8))) % 2 ^ (k % 8) →
      dst.fileSize = fileSize % 2 ^ (8 * (k / 8)) →
      ∃ dst1, forEachM (Decoder.sizeStep L fuel stEnd.2 B) (List.range' k n) dst = .ok dst1
        ∧ dst1.walk = stH.1 ∧ dst1.fileSize = fileSize := by
  induction n with
  | zero =>
    intro k st stH dst hk h _ _ hwalk _ _ hsize
    have hk32 : k = 32 := by omega
    subst hk32
    simp only [List.range'_zero, forEachM, Except.ok.injEq] at h ⊢
    subst h
    refine ⟨dst, rfl, hwalk, ?_⟩
    rw [hsize]
    exact Nat.mod_eq_of_lt hfs
  | succ n ih =>
    intro k st stH dst hk h hcont hinv hwalk hn htmp hsize
    have hk32 : k < 32 := by omega
    rw [List.range'_succ] at h ⊢
    obtain ⟨st1, hstep, hrest⟩ := forEachM_cons_ok _ _ _ _ _ h
    rw [Encoder.sizeStep_eq_embedStep] at hstep
    have hrest1 := hrest
    rw [Encoder.sizeLoop_eq] at hrest1
    have hc1 : Continues st1 stEnd :=
      Continues_trans _ _ _ (Encoder.embedBits_facts L fuel rows cols B _ st1 stH hrest1).1 hcont
    obtain ⟨s, hnext, hdiff⟩ :=
      lockstep_step L fuel rows cols B st st1 stEnd _ hstep hc1 hinv hB hBr hBc
    rw [Encoder.getBitN_toInt32 fileSize k hfs hk32] at hdiff
    rw [← hwalk] at hnext
    unfold forEachM
    rw [Decoder.sizeStep_of_next L fuel stEnd.2 B dst k s st1.1 hnext]
    simp only
    have htmp1 := header_tmp fileSize k _ (Nat.mod_lt k (by decide)) hdiff
    rw [hn, htmp, htmp1]
    have hinv1 := Encoder.embedStep_encInv L fuel rows cols B st st1 _ hstep hinv
    by_cases h8 : (k + 1) % 8 = 0
    · rw [if_pos h8]
      have hr7 : k % 8 = 7 := by omega
      have hq : (k + 1) / 8 = k / 8 + 1 := by omega
      have hk7 : k - 7 = 8 * (k / 8) := by omega
      apply ih (k + 1) st1 stH _ (by omega) hrest hcont hinv1 rfl
      · simp only; omega
      · simp only
        rw [h8, pow_zero, Nat.mod_one]
      · simp only
        rw [hsize, hr7, hk7, hq]
        exact header_flush fileSize (k / 8) (by omega)
    · rw [if_neg h8]
      have hq : (k + 1) / 8 = k / 8 := by omega
      have hr : (k + 1) % 8 = k % 8 + 1 := by omega
      apply ih (k + 1) st1 stH _ (by omega) hrest hcont hinv1 rfl
      · simp only; omega
      · simp only
        rw [hq, hr]
      · simp only
        rw [hq, hsize]

theorem Decoder.bitStep_of_next {G D : Type} (L : Lib G D) (fuel : Nat) (encoded base : Mat)
    (st : Decoder.FileState G) (j : Nat) (s : Site) (w1 : Walk G)
    (h : Decoder.nextSite L encoded fuel st.walk = .ok (s, w1)) :
    Decoder.bitStep L fuel encoded base st j =
      .ok (if (st.n + 1) % 8 = 0 then
          { walk := w1, sequence0 := 0, n := 0,
            out := st.out ++ [if encoded.get s.1 s.2.1 s.2.2 ≠ base.get s.1 s.2.1 s.2.2 then
                  Decoder.setBitN (st.sequence0 % 256) st.n else st.sequence0] }
        else
          { walk := w1,
            sequence0 := (if encoded.get s.1 s.2.1 s.2.2 ≠ base.get s.1 s.2.1 s.2.2 then
                  Decoder.setBitN (st.sequence0 % 256) st.n else st.sequence0),
            n := st.n + 1, out := st.out }) := by
  unfold Decoder.bitStep
  rw [h]
  simp only
  split <;> rfl

/-- The byte being assembled after one more payload bit. -/
theorem byte_tmp (x r : Nat) (differs : Prop) [Decidable differs] (hr : r < 8)
    (hd : differs ↔ (x / 2 ^ r) % 2 ≠ 0) :
    (if differs then Decoder.setBitN ((x % 2 ^ r) % 256) r else x % 2 ^ r)
      = x % 2 ^ (r + 1) := by
  have h := header_tmp x r differs (Nat.mod_lt r (by decide)) hd
  have h1 : r % 8 = r := Nat.mod_eq_of_lt hr
  have h2 : r / 8 = 0 := Nat.div_eq_of_lt hr
  rw [h1, h2, Nat.mul_zero, pow_zero, Nat.div_one] at h
  exact h

theorem Encoder.byteLoop_eq {G D : Type} (L : Lib G D) (fuel : Nat) (file : List Nat)
    (l : List Nat) (st : Walk G × Mat) :
    forEachM (Encoder.byteStep L fuel file) l st
      = forEachM (Encoder.embedStep L fuel)
          (l.flatMap (fun i =>
            (List.range 8).map (fun j => Encoder.getBitN2 (file.getD i 0 % 256) j))) st := by
  rw [forEachM_flatMap]
  congr 1

/-- The decoder's loop over the bits of one byte, run beside the encoder's
from bit `j`, writes the byte. -/
theorem byte_lockstep {G D : Type} (L : Lib G D) (fuel rows cols : Nat) (B : Mat)
    (byte : Nat) (hbyte : byte < 256) (out0 : List Nat) (stEnd : Walk G × Mat) (hB : B.isByte)
    (hBr : B.rows = rows) (hBc : B.cols = cols) (n : Nat) :
    ∀ (j : Nat) (st stH : Walk G × Mat) (dst : Decoder.FileState G), j + n = 8 →
      forEachM (Encoder.bitStep L fuel byte) (List.range' j n) st = .ok stH →
      Continues stH stEnd → EncInv rows cols B st →
      dst.walk = st.1 →
      (j < 8 → dst.n = j ∧ dst.sequence0 = byte % 2 ^ j ∧ dst.out = out0) →
      (j = 8 → dst.n = 0 ∧ dst.sequence0 = 0 ∧ dst.out = out0 ++ [byte]) →
      ∃ dst1, forEachM (Decoder.bitStep L fuel stEnd.2 B) (List.range' j n) dst = .ok dst1
        ∧ dst1.walk = stH.1 ∧ dst1.n = 0 ∧ dst1.sequence0 = 0 ∧ dst1.out = out0 ++ [byte] := by
  induction n with
  | zero =>
    intro j st stH dst hj h _ _ hwalk _ hfull
    have hj8 : j = 8 := by omega
    simp only [List.range'_zero, forEachM, Except.ok.injEq] at h ⊢
    subst h
    obtain ⟨h1, h2, h3⟩ := hfull hj8
    exact ⟨dst, rfl, hwalk, h1, h2, h3⟩
  | succ n ih =>
    intro j st stH dst hj h hcont hinv hwalk hpart _
    have hj8 : j < 8 := by omega
    obtain ⟨hn, hseq, hout⟩ := hpart hj8
    rw [List.range'_succ] at h ⊢
    obtain ⟨st1, hstep, hrest⟩ := forEachM_cons_ok _ _ _ _ _ h
    rw [Encoder.bitStep_eq_embedStep] at hstep
    have hrest1 := hrest
    rw [Encoder.bitLoop_eq] at hrest1
    have hc1 : Continues st1 stEnd :=
      Continues_trans _ _ _ (Encoder.embedBits_facts L fuel rows cols B _ st1 stH hrest1).1 hcont
    obtain ⟨s, hnext, hdiff⟩ :=
      lockstep_step L fuel rows cols B st st1 stEnd _ hstep hc1 hinv hB hBr hBc
    rw [Nat.mod_eq_of_lt hbyte, Encoder.getBitN2_eq] at hdiff
    rw [← hwalk] at hnext
    unfold forEachM
    rw [Decoder.bitStep_of_next L fuel stEnd.2 B dst j s st1.1 hnext]
    simp only
    have htmp1 := byte_tmp byte j _ hj8 hdiff
    rw [hn, hseq, htmp1]
    have hinv1 := Encoder.embedStep_encInv L fuel rows cols B st st1 _ hstep hinv
    by_cases h8 : (j + 1) % 8 = 0
    · rw [if_pos h8]
      have hj7 : j = 7 := by omega
      apply ih (j + 1) st1 stH _ (by omega) hrest hcont hinv1 rfl
      · intro hlt; omega
      · intro _
        refine ⟨rfl, rfl, ?_⟩
        simp only
        rw [hout, hj7]
        have : byte % 2 ^ (7 + 1) = byte := Nat.mod_eq_of_lt (by norm_num; exact hbyte)
        rw [this]
    · rw [if_neg h8]
      apply ih (j + 1) st1 stH _ (by omega) hrest hcont hinv1 rfl
      · intro _
        exact ⟨rfl, rfl, hout⟩
      · intro he; omega

theorem take_succ_getD (file : List Nat) (k : Nat) (hk : k < file.length) :
    file.take k ++ [file.getD k 0] = file.take (k + 1) := by
  rw [List.take_succ, List.getD_eq_getElem?_getD, List.getElem?_eq_getElem hk]
  rfl

/-- The decoder's payload loop, run beside the encoder's from byte `k`, ends
in the encoder's traversal state having written the file. -/
theorem payload_lockstep {G D : Type} (L : Lib G D) (fuel rows cols : Nat) (B : Mat)
    (file : List Nat) (hbytes : ∀ b ∈ file, b < 256) (stEnd : Walk G × Mat) (hB : B.isByte)
    (hBr : B.rows = rows) (hBc : B.cols = cols) (n : Nat) :
    ∀ (k : Nat) (st stH : Walk G × Mat) (dst : Decoder.FileState G), k + n = file.length →
      forEachM (Encoder.byteStep L fuel file) (List.range' k n) st = .ok stH →
      Continues stH stEnd → EncInv rows cols B st →
      dst.walk = st.1 → dst.n = 0 → dst.sequence0 = 0 → dst.out = file.take k →
      ∃ dst1, forEachM (Decoder.byteStep L fuel stEnd.2 B) (List.range' k n) dst = .ok dst1
        ∧ dst1.walk = stH.1 ∧ dst1.out = file := by
  induction n with
  | zero =>
    intro k st stH dst hk h _ _ hwalk _ _ hout
    have hkl : k = file.length := by omega
    simp only [List.range'_zero, forEachM, Except.ok.injEq] at h ⊢
    subst h
    refine ⟨dst, rfl, hwalk, ?_⟩
    rw [hout, hkl, List.take_length]
  | succ n ih =>
    intro k st stH dst hk h hcont hinv hwalk hn hseq hout
    have hkl : k < file.length := by omega
    rw [List.range'_succ] at h ⊢
    obtain ⟨st1, hstep, hrest⟩ := forEachM_cons_ok _ _ _ _ _ h
    have hrest1 := hrest
    rw [Encoder.byteLoop_eq] at hrest1
    have hc1 : Continues st1 stEnd :=
      Continues_trans _ _ _ (Encoder.embedBits_facts L fuel rows cols B _ st1 stH hrest1).1 hcont
    have hbyte : file.getD k 0 < 256 := by
      apply hbytes
      rw [List.getD_eq_getElem?_getD, List.getElem?_eq_getElem hkl]
      exact List.getElem_mem hkl
    have hstep8 : forEachM (Encoder.bitStep L fuel (file.getD k 0)) (List.range' 0 8) st
        = .ok st1 := hstep
    obtain ⟨dst1, hd1, hw1, hn1, hs1, ho1⟩ :=
      byte_lockstep L fuel rows cols B (file.getD k 0) hbyte (file.take k) stEnd hB hBr hBc 8
        0 st st1 dst rfl hstep8 hc1 hinv hwalk
        (fun _ => ⟨hn, by rw [hseq, pow_zero, Nat.mod_one], hout⟩)
        (fun h0 => absurd h0 (by decide))
    have hinv1 : EncInv rows cols B st1 := by
      have hstep2 := hstep8
      rw [Encoder.bitLoop_eq] at hstep2
      exact Encoder.embedBits_encInv L fuel rows cols B _ st st1 hstep2 hinv
    unfold forEachM
    have hd1b : Decoder.byteStep L fuel stEnd.2 B dst k = .ok dst1 := hd1
    rw [hd1b]
    simp only
    apply ih (k + 1) st1 stH dst1 (by omega) hrest hcont hinv1 hw1 hn1 hs1
    rw [ho1, take_succ_getD file k hkl]

theorem Decoder.hash_eq_encoder (W : Nat) (str : List Nat) :
    Decoder.hash W str = Encoder.hash W str :=
  Decoder.hashLoop_eq_encoder W str 5381

theorem Decoder.noiseGenerator_eq_encoder {G D : Type} (L : Lib G D) (B : Mat) (sigma : D)
    (g : G) : Decoder.noiseGenerator L B sigma g = Encoder.noiseGenerator L B sigma g := rfl

/-- What a successful run of the encoder went through. -/
theorem Encoder.run_ok {G D : Type} (L : Lib G D) (W fuel : Nat) (carrier : Mat)
    (file password : List Nat) (stEnd : Walk G × Mat)
    (h : Encoder.run L W fuel carrier file password = .ok stEnd) :
    carrier.empty = false
      ∧ Encoder.sizeChecks W carrier.rows carrier.cols file.length = none
      ∧ ∃ stH, Encoder.headerRun L W fuel carrier (file.length % 2 ^ W) password = .ok stH
          ∧ forEachM (Encoder.byteStep L fuel file) (List.range (file.length % 2 ^ W)) stH
              = .ok stEnd := by
  unfold Encoder.run at h
  cases hempty : carrier.empty with
  | true => rw [hempty] at h; simp at h
  | false =>
    rw [hempty] at h
    simp only [Bool.false_eq_true, if_false] at h
    cases hchk : Encoder.sizeChecks W carrier.rows carrier.cols file.length with
    | some e => rw [hchk] at h; simp at h
    | none =>
      rw [hchk] at h
      simp only at h
      cases hhead : Encoder.headerRun L W fuel carrier (file.length % 2 ^ W) password with
      | error e => rw [hhead] at h; simp at h
      | ok stH =>
        rw [hhead] at h
        exact ⟨rfl, rfl, stH, rfl, h⟩

theorem Encoder.sizeChecks_none (W rows cols stSize : Nat)
    (h : Encoder.sizeChecks W rows cols stSize = none) :
    stSize < 2 ^ 32 ∧ ¬ (toInt32 (toInt32 ((cols : Int) * rows) - 32) < 0)
      ∧ ¬ (toULong W (toInt32 (toInt32 ((cols : Int) * rows) - 32)) < stSize % 2 ^ W) := by
  unfold Encoder.sizeChecks at h
  split at h
  · simp at h
  · rename_i h1
    simp only at h
    split at h
    · simp at h
    · rename_i h2
      split at h
      · simp at h
      · rename_i h3
        exact ⟨by omega, h3, h2⟩

/-- Whenever the encoder ends with an image, the decoder, given that image,
the original carrier and the same password, with the same fuel, ends having
written the bytes of the file, in the encoder's traversal state. -/
theorem decode_of_encoded {G D : Type} (L : Lib G D) (W fuel : Nat) (carrier : Mat)
    (file password : List Nat) (hfs : file.length % 2 ^ W = file.length)
    (hbytes : ∀ b ∈ file, b < 256)
    (stEnd : Walk G × Mat) (h : Encoder.run L W fuel carrier file password = .ok stEnd) :
    ∃ dst, Decoder.run L W fuel stEnd.2 carrier password = .ok dst
      ∧ dst.out = file ∧ dst.walk = stEnd.1 := by
  obtain ⟨hne, hchk, stH, hhead, hpay⟩ := Encoder.run_ok L W fuel carrier file password stEnd h
  obtain ⟨hlen, hsmall, -⟩ := Encoder.sizeChecks_none _ _ _ _ hchk
  rw [hfs] at hhead hpay
  -- the noised carrier and the first state of the loops
  obtain ⟨hnr, hnc⟩ := Encoder.noiseGenerator_dims L carrier L.three
    (L.mkRNG (Encoder.hash W password))
  have hB := Encoder.noiseGenerator_isByte L carrier L.three (L.mkRNG (Encoder.hash W password))
  unfold Encoder.headerRun at hhead
  simp only at hhead
  rw [hnr, hnc] at hhead
  have hinv0 : EncInv carrier.rows carrier.cols
      (Encoder.noiseGenerator L carrier L.three (L.mkRNG (Encoder.hash W password)))
      (({ rng := L.mkRNG (Encoder.hash W password),
          visited := zeroMat carrier.rows carrier.cols, sites := [] } : Walk G),
        Encoder.noiseGenerator L carrier L.three (L.mkRNG (Encoder.hash W password))) :=
    ⟨WalkInv_zero _ _ _, fun _ _ _ _ => rfl, hnr, hnc⟩
  have hhead1 := hhead
  rw [Encoder.sizeLoop_eq] at hhead1
  have hinvH := Encoder.embedBits_encInv L fuel _ _ _ _ _ _ hhead1 hinv0
  have hpay1 := hpay
  rw [Encoder.byteLoop_eq] at hpay1
  have hcontP := (Encoder.embedBits_facts L fuel carrier.rows carrier.cols
    (Encoder.noiseGenerator L carrier L.three (L.mkRNG (Encoder.hash W password)))
    _ stH stEnd hpay1).1
  have hinvE := Encoder.embedBits_encInv L fuel _ _ _ _ _ _ hpay1 hinvH
  have hEr : stEnd.2.rows = carrier.rows := hinvE.2.2.1
  have hEc : stEnd.2.cols = carrier.cols := hinvE.2.2.2
  -- the decoder
  have hEne : stEnd.2.empty = false := by
    unfold Mat.empty at hne ⊢
    rw [hEr, hEc]; exact hne
  have hdchk : Decoder.sizeChecks stEnd.2 carrier = none := by
    unfold Decoder.sizeChecks
    rw [hEr, hEc, if_neg (by simp), if_neg hsmall]
  rw [List.range_eq_range'] at hhead hpay
  obtain ⟨dst1, hd1, hw1, hf1⟩ :=
    header_lockstep L fuel carrier.rows carrier.cols _ file.length hlen stEnd hB hnr hnc 32
      0 _ stH
      { walk := { rng := L.mkRNG (Encoder.hash W password),
                  visited := zeroMat carrier.rows carrier.cols, sites := [] },
        fileSize := 0, tmpSize := 0, n := 0 }
      rfl hhead hcontP hinv0 rfl rfl (by simp [Nat.mod_one]) (by simp [Nat.mod_one])
  obtain ⟨dst2, hd2, hw2, ho2⟩ :=
    payload_lockstep L fuel carrier.rows carrier.cols _ file hbytes stEnd hB hnr hnc
      file.length 0 stH stEnd
      { walk := dst1.walk, sequence0 := 0, n := 0, out := [] }
      (by omega) hpay (Continues_refl _) hinvH hw1 rfl rfl rfl
  refine ⟨dst2, ?_, ho2, hw2⟩
  unfold Decoder.run
  rw [hEne, hne, hdchk]
  simp only [Bool.or_self, Bool.false_eq_true, if_false]
  unfold Decoder.headerRun
  simp only
  rw [Decoder.hash_eq_encoder, Decoder.noiseGenerator_eq_encoder, hEr, hEc,
    List.range_eq_range', hd1]
  simp only
  rw [hf1, List.range_eq_range']
  exact hd2

/-! ## Counting sites -/

/-- The accepted sites fit in the grid. -/
theorem WalkInv_length_le {G : Type} (rows cols : Nat) (w : Walk G) (hw : WalkInv rows cols w) :
    w.sites.length ≤ rows * cols * 3 := by
  obtain ⟨-, -, hnd, hin, -⟩ := hw
  have hsub : w.sites.toFinset
      ⊆ Finset.range rows ×ˢ (Finset.range cols ×ˢ Finset.range 3) := by
    intro s hs
    obtain ⟨h1, h2, h3⟩ := hin s (List.mem_toFinset.1 hs)
    simp only [Finset.mem_product, Finset.mem_range]
    exact ⟨h1, h2, h3⟩
  have hcard := Finset.card_le_card hsub
  rw [List.toFinset_card_of_nodup hnd] at hcard
  simpa [Finset.card_product, Nat.mul_assoc] using hcard

/-- While fewer sites have been accepted than the grid has, some triple of
the grid is unmarked. -/
theorem WalkInv_exists_unmarked {G : Type} (rows cols : Nat) (w : Walk G)
    (hw : WalkInv rows cols w) (hlt : w.sites.length < rows * cols * 3) :
    ∃ x y c, x < rows ∧ y < cols ∧ c < 3 ∧ w.visited.get x y c = 0 := by
  obtain ⟨-, -, hnd, -, hmark⟩ := hw
  have hnot : ¬ (Finset.range rows ×ˢ (Finset.range cols ×ˢ Finset.range 3)
      ⊆ w.sites.toFinset) := by
    intro hsub
    have hcard := Finset.card_le_card hsub
    rw [List.toFinset_card_of_nodup hnd] at hcard
    simp only [Finset.card_product, Finset.card_range] at hcard
    have : rows * (cols * 3) = rows * cols * 3 := (Nat.mul_assoc _ _ _).symm
    omega
  obtain ⟨s, hs, hns⟩ := Finset.not_subset.1 hnot
  simp only [Finset.mem_product, Finset.mem_range] at hs
  refine ⟨s.1, s.2.1, s.2.2, hs.1, hs.2.1, hs.2.2, ?_⟩
  by_contra hne
  exact hns (List.mem_toFinset.2 ((hmark _ _ _).1 hne))

/-! ## Termination with a fair generator -/

/-- From a consistent state with room left, on a fair and bounded generator,
a selection succeeds with enough fuel. -/
theorem Encoder.nextSite_terminates {G D : Type} (L : Lib G D) (hB : Bounded L)
    (carrier : Mat) (hr : 0 < carrier.rows) (hc : 0 < carrier.cols) (g0 : G)
    (hfair : Fair L carrier.rows carrier.cols g0) (w : Walk G)
    (hw : WalkInv carrier.rows carrier.cols w)
    (hrng : ∃ k, w.rng = (attemptRng L carrier.rows carrier.cols)^[k] g0)
    (hlt : w.sites.length < carrier.rows * carrier.cols * 3) :
    ∃ F r, (∀ fuel, F ≤ fuel → Encoder.nextSite L carrier fuel w = .ok r)
      ∧ ∃ k, r.2.rng = (attemptRng L carrier.rows carrier.cols)^[k] g0 := by
  obtain ⟨x, y, c, hx, hy, hc3, hz⟩ := WalkInv_exists_unmarked _ _ w hw hlt
  obtain ⟨k, hk⟩ := hrng
  obtain ⟨n, hn⟩ := hfair k x y c hx hy hc3
  have hiter : (attemptRng L carrier.rows carrier.cols)^[n] w.rng
      = (attemptRng L carrier.rows carrier.cols)^[k + n] g0 := by
    rw [hk, Nat.add_comm]
    exact (Function.iterate_add_apply _ n k g0).symm
  obtain ⟨r, hres⟩ := Encoder.nextSite_of_hit L hB carrier hr hc n w hw.1 hw.2.1
    (by rw [hiter, hn]; exact hz)
  refine ⟨n + 1, r, fun fuel hle => Encoder.nextSite_fuel_le L carrier _ fuel hle w r hres, ?_⟩
  obtain ⟨-, -, -, -, m, -, -, h6, -⟩ := Encoder.nextSite_ok L carrier _ w r hres
  refine ⟨m + 1 + k, ?_⟩
  rw [h6, hk]
  exact (Function.iterate_add_apply _ (m + 1) k g0).symm

/-- A pass of `embedStep` over `bits` ends with enough fuel when the grid has
room for all of them. -/
theorem Encoder.embedBits_terminates {G D : Type} (L : Lib G D) (hB : Bounded L)
    (rows cols : Nat) (hr : 0 < rows) (hc : 0 < cols) (g0 : G) (hfair : Fair L rows cols g0)
    (bits : List Nat) :
    ∀ (st : Walk G × Mat), WalkInv rows cols st.1 → st.2.rows = rows → st.2.cols = cols →
      (∃ k, st.1.rng = (attemptRng L rows cols)^[k] g0) →
      st.1.sites.length + bits.length ≤ rows * cols * 3 →
      ∃ F st1, ∀ fuel, F ≤ fuel → forEachM (Encoder.embedStep L fuel) bits st = .ok st1 := by
  induction bits with
  | nil =>
    intro st _ _ _ _ _
    exact ⟨0, st, fun _ _ => rfl⟩
  | cons b bs ih =>
    intro st hw hsr hsc hrng hroom
    simp only [List.length_cons] at hroom
    subst hsr hsc
    obtain ⟨F1, r, hnext, hrng1⟩ :=
      Encoder.nextSite_terminates L hB st.2 hr hc g0 hfair st.1 hw hrng (by omega)
    have hw1 := WalkInv_next L st.2 F1 _ _ st.1 r hw (hnext F1 (Nat.le_refl _))
    have hlen : r.2.sites.length = st.1.sites.length + 1 := by
      obtain ⟨-, -, -, h4, -⟩ := Encoder.nextSite_ok L st.2 F1 st.1 r (hnext F1 (Nat.le_refl _))
      rw [h4]; simp
    obtain ⟨F2, st2, hrest⟩ := ih (r.2, Encoder.fileAccept st.2 b r.1) hw1
      (Encoder.fileAccept_rows _ _ _) (Encoder.fileAccept_cols _ _ _) hrng1
      (by simp only; omega)
    refine ⟨max F1 F2, st2, fun fuel hle => ?_⟩
    unfold forEachM
    unfold Encoder.embedStep
    rw [hnext fuel (le_trans (le_max_left _ _) hle)]
    exact hrest fuel (le_trans (le_max_right _ _) hle)

/-! ## The whole run -/

/-- After the checks, the run of the encoder is one pass over `bitStream`. -/
theorem Encoder.run_eq_bitStream {G D : Type} (L : Lib G D) (W fuel : Nat) (carrier : Mat)
    (file password : List Nat) (hne : carrier.empty = false)
    (hchk : Encoder.sizeChecks W carrier.rows carrier.cols file.length = none) :
    Encoder.run L W fuel carrier file password
      = forEachM (Encoder.embedStep L fuel) (Encoder.bitStream (file.length % 2 ^ W) file)
          ({ rng := L.mkRNG (Encoder.hash W password),
             visited := zeroMat carrier.rows carrier.cols, sites := [] },
            Encoder.noiseGenerator L carrier L.three (L.mkRNG (Encoder.hash W password))) := by
  unfold Encoder.run
  rw [hne, hchk]
  simp only [Bool.false_eq_true, if_false]
  rw [← Encoder.loops_eq_bitStream]
  unfold Encoder.headerRun
  simp only
  rw [(Encoder.noiseGenerator_dims L carrier L.three _).1,
    (Encoder.noiseGenerator_dims L carrier L.three _).2]

theorem Encoder.main_ok_iff {G D : Type} (L : Lib G D) (W fuel : Nat) (carrier : Mat)
    (file password : List Nat) (E : Mat) :
    Encoder.main L W fuel carrier file password = .ok E
      ↔ ∃ st, Encoder.run L W fuel carrier file password = .ok st ∧ st.2 = E := by
  unfold Encoder.main
  cases Encoder.run L W fuel carrier file password with
  | error e => simp
  | ok st => simp

theorem Decoder.main_of_run {G D : Type} (L : Lib G D) (W fuel : Nat) (encoded base : Mat)
    (password : List Nat) (dst : Decoder.FileState G)
    (h : Decoder.run L W fuel encoded base password = .ok dst) :
    Decoder.main L W fuel encoded base password = .ok dst.out := by
  unfold Decoder.main
  rw [h]

/-- With a bounded and fair generator, the encoder ends with an image on
every input that passes its checks and fits in the grid. -/
theorem Encoder.run_terminates {G D : Type} (L : Lib G D) (W : Nat) (carrier : Mat)
    (file password : List Nat) (hB : Bounded L)
    (hfair : Fair L carrier.rows carrier.cols (L.mkRNG (Encoder.hash W password)))
    (hne : carrier.empty = false)
    (hchk : Encoder.sizeChecks W carrier.rows carrier.cols file.length = none)
    (hroom : 32 + 8 * (file.length % 2 ^ W) ≤ carrier.rows * carrier.cols * 3) :
    ∃ F st, ∀ fuel, F ≤ fuel → Encoder.run L W fuel carrier file password = .ok st := by
  have hpos := (Mat.empty_eq_false_iff carrier).1 hne
  have hr : 0 < carrier.rows := Nat.pos_of_mul_pos_right hpos
  have hc : 0 < carrier.cols := Nat.pos_of_mul_pos_left hpos
  obtain ⟨F, st, hF⟩ := Encoder.embedBits_terminates L hB carrier.rows carrier.cols hr hc
    (L.mkRNG (Encoder.hash W password)) hfair
    (Encoder.bitStream (file.length % 2 ^ W) file)
    ({ rng := L.mkRNG (Encoder.hash W password),
       visited := zeroMat carrier.rows carrier.cols, sites := [] },
      Encoder.noiseGenerator L carrier L.three (L.mkRNG (Encoder.hash W password)))
    (WalkInv_zero _ _ _) (Encoder.noiseGenerator_dims L carrier L.three _).1
    (Encoder.noiseGenerator_dims L carrier L.three _).2 ⟨0, rfl⟩
    (by rw [Encoder.bitStream_length]; simpa using hroom)
  refine ⟨F, st, fun fuel hle => ?_⟩
  rw [Encoder.run_eq_bitStream L W fuel carrier file password hne hchk]
  exact hF fuel hle

/-- C1, as the code has it. Take an `unsigned long` of at least 32 bits, a
carrier of at least 32 pixels (its pixel count fitting in an `int`), a
payload of bytes that the encoder's check accepts (at most `rows*cols - 32`
bytes) and that fits in the sites (`8*|P| + 32 <= rows*cols*3`), and a
generator whose bounded draws stay below their bounds and whose stream of
attempts from the seeded state keeps producing every site. Then with enough
fuel the encoder ends with an image,
and the decoder on that image, the original carrier and the same password
writes exactly the payload; and for any fuel, whenever the encoder ends with
an image the decoder with that fuel writes exactly the payload. -/
theorem C1_round_trip {G D : Type} (L : Lib G D) (W : Nat) (carrier : Mat)
    (file password : List Nat) (hW : 32 ≤ W)
    (hpix : carrier.rows * carrier.cols < 2 ^ 31)
    (h32 : 32 ≤ carrier.rows * carrier.cols)
    (haccept : file.length ≤ carrier.rows * carrier.cols - 32)
    (hfit : 8 * file.length + 32 ≤ carrier.rows * carrier.cols * 3)
    (hbytes : ∀ b ∈ file, b < 256)
    (hB : Bounded L)
    (hfair : Fair L carrier.rows carrier.cols (L.mkRNG (Encoder.hash W password))) :
    (∃ fuel E, Encoder.main L W fuel carrier file password = .ok E
        ∧ Decoder.main L W fuel E carrier password = .ok file)
      ∧ ∀ fuel E, Encoder.main L W fuel carrier file password = .ok E →
          Decoder.main L W fuel E carrier password = .ok file := by
  have hne : carrier.empty = false := (Mat.empty_eq_false_iff carrier).2 (by omega)
  have hlen : file.length < 2 ^ 32 := by omega
  have hpow : (2 : Nat) ^ 32 ≤ 2 ^ W := Nat.pow_le_pow_right (by norm_num) hW
  have hfs : file.length % 2 ^ W = file.length := Nat.mod_eq_of_lt (by omega)
  have hchk : Encoder.sizeChecks W carrier.rows carrier.cols file.length = none :=
    Encoder.sizeChecks_of_room W _ _ _ hW hpix h32 haccept
  have hsecond : ∀ fuel E, Encoder.main L W fuel carrier file password = .ok E →
      Decoder.main L W fuel E carrier password = .ok file := by
    intro fuel E hE
    obtain ⟨st, hrun, hst⟩ := (Encoder.main_ok_iff L W fuel carrier file password E).1 hE
    obtain ⟨dst, hd, hout, -⟩ :=
      decode_of_encoded L W fuel carrier file password hfs hbytes st hrun
    rw [← hst, ← hout]
    exact Decoder.main_of_run L W fuel st.2 carrier password dst hd
  refine ⟨?_, hsecond⟩
  obtain ⟨F, st, hF⟩ := Encoder.run_terminates L W carrier file password hB hfair hne hchk
    (by rw [hfs]; omega)
  have hmain : Encoder.main L W F carrier file password = .ok st.2 :=
    (Encoder.main_ok_iff L W F carrier file password st.2).2 ⟨st, hF F (Nat.le_refl _), rfl⟩
  exact ⟨F, st.2, hmain, hsecond F st.2 hmain⟩

/-! ## The small library instance -/

theorem demoLib_bounded : Bounded demoLib := by
  intro g b hb
  exact Nat.mod_lt _ hb

theorem demoLib_attemptRng (rows cols t : Nat) : attemptRng demoLib rows cols t = t + 3 := rfl

theorem demoLib_attemptRng_iterate (rows cols n t : Nat) :
    (attemptRng demoLib rows cols)^[n] t = t + 3 * n := by
  induction n generalizing t with
  | zero => rfl
  | succ n ih =>
    rw [Function.iterate_succ_apply, ih, demoLib_attemptRng]
    omega

theorem demoLib_attemptSite (u : Nat) :
    attemptSite demoLib 6 6 (3 * u) = (u % 6, (u / 6) % 6, (u / 36) % 3) := by
  unfold attemptSite demoLib
  simp only
  have h0 : 3 * u / 3 = u := by omega
  have h1 : (3 * u + 1) / 3 = u := by omega
  have h2 : (3 * u + 1 + 1) / 3 = u := by omega
  have m0 : 3 * u % 3 = 0 := by omega
  have m1 : (3 * u + 1) % 3 = 1 := by omega
  have m2 : (3 * u + 1 + 1) % 3 = 2 := by omega
  rw [h0, h1, h2, m0, m1, m2]
  norm_num

/-- On a 6x6 grid the counter generator is fair from every seed. -/
theorem demoLib_fair (seed : Nat) : Fair demoLib 6 6 (demoLib.mkRNG seed) := by
  intro k x y c hx hy hc
  refine ⟨107 * (seed + k) + x + 6 * y + 36 * c, ?_⟩
  rw [demoLib_attemptRng_iterate]
  have hm : demoLib.mkRNG seed = 3 * seed := rfl
  have hu : 3 * seed + 3 * (k + (107 * (seed + k) + x + 6 * y + 36 * c))
      = 3 * (108 * (seed + k) + x + 6 * y + 36 * c) := by omega
  rw [hm, hu, demoLib_attemptSite]
  refine Prod.ext ?_ (Prod.ext ?_ ?_)
  · simp only; omega
  · simp only; omega
  · simp only; omega

/-- C1 on a 6x6 carrier with a four-byte payload and a 32-bit `unsigned long`. -/
theorem C1_round_trip_witness :
    (∃ fuel E, Encoder.main demoLib 32 fuel (demoMat 6 6) [1, 2, 255, 0] [97, 98] = .ok E
        ∧ Decoder.main demoLib 32 fuel E (demoMat 6 6) [97, 98] = .ok [1, 2, 255, 0])
      ∧ ∀ fuel E, Encoder.main demoLib 32 fuel (demoMat 6 6) [1, 2, 255, 0] [97, 98] = .ok E →
          Decoder.main demoLib 32 fuel E (demoMat 6 6) [97, 98] = .ok [1, 2, 255, 0] :=
  C1_round_trip demoLib 32 (demoMat 6 6) [1, 2, 255, 0] [97, 98] (by decide) (by decide)
    (by decide) (by decide) (by decide) (by decide) demoLib_bounded (demoLib_fair _)

/-- C1 as stated fails: a one-byte payload fits in the 48 sites of a 4x4
carrier (`8*1 + 32 <= 48`), and the encoder ends in the "image is too small"
error whatever the fuel, so no image is produced. -/
theorem C1_counterexample :
    8 * [7].length + 32 ≤ 4 * 4 * 3
      ∧ ∀ fuel, Encoder.main demoLib 64 fuel (demoMat 4 4) [7] [] = .error .imageTooSmall := by
  refine ⟨by decide, fun fuel => ?_⟩
  rfl

/-! ## The traversal in the loops of both programs -/

theorem WalkExtends_refl {G : Type} (rows cols : Nat) (a : Walk G) : WalkExtends rows cols a a :=
  ⟨fun h => h, ⟨[], (List.append_nil _).symm⟩, fun _ _ _ h => h⟩

theorem WalkExtends_trans {G : Type} (rows cols : Nat) (a b c : Walk G)
    (hab : WalkExtends rows cols a b) (hbc : WalkExtends rows cols b c) :
    WalkExtends rows cols a c := by
  obtain ⟨h1, ⟨l1, h2⟩, h3⟩ := hab
  obtain ⟨k1, ⟨l2, k2⟩, k3⟩ := hbc
  refine ⟨fun h => k1 (h1 h), ⟨l1 ++ l2, ?_⟩, fun x y z h => k3 x y z (h3 x y z h)⟩
  rw [k2, h2, List.append_assoc]

theorem Encoder.nextSite_walkExtends {G D : Type} (L : Lib G D) (image : Mat)
    (fuel rows cols : Nat) (w : Walk G) (r : Site × Walk G)
    (h : Encoder.nextSite L image fuel w = .ok r) : WalkExtends rows cols w r.2 := by
  obtain ⟨-, h2, h3, h4, -⟩ := Encoder.nextSite_ok L image fuel w r h
  refine ⟨fun hw => WalkInv_next L image fuel rows cols w r hw h, ⟨[r.1], h4⟩, ?_⟩
  intro x y c hv
  have hne : (x, y, c) ≠ (r.1.1, r.1.2.1, r.1.2.2) := by
    intro he
    have hx : x = r.1.1 := congrArg Prod.fst he
    have hy : y = r.1.2.1 := congrArg (fun p => p.2.1) he
    have hc : c = r.1.2.2 := congrArg (fun p => p.2.2) he
    subst hx hy hc
    exact hv h2
  rw [h3, Mat.get_set_other _ _ _ _ _ _ _ _ hne]
  exact hv

theorem Encoder.embedBits_walkExtends {G D : Type} (L : Lib G D) (fuel rows cols : Nat)
    (bits : List Nat) (st st1 : Walk G × Mat)
    (h : forEachM (Encoder.embedStep L fuel) bits st = .ok st1) :
    WalkExtends rows cols st.1 st1.1 := by
  refine forEachM_relation _ (fun a b => WalkExtends rows cols a.1 b.1)
    (fun a => WalkExtends_refl rows cols a.1)
    (fun a b c hab hbc => WalkExtends_trans rows cols a.1 b.1 c.1 hab hbc) ?_ bits st st1 h
  intro s a s1 hs
  obtain ⟨t, hn, -⟩ := Encoder.embedStep_ok L fuel s s1 a hs
  exact Encoder.nextSite_walkExtends L s.2 fuel rows cols s.1 _ hn

theorem Decoder.sizeStep_ok {G D : Type} (L : Lib G D) (fuel : Nat) (encoded base : Mat)
    (st st1 : Decoder.SizeState G) (i : Nat)
    (h : Decoder.sizeStep L fuel encoded base st i = .ok st1) :
    ∃ s, Decoder.nextSite L encoded fuel st.walk = .ok (s, st1.walk) := by
  cases hn : Decoder.nextSite L encoded fuel st.walk with
  | error e =>
    unfold Decoder.sizeStep at h
    rw [hn] at h
    simp at h
  | ok r =>
    rw [Decoder.sizeStep_of_next L fuel encoded base st i r.1 r.2 hn] at h
    simp only [Except.ok.injEq] at h
    subst h
    refine ⟨r.1, ?_⟩
    split <;> rfl

theorem Decoder.bitStep_ok {G D : Type} (L : Lib G D) (fuel : Nat) (encoded base : Mat)
    (st st1 : Decoder.FileState G) (j : Nat)
    (h : Decoder.bitStep L fuel encoded base st j = .ok st1) :
    ∃ s, Decoder.nextSite L encoded fuel st.walk = .ok (s, st1.walk) := by
  cases hn : Decoder.nextSite L encoded fuel st.walk with
  | error e =>
    unfold Decoder.bitStep at h
    rw [hn] at h
    simp at h
  | ok r =>
    rw [Decoder.bitStep_of_next L fuel encoded base st j r.1 r.2 hn] at h
    simp only [Except.ok.injEq] at h
    subst h
    refine ⟨r.1, ?_⟩
    split <;> rfl

theorem Decoder.sizeLoop_walkExtends {G D : Type} (L : Lib G D) (fuel rows cols : Nat)
    (encoded base : Mat) (l : List Nat) (st st1 : Decoder.SizeState G)
    (h : forEachM (Decoder.sizeStep L fuel encoded base) l st = .ok st1) :
    WalkExtends rows cols st.walk st1.walk := by
  refine forEachM_relation _ (fun a b => WalkExtends rows cols a.walk b.walk)
    (fun a => WalkExtends_refl rows cols a.walk)
    (fun a b c hab hbc => WalkExtends_trans rows cols a.walk b.walk c.walk hab hbc) ?_ l st st1 h
  intro s a s1 hs
  obtain ⟨t, hn⟩ := Decoder.sizeStep_ok L fuel encoded base s s1 a hs
  rw [Decoder.nextSite_eq_encoder] at hn
  exact Encoder.nextSite_walkExtends L encoded fuel rows cols s.walk _ hn

theorem Decoder.bitLoop_walkExtends {G D : Type} (L : Lib G D) (fuel rows cols : Nat)
    (encoded base : Mat) (l : List Nat) (st st1 : Decoder.FileState G)
    (h : forEachM (Decoder.bitStep L fuel encoded base) l st = .ok st1) :
    WalkExtends rows cols st.walk st1.walk := by
  refine forEachM_relation _ (fun a b => WalkExtends rows cols a.walk b.walk)
    (fun a => WalkExtends_refl rows cols a.walk)
    (fun a b c hab hbc => WalkExtends_trans rows cols a.walk b.walk c.walk hab hbc) ?_ l st st1 h
  intro s a s1 hs
  obtain ⟨t, hn⟩ := Decoder.bitStep_ok L fuel encoded base s s1 a hs
  rw [Decoder.nextSite_eq_encoder] at hn
  exact Encoder.nextSite_walkExtends L encoded fuel rows cols s.walk _ hn

theorem Decoder.byteLoop_walkExtends {G D : Type} (L : Lib G D) (fuel rows cols : Nat)
    (encoded base : Mat) (l : List Nat) (st st1 : Decoder.FileState G)
    (h : forEachM (Decoder.byteStep L fuel encoded base) l st = .ok st1) :
    WalkExtends rows cols st.walk st1.walk := by
  refine forEachM_relation _ (fun a b => WalkExtends rows cols a.walk b.walk)
    (fun a => WalkExtends_refl rows cols a.walk)
    (fun a b c hab hbc => WalkExtends_trans rows cols a.walk b.walk c.walk hab hbc) ?_ l st st1 h
  intro s a s1 hs
  exact Decoder.bitLoop_walkExtends L fuel rows cols encoded base _ s s1 hs

/-- What a successful run of the decoder went through. -/
theorem Decoder.decoder_run_ok {G D : Type} (L : Lib G D) (W fuel : Nat) (encoded base : Mat)
    (password : List Nat) (dst : Decoder.FileState G)
    (h : Decoder.run L W fuel encoded base password = .ok dst) :
    (encoded.empty || base.empty) = false
      ∧ Decoder.sizeChecks encoded base = none
      ∧ ∃ dst1, Decoder.headerRun L W fuel encoded base password = .ok dst1
          ∧ forEachM
              (Decoder.byteStep L fuel encoded
                (Decoder.noiseGenerator L base L.three (L.mkRNG (Decoder.hash W password))))
              (List.range dst1.fileSize)
              { walk := dst1.walk, sequence0 := 0, n := 0, out := [] } = .ok dst := by
  unfold Decoder.run at h
  cases hempty : (encoded.empty || base.empty) with
  | true => rw [hempty] at h; simp at h
  | false =>
    rw [hempty] at h
    simp only [Bool.false_eq_true, if_false] at h
    cases hchk : Decoder.sizeChecks encoded base with
    | some e => rw [hchk] at h; simp at h
    | none =>
      rw [hchk] at h
      simp only at h
      cases hhead : Decoder.headerRun L W fuel encoded base password with
      | error e => rw [hhead] at h; simp at h
      | ok dst1 =>
        rw [hhead] at h
        exact ⟨rfl, rfl, dst1, rfl, h⟩

/-- At the end of a run of the encoder the traversal state is consistent and
holds one site per embedded bit. -/
theorem Encoder.run_walkInv {G D : Type} (L : Lib G D) (W fuel : Nat) (carrier : Mat)
    (file password : List Nat) (st : Walk G × Mat)
    (h : Encoder.run L W fuel carrier file password = .ok st) :
    WalkInv carrier.rows carrier.cols st.1
      ∧ st.1.sites.length = 32 + 8 * (file.length % 2 ^ W) := by
  obtain ⟨hne, hchk, -⟩ := Encoder.run_ok L W fuel carrier file password st h
  rw [Encoder.run_eq_bitStream L W fuel carrier file password hne hchk] at h
  obtain ⟨hw, hl⟩ := (Encoder.embedBits_facts L fuel carrier.rows carrier.cols carrier _ _ _ h).2.2
    (WalkInv_zero _ _ _)
  refine ⟨hw, ?_⟩
  rw [hl, Encoder.bitStream_length]
  simp

/-- At the end of a run of the decoder the traversal state is consistent. -/
theorem Decoder.decoder_run_walkInv {G D : Type} (L : Lib G D) (W fuel : Nat) (encoded base : Mat)
    (password : List Nat) (dst : Decoder.FileState G)
    (h : Decoder.run L W fuel encoded base password = .ok dst) :
    WalkInv encoded.rows encoded.cols dst.walk := by
  obtain ⟨-, -, dst1, hhead, hpay⟩ := Decoder.decoder_run_ok L W fuel encoded base password dst h
  unfold Decoder.headerRun at hhead
  have h1 := (Decoder.sizeLoop_walkExtends L fuel encoded.rows encoded.cols _ _ _ _ _ hhead).1
    (WalkInv_zero _ _ _)
  exact (Decoder.byteLoop_walkExtends L fuel encoded.rows encoded.cols _ _ _ _ _ hpay).1 h1

/-! ## Site uniqueness -/

/-- C5. At the end of a run of the encoder and at the end of a run of the
decoder, header and payload loops together, no triple occurs twice among the
accepted sites, and a triple is marked in `visited` exactly when it was
accepted; and in each program a selection accepts a triple only if it is
unmarked, marks it on acceptance, and leaves every mark in place. -/
theorem C5_site_uniqueness {G D : Type} (L : Lib G D) (W fuel : Nat)
    (carrier encoded base : Mat) (file password passwordD : List Nat)
    (st : Walk G × Mat) (dst : Decoder.FileState G)
    (hE : Encoder.run L W fuel carrier file password = .ok st)
    (hD : Decoder.run L W fuel encoded base passwordD = .ok dst) :
    st.1.sites.Nodup ∧ dst.walk.sites.Nodup
      ∧ (∀ x y c, st.1.visited.get x y c ≠ 0 ↔ (x, y, c) ∈ st.1.sites)
      ∧ (∀ x y c, dst.walk.visited.get x y c ≠ 0 ↔ (x, y, c) ∈ dst.walk.sites)
      ∧ (∀ (image : Mat) (fuel1 : Nat) (w : Walk G) (r : Site × Walk G),
          Encoder.nextSite L image fuel1 w = .ok r →
            w.visited.get r.1.1 r.1.2.1 r.1.2.2 = 0
              ∧ r.2.visited.get r.1.1 r.1.2.1 r.1.2.2 = 1
              ∧ ∀ x y c, w.visited.get x y c ≠ 0 → r.2.visited.get x y c ≠ 0)
      ∧ (∀ (image : Mat) (fuel1 : Nat) (w : Walk G) (r : Site × Walk G),
          Decoder.nextSite L image fuel1 w = .ok r →
            w.visited.get r.1.1 r.1.2.1 r.1.2.2 = 0
              ∧ r.2.visited.get r.1.1 r.1.2.1 r.1.2.2 = 1
              ∧ ∀ x y c, w.visited.get x y c ≠ 0 → r.2.visited.get x y c ≠ 0) := by
  obtain ⟨⟨-, -, hnd, -, hmark⟩, -⟩ := Encoder.run_walkInv L W fuel carrier file password st hE
  obtain ⟨-, -, hndD, -, hmarkD⟩ := Decoder.decoder_run_walkInv L W fuel encoded base passwordD dst hD
  have hstep : ∀ (image : Mat) (fuel1 : Nat) (w : Walk G) (r : Site × Walk G),
      Encoder.nextSite L image fuel1 w = .ok r →
        w.visited.get r.1.1 r.1.2.1 r.1.2.2 = 0
          ∧ r.2.visited.get r.1.1 r.1.2.1 r.1.2.2 = 1
          ∧ ∀ x y c, w.visited.get x y c ≠ 0 → r.2.visited.get x y c ≠ 0 := by
    intro image fuel1 w r h
    obtain ⟨-, h2, h3, -, -⟩ := Encoder.nextSite_ok L image fuel1 w r h
    refine ⟨h2, ?_, (Encoder.nextSite_walkExtends L image fuel1 0 0 w r h).2.2⟩
    rw [h3, Mat.get_set_same]
  refine ⟨hnd, hndD, hmark, hmarkD, hstep, ?_⟩
  intro image fuel1 w r h
  rw [Decoder.nextSite_eq_encoder] at h
  exact hstep image fuel1 w r h

/-- C5 on a run of the encoder on a 6x6 carrier and the run of the decoder on
its result. -/
theorem C5_site_uniqueness_witness :
    ∃ (fuel : Nat) (st : Walk Nat × Mat) (dst : Decoder.FileState Nat),
      Encoder.run demoLib 64 fuel (demoMat 6 6) [1, 2, 255, 0] [97, 98] = .ok st
        ∧ Decoder.run demoLib 64 fuel st.2 (demoMat 6 6) [97, 98] = .ok dst
        ∧ st.1.sites.Nodup ∧ dst.walk.sites.Nodup
        ∧ st.1.sites.length = 64 := by
  obtain ⟨F, st, hF⟩ := Encoder.run_terminates demoLib 64 (demoMat 6 6) [1, 2, 255, 0] [97, 98]
    demoLib_bounded (demoLib_fair _) (by decide) (by decide) (by decide)
  obtain ⟨dst, hd, -, -⟩ := decode_of_encoded demoLib 64 F (demoMat 6 6) [1, 2, 255, 0]
    [97, 98] (by decide) (by decide) st (hF F (Nat.le_refl _))
  have h := C5_site_uniqueness demoLib 64 F (demoMat 6 6) st.2 (demoMat 6 6)
    [1, 2, 255, 0] [97, 98] [97, 98] st dst (hF F (Nat.le_refl _)) hd
  refine ⟨F, st, dst, hF F (Nat.le_refl _), hd, h.1, h.2.1, ?_⟩
  exact (Encoder.run_walkInv demoLib 64 F (demoMat 6 6) [1, 2, 255, 0] [97, 98] st
    (hF F (Nat.le_refl _))).2

/-! ## The capacity check -/

/-- A run of the encoder that ends has found room for every bit. -/
theorem Encoder.run_room {G D : Type} (L : Lib G D) (W fuel : Nat) (carrier : Mat)
    (file password : List Nat) (st : Walk G × Mat)
    (h : Encoder.run L W fuel carrier file password = .ok st) :
    32 + 8 * (file.length % 2 ^ W) ≤ carrier.rows * carrier.cols * 3 := by
  obtain ⟨hw, hl⟩ := Encoder.run_walkInv L W fuel carrier file password st h
  rw [← hl]
  exact WalkInv_length_le _ _ _ hw

/-- C2 fails on a 10x10 carrier and a 50-byte file: the 300 sites do not
exceed the 432 needed, the size checks pass all the same, and the encoder,
past its checks, never ends with an image whatever the generator and the
fuel. -/
theorem C2_check_passes_without_room :
    10 * 10 * 3 ≤ 32 + 8 * 50
      ∧ Encoder.sizeChecks 64 (demoMat 10 10).rows (demoMat 10 10).cols 50 = none
      ∧ ∀ (G D : Type) (L : Lib G D) (fuel : Nat) (file password : List Nat),
          file.length = 50 →
          (Encoder.main L 64 fuel (demoMat 10 10) file password = .error .outOfFuel
            ∨ Encoder.main L 64 fuel (demoMat 10 10) file password = .error .outOfRange) := by
  refine ⟨by decide, by decide, ?_⟩
  intro G D L fuel file password hlen
  cases hmain : Encoder.main L 64 fuel (demoMat 10 10) file password with
  | ok E =>
    obtain ⟨st, hrun, -⟩ := (Encoder.main_ok_iff _ _ _ _ _ _ _).1 hmain
    have hroom := Encoder.run_room L 64 fuel (demoMat 10 10) file password st hrun
    rw [hlen] at hroom
    exact absurd hroom (by decide)
  | error e =>
    have hrun := (Encoder.main_error_iff _ _ _ _ _ _ _).1 hmain
    have hchk : Encoder.sizeChecks 64 (demoMat 10 10).rows (demoMat 10 10).cols file.length
        = none := by rw [hlen]; decide
    rcases Encoder.run_error _ _ _ _ _ _ _ hrun with h1 | h1 | h1
    · exact absurd h1.1 (by decide)
    · rw [hchk] at h1
      exact absurd h1.2 (by simp)
    · rcases h1.2.2 with h2 | h2
      · left; rw [h2]
      · right; rw [h2]

/-! ## The header -/

/-- With a bounded and fair generator and room for 32 sites, the header loop
of the encoder ends with enough fuel. -/
theorem Encoder.headerRun_terminates {G D : Type} (L : Lib G D) (W : Nat) (carrier : Mat)
    (fileSize : Nat) (password : List Nat) (hB : Bounded L)
    (hfair : Fair L carrier.rows carrier.cols (L.mkRNG (Encoder.hash W password)))
    (hr : 0 < carrier.rows) (hc : 0 < carrier.cols)
    (hroom : 32 ≤ carrier.rows * carrier.cols * 3) :
    ∃ F st, ∀ fuel, F ≤ fuel →
      Encoder.headerRun L W fuel carrier fileSize password = .ok st := by
  obtain ⟨F, st, hF⟩ := Encoder.embedBits_terminates L hB carrier.rows carrier.cols hr hc
    (L.mkRNG (Encoder.hash W password)) hfair
    ((List.range 32).map (fun i => Encoder.getBitN (toInt32 fileSize) i))
    ({ rng := L.mkRNG (Encoder.hash W password),
       visited := zeroMat carrier.rows carrier.cols, sites := [] },
      Encoder.noiseGenerator L carrier L.three (L.mkRNG (Encoder.hash W password)))
    (WalkInv_zero _ _ _) (Encoder.noiseGenerator_dims L carrier L.three _).1
    (Encoder.noiseGenerator_dims L carrier L.three _).2 ⟨0, rfl⟩
    (by simpa using hroom)
  refine ⟨F, st, fun fuel hle => ?_⟩
  unfold Encoder.headerRun
  simp only
  rw [(Encoder.noiseGenerator_dims L carrier L.three _).1,
    (Encoder.noiseGenerator_dims L carrier L.three _).2, Encoder.sizeLoop_eq]
  exact hF fuel hle

/-- When the header loop of the encoder ends, the header loop of the decoder
on any image that continues the one it left (the final image included), the
original carrier and the same password ends with the same length in the same
traversal state. -/
theorem Decoder.headerRun_of_encoder {G D : Type} (L : Lib G D) (W fuel : Nat) (carrier : Mat)
    (fileSize : Nat) (password : List Nat) (stH stEnd : Walk G × Mat)
    (hfs : fileSize < 2 ^ 32)
    (h : Encoder.headerRun L W fuel carrier fileSize password = .ok stH)
    (hcont : Continues stH stEnd) :
    ∃ dst, Decoder.headerRun L W fuel stEnd.2 carrier password = .ok dst
      ∧ dst.fileSize = fileSize ∧ dst.walk = stH.1 := by
  obtain ⟨hnr, hnc⟩ := Encoder.noiseGenerator_dims L carrier L.three
    (L.mkRNG (Encoder.hash W password))
  have hB := Encoder.noiseGenerator_isByte L carrier L.three
    (L.mkRNG (Encoder.hash W password))
  unfold Encoder.headerRun at h
  simp only at h
  rw [hnr, hnc] at h
  have hinv0 : EncInv carrier.rows carrier.cols
      (Encoder.noiseGenerator L carrier L.three (L.mkRNG (Encoder.hash W password)))
      (({ rng := L.mkRNG (Encoder.hash W password),
          visited := zeroMat carrier.rows carrier.cols, sites := [] } : Walk G),
        Encoder.noiseGenerator L carrier L.three (L.mkRNG (Encoder.hash W password))) :=
    ⟨WalkInv_zero _ _ _, fun _ _ _ _ => rfl, hnr, hnc⟩
  have h1 := h
  rw [Encoder.sizeLoop_eq] at h1
  have hinvH := Encoder.embedBits_encInv L fuel _ _ _ _ _ _ h1 hinv0
  rw [List.range_eq_range'] at h
  obtain ⟨dst1, hd1, hw1, hf1⟩ :=
    header_lockstep L fuel carrier.rows carrier.cols _ fileSize hfs stEnd hB hnr hnc 32
      0 _ stH
      { walk := { rng := L.mkRNG (Encoder.hash W password),
                  visited := zeroMat carrier.rows carrier.cols, sites := [] },
        fileSize := 0, tmpSize := 0, n := 0 }
      rfl h hcont hinv0 rfl rfl (by simp [Nat.mod_one]) (by simp [Nat.mod_one])
  refine ⟨dst1, ?_, hf1, hw1⟩
  unfold Decoder.headerRun
  simp only
  rw [Decoder.hash_eq_encoder, Decoder.noiseGenerator_eq_encoder, hcont.1.trans hinvH.2.2.1,
    hcont.2.1.trans hinvH.2.2.2, List.range_eq_range']
  exact hd1

/-- C4. For a length below 2^32, when the header loop of the encoder ends,
the header loop of the decoder, run with the same fuel on the image it left,
the original carrier and the same password, ends with `fileSize` equal to that
length, in the same traversal state; the same holds on the final image of a
whole run of the encoder; and when the encoder ends with an image on the
empty file, the decoder writes the empty byte sequence. -/
theorem C4_header_round_trip {G D : Type} (L : Lib G D) (W fuel : Nat) (carrier : Mat)
    (fileSize : Nat) (password : List Nat) (stH : Walk G × Mat)
    (hfs : fileSize < 2 ^ 32)
    (h : Encoder.headerRun L W fuel carrier fileSize password = .ok stH) :
    (∃ dst, Decoder.headerRun L W fuel stH.2 carrier password = .ok dst
        ∧ dst.fileSize = fileSize ∧ dst.walk = stH.1)
      ∧ (∀ file st, Encoder.run L W fuel carrier file password = .ok st →
          ∃ dst, Decoder.headerRun L W fuel st.2 carrier password = .ok dst
            ∧ dst.fileSize = file.length % 2 ^ W)
      ∧ ∀ E, Encoder.main L W fuel carrier [] password = .ok E →
          Decoder.main L W fuel E carrier password = .ok [] := by
  refine ⟨Decoder.headerRun_of_encoder L W fuel carrier fileSize password stH stH hfs h
    (Continues_refl _), ?_, ?_⟩
  · intro file st hrun
    obtain ⟨-, hchk, stH1, hhead, hpay⟩ := Encoder.run_ok L W fuel carrier file password st hrun
    obtain ⟨hlen, -, -⟩ := Encoder.sizeChecks_none _ _ _ _ hchk
    have hlt : file.length % 2 ^ W < 2 ^ 32 :=
      lt_of_le_of_lt (Nat.mod_le _ _) hlen
    rw [Encoder.byteLoop_eq] at hpay
    have hcont := (Encoder.embedBits_facts L fuel carrier.rows carrier.cols carrier _ stH1 st
      hpay).1
    obtain ⟨dst, hd, hf, -⟩ := Decoder.headerRun_of_encoder L W fuel carrier _ password stH1 st
      hlt hhead hcont
    exact ⟨dst, hd, hf⟩
  · intro E hE
    obtain ⟨st, hrun, hst⟩ := (Encoder.main_ok_iff L W fuel carrier [] password E).1 hE
    obtain ⟨dst, hd, hout, -⟩ :=
      decode_of_encoded L W fuel carrier [] password (by simp) (by simp) st hrun
    rw [← hst, ← hout]
    exact Decoder.main_of_run L W fuel st.2 carrier password dst hd

/-- C4 on a 6x6 carrier and the length 300. -/
theorem C4_header_round_trip_witness :
    ∃ (fuel : Nat) (stH : Walk Nat × Mat),
      Encoder.headerRun demoLib 64 fuel (demoMat 6 6) 300 [97] = .ok stH
        ∧ (∃ dst, Decoder.headerRun demoLib 64 fuel stH.2 (demoMat 6 6) [97] = .ok dst
            ∧ dst.fileSize = 300 ∧ dst.walk = stH.1)
        ∧ ∀ E, Encoder.main demoLib 64 fuel (demoMat 6 6) [] [97] = .ok E →
            Decoder.main demoLib 64 fuel E (demoMat 6 6) [97] = .ok [] := by
  obtain ⟨F, stH, hF⟩ := Encoder.headerRun_terminates demoLib 64 (demoMat 6 6) 300 [97]
    demoLib_bounded (demoLib_fair _) (by decide) (by decide) (by decide)
  have h := C4_header_round_trip demoLib 64 F (demoMat 6 6) 300 [97] stH (by decide)
    (hF F (Nat.le_refl _))
  exact ⟨F, stH, hF F (Nat.le_refl _), h.1, h.2.2⟩

/-! ## Where the traversal starts -/

/-- From a fresh `visited` matrix the first attempt is accepted. -/
theorem Encoder.nextSite_fresh {G D : Type} (L : Lib G D) (image : Mat) (fuel rows cols : Nat)
    (g : G) (r : Site × Walk G)
    (h : Encoder.nextSite L image fuel
      { rng := g, visited := zeroMat rows cols, sites := [] } = .ok r) :
    r.1 = attemptSite L image.rows image.cols g ∧ r.2.sites = [r.1] := by
  obtain ⟨-, -, -, h4, n, -, h5, -, h7⟩ := Encoder.nextSite_ok L image fuel _ r h
  simp only at h4 h5 h7
  have hn : n = 0 := by
    by_contra hne
    exact h7 0 (Nat.pos_of_ne_zero hne) rfl
  subst hn
  exact ⟨h5, by rw [h4]; rfl⟩

theorem head_of_extends {G : Type} (rows cols : Nat) (a b : Walk G) (s : Site)
    (h : WalkExtends rows cols a b) (ha : a.sites = [s]) : b.sites.head? = some s := by
  obtain ⟨-, ⟨l, hl⟩, -⟩ := h
  rw [hl, ha]
  rfl

/-- The first site the header loop of the encoder accepts is the triple drawn
from the freshly seeded generator. -/
theorem Encoder.headerRun_first_site {G D : Type} (L : Lib G D) (W fuel : Nat) (carrier : Mat)
    (fileSize : Nat) (password : List Nat) (stH : Walk G × Mat)
    (h : Encoder.headerRun L W fuel carrier fileSize password = .ok stH) :
    stH.1.sites.head?
      = some (attemptSite L carrier.rows carrier.cols (L.mkRNG (Encoder.hash W password))) := by
  unfold Encoder.headerRun at h
  simp only at h
  rw [(Encoder.noiseGenerator_dims L carrier L.three _).1,
    (Encoder.noiseGenerator_dims L carrier L.three _).2, Encoder.sizeLoop_eq] at h
  have hlist : (List.range 32).map (fun i => Encoder.getBitN (toInt32 fileSize) i)
      = Encoder.getBitN (toInt32 fileSize) 0
          :: (List.range' 1 31).map (fun i => Encoder.getBitN (toInt32 fileSize) i) := by
    rw [List.range_eq_range', List.range'_succ, List.map_cons]
  rw [hlist] at h
  obtain ⟨st1, hstep, hrest⟩ := forEachM_cons_ok _ _ _ _ _ h
  obtain ⟨s, hn, -⟩ := Encoder.embedStep_ok L fuel _ st1 _ hstep
  obtain ⟨hs, hsites⟩ := Encoder.nextSite_fresh L _ fuel _ _ _ _ hn
  simp only at hs hsites
  rw [(Encoder.noiseGenerator_dims L carrier L.three _).1,
    (Encoder.noiseGenerator_dims L carrier L.three _).2] at hs
  rw [← hs]
  exact head_of_extends 0 0 st1.1 stH.1 s (Encoder.embedBits_walkExtends L fuel 0 0 _ st1 stH hrest)
    hsites

/-- The first site the header loop of the decoder accepts is the triple drawn
from the freshly seeded generator. -/
theorem Decoder.decoder_headerRun_first_site {G D : Type} (L : Lib G D) (W fuel : Nat)
    (encoded base : Mat) (password : List Nat) (dst : Decoder.SizeState G)
    (h : Decoder.headerRun L W fuel encoded base password = .ok dst) :
    dst.walk.sites.head?
      = some (attemptSite L encoded.rows encoded.cols (L.mkRNG (Decoder.hash W password))) := by
  unfold Decoder.headerRun at h
  simp only at h
  rw [List.range_eq_range', List.range'_succ] at h
  obtain ⟨st1, hstep, hrest⟩ := forEachM_cons_ok _ _ _ _ _ h
  obtain ⟨s, hn⟩ := Decoder.sizeStep_ok L fuel _ _ _ st1 _ hstep
  rw [Decoder.nextSite_eq_encoder] at hn
  obtain ⟨hs, hsites⟩ := Encoder.nextSite_fresh L _ fuel _ _ _ _ hn
  simp only at hs hsites
  rw [← hs]
  exact head_of_extends 0 0 st1.walk dst.walk s
    (Decoder.sizeLoop_walkExtends L fuel 0 0 _ _ _ st1 dst hrest) hsites

/-- C7, as the code has it. `noiseGenerator` takes the generator by value, so
its Gaussian draws are made on a copy: in both programs the first site the
header loop accepts is the triple drawn from the generator as it was seeded
from the password, not from the state the noise overlay reached. -/
theorem C7_header_draws_from_seeded_state {G D : Type} (L : Lib G D) (W fuel : Nat)
    (carrier encoded base : Mat) (fileSize : Nat) (password passwordD : List Nat)
    (stH : Walk G × Mat) (dst : Decoder.SizeState G)
    (hE : Encoder.headerRun L W fuel carrier fileSize password = .ok stH)
    (hD : Decoder.headerRun L W fuel encoded base passwordD = .ok dst) :
    stH.1.sites.head?
        = some (attemptSite L carrier.rows carrier.cols (L.mkRNG (Encoder.hash W password)))
      ∧ dst.walk.sites.head?
        = some (attemptSite L encoded.rows encoded.cols (L.mkRNG (Decoder.hash W passwordD))) :=
  ⟨Encoder.headerRun_first_site L W fuel carrier fileSize password stH hE,
    Decoder.decoder_headerRun_first_site L W fuel encoded base passwordD dst hD⟩

/-- C7 on a 6x6 carrier: both header loops start at the site (5, 2, 2). -/
theorem C7_header_draws_from_seeded_state_witness :
    ∃ (fuel : Nat) (stH : Walk Nat × Mat) (dst : Decoder.SizeState Nat),
      Encoder.headerRun demoLib 64 fuel (demoMat 6 6) 0 [] = .ok stH
        ∧ Decoder.headerRun demoLib 64 fuel stH.2 (demoMat 6 6) [] = .ok dst
        ∧ stH.1.sites.head?
            = some (attemptSite demoLib (demoMat 6 6).rows (demoMat 6 6).cols
                (demoLib.mkRNG (Encoder.hash 64 [])))
        ∧ dst.walk.sites.head?
            = some (attemptSite demoLib stH.2.rows stH.2.cols
                (demoLib.mkRNG (Decoder.hash 64 []))) := by
  obtain ⟨F, stH, hF⟩ := Encoder.headerRun_terminates demoLib 64 (demoMat 6 6) 0 []
    demoLib_bounded (demoLib_fair _) (by decide) (by decide) (by decide)
  obtain ⟨dst, hd, -, -⟩ := Decoder.headerRun_of_encoder demoLib 64 F (demoMat 6 6) 0 [] stH
    stH (by decide) (hF F (Nat.le_refl _)) (Continues_refl _)
  have h := C7_header_draws_from_seeded_state demoLib 64 F (demoMat 6 6) stH.2 (demoMat 6 6)
    0 [] [] stH dst (hF F (Nat.le_refl _)) hd
  exact ⟨F, stH, dst, hF F (Nat.le_refl _), hd, h.1, h.2⟩

set_option maxRecDepth 20000 in
/-- C7 as stated fails. On a 6x6 carrier with the empty password the seeded
generator is in state 16143 and the noise overlay leaves its generator in
state 16251, from which the next triple would be (5, 2, 0); the header loop
starts at (5, 2, 2), the triple drawn from state 16143. -/
theorem C7_counterexample :
    demoLib.mkRNG (Encoder.hash 64 []) = 16143
      ∧ (Encoder.noiseLoop demoLib (demoMat 6 6) demoLib.three
          (demoLib.mkRNG (Encoder.hash 64 []))).2 = 16251
      ∧ attemptSite demoLib 6 6 16251 = (5, 2, 0)
      ∧ attemptSite demoLib 6 6 16143 = (5, 2, 2)
      ∧ ∃ (fuel : Nat) (stH : Walk Nat × Mat),
          Encoder.headerRun demoLib 64 fuel (demoMat 6 6) 0 [] = .ok stH
            ∧ stH.1.sites.head? = some (5, 2, 2) := by
  refine ⟨by decide, by decide, by decide, by decide, ?_⟩
  obtain ⟨F, stH, hF⟩ := Encoder.headerRun_terminates demoLib 64 (demoMat 6 6) 0 []
    demoLib_bounded (demoLib_fair _) (by decide) (by decide) (by decide)
  refine ⟨F, stH, hF F (Nat.le_refl _), ?_⟩
  rw [Encoder.headerRun_first_site demoLib 64 F (demoMat 6 6) 0 [] stH (hF F (Nat.le_refl _))]
  decide

/-! ## Bit packing -/

/-- The decoder's assembly of a byte from the bits the encoder takes from
`b`: `setBitN` at each `j` where `getBitN2 b j` is 1, for the `j` in the list. -/
theorem byte_fold_low_bits (b : Nat) (n : Nat) (hn : n ≤ 8) :
    (List.range n).foldl
        (fun acc j => if Encoder.getBitN2 b j = 1 then Decoder.setBitN acc j else acc) 0
      = b % 2 ^ n := by
  induction n with
  | zero => simp [Nat.mod_one]
  | succ n ih =>
    rw [List.range_succ, List.foldl_append, ih (by omega)]
    simp only [List.foldl_cons, List.foldl_nil]
    have hlt : b % 2 ^ n < 2 ^ n := Nat.mod_lt _ (by positivity)
    have h7 : 2 ^ n ≤ 2 ^ 7 := Nat.pow_le_pow_right (by decide) (by omega)
    have h128 : (2 : Nat) ^ 7 = 128 := by norm_num
    have h256 : (b % 2 ^ n) % 256 = b % 2 ^ n := Nat.mod_eq_of_lt (by omega)
    have hd : (Encoder.getBitN2 b n = 1) ↔ (b / 2 ^ n) % 2 ≠ 0 := by
      rw [Encoder.getBitN2_eq]
      have := Nat.mod_lt (b / 2 ^ n) (by decide : 0 < 2)
      omega
    have h := byte_tmp b n (Encoder.getBitN2 b n = 1) (by omega) hd
    rw [h256] at h
    exact h

/-- C16. For every byte `b`, setting with `setBitN`, from 0 and for `j` from
0 to 7 in increasing order, exactly the bits where `getBitN2 b j` is 1 gives
`b` back; and for every 32-bit length `len` and `i` below 32, `getBitN` on
the length is `(len >> i) & 1`, which is 0 or 1. -/
theorem C16_bit_packing_lossless (b len i : Nat) (hb : b ≤ 255) (hlen : len < 2 ^ 32)
    (hi : i ≤ 31) :
    (List.range 8).foldl
        (fun acc j => if Encoder.getBitN2 b j = 1 then Decoder.setBitN acc j else acc) 0 = b
      ∧ Encoder.getBitN (toInt32 len) i = (len >>> i) &&& 1
      ∧ (Encoder.getBitN (toInt32 len) i = 0 ∨ Encoder.getBitN (toInt32 len) i = 1) := by
  have hbit := Encoder.getBitN_toInt32 len i hlen (by omega)
  have hlt := Nat.mod_lt (len / 2 ^ i) (by decide : 0 < 2)
  refine ⟨?_, ?_, ?_⟩
  · rw [byte_fold_low_bits b 8 (Nat.le_refl _)]
    exact Nat.mod_eq_of_lt (by norm_num; omega)
  · rw [hbit, Nat.and_one_is_mod, Nat.shiftRight_eq_div_pow]
  · rw [hbit]; omega

/-- C16 on the byte 173 and bit 31 of the length 2^31 + 5. -/
theorem C16_bit_packing_lossless_witness :
    (List.range 8).foldl
        (fun acc j => if Encoder.getBitN2 173 j = 1 then Decoder.setBitN acc j else acc) 0 = 173
      ∧ Encoder.getBitN (toInt32 (2147483653 : Nat)) 31 = (2147483653 >>> 31) &&& 1
      ∧ (Encoder.getBitN (toInt32 (2147483653 : Nat)) 31 = 0
          ∨ Encoder.getBitN (toInt32 (2147483653 : Nat)) 31 = 1) :=
  C16_bit_packing_lossless 173 2147483653 31 (by decide) (by decide) (by decide)

/-! ## What the capacity check compares -/

theorem boundAt_three (rows cols m : Nat) :
    boundAt rows cols (3 * m) = rows ∧ boundAt rows cols (3 * m + 1) = cols
      ∧ boundAt rows cols (3 * m + 2) = 3 := by
  unfold boundAt
  have h0 : 3 * m % 3 = 0 := by omega
  have h1 : (3 * m + 1) % 3 = 1 := by omega
  have h2 : (3 * m + 2) % 3 = 2 := by omega
  simp [h0, h1, h2]

theorem attemptRng_eq_drawRng {G D : Type} (L : Lib G D) (rows cols n : Nat) (g : G) :
    (attemptRng L rows cols)^[n] g = drawRng L rows cols (3 * n) g := by
  induction n with
  | zero => rfl
  | succ n ih =>
    rw [Function.iterate_succ_apply', ih]
    have h3 : 3 * (n + 1) = 3 * n + 2 + 1 := by omega
    obtain ⟨b0, b1, b2⟩ := boundAt_three rows cols n
    rw [h3]
    simp only [drawRng, attemptRng, b0, b1, b2]

theorem attemptSite_eq_drawVal {G D : Type} (L : Lib G D) (rows cols n : Nat) (g : G) :
    attemptSite L rows cols ((attemptRng L rows cols)^[n] g)
      = (drawVal L rows cols (3 * n) g, drawVal L rows cols (3 * n + 1) g,
          drawVal L rows cols (3 * n + 2) g) := by
  rw [attemptRng_eq_drawRng]
  obtain ⟨b0, b1, b2⟩ := boundAt_three rows cols n
  simp only [attemptSite, drawVal, drawRng, b0, b1, b2]

/-- The selection returns at attempt `n` when the attempts before it drew
marked triples of the grid and attempt `n` draws an unmarked one. -/
theorem Encoder.nextSite_first_unmarked {G D : Type} (L : Lib G D) (carrier : Mat) (n : Nat)
    (w : Walk G)
    (hin : ∀ m, m ≤ n →
      w.visited.inRange
        (attemptSite L carrier.rows carrier.cols
          ((attemptRng L carrier.rows carrier.cols)^[m] w.rng)).1
        (attemptSite L carrier.rows carrier.cols
          ((attemptRng L carrier.rows carrier.cols)^[m] w.rng)).2.1
        (attemptSite L carrier.rows carrier.cols
          ((attemptRng L carrier.rows carrier.cols)^[m] w.rng)).2.2)
    (hmk : ∀ m, m < n →
      w.visited.get
        (attemptSite L carrier.rows carrier.cols
          ((attemptRng L carrier.rows carrier.cols)^[m] w.rng)).1
        (attemptSite L carrier.rows carrier.cols
          ((attemptRng L carrier.rows carrier.cols)^[m] w.rng)).2.1
        (attemptSite L carrier.rows carrier.cols
          ((attemptRng L carrier.rows carrier.cols)^[m] w.rng)).2.2 ≠ 0)
    (hit : w.visited.get
        (attemptSite L carrier.rows carrier.cols
          ((attemptRng L carrier.rows carrier.cols)^[n] w.rng)).1
        (attemptSite L carrier.rows carrier.cols
          ((attemptRng L carrier.rows carrier.cols)^[n] w.rng)).2.1
        (attemptSite L carrier.rows carrier.cols
          ((attemptRng L carrier.rows carrier.cols)^[n] w.rng)).2.2 = 0) :
    Encoder.nextSite L carrier (n + 1) w
      = .ok (attemptSite L carrier.rows carrier.cols
              ((attemptRng L carrier.rows carrier.cols)^[n] w.rng),
          { rng := (attemptRng L carrier.rows carrier.cols)^[n + 1] w.rng,
            visited := w.visited.set
              (attemptSite L carrier.rows carrier.cols
                ((attemptRng L carrier.rows carrier.cols)^[n] w.rng)).1
              (attemptSite L carrier.rows carrier.cols
                ((attemptRng L carrier.rows carrier.cols)^[n] w.rng)).2.1
              (attemptSite L carrier.rows carrier.cols
                ((attemptRng L carrier.rows carrier.cols)^[n] w.rng)).2.2 1,
            sites := w.sites ++ [attemptSite L carrier.rows carrier.cols
              ((attemptRng L carrier.rows carrier.cols)^[n] w.rng)] }) := by
  induction n generalizing w with
  | zero =>
    rw [Encoder.nextSite]
    have h0 := hin 0 (Nat.le_refl 0)
    have hin0 : w.visited.inRange (L.uniform w.rng carrier.rows).1
        (L.uniform (L.uniform w.rng carrier.rows).2 carrier.cols).1
        (L.uniform (L.uniform (L.uniform w.rng carrier.rows).2 carrier.cols).2 3).1 := h0
    have hz : w.visited.get (L.uniform w.rng carrier.rows).1
        (L.uniform (L.uniform w.rng carrier.rows).2 carrier.cols).1
        (L.uniform (L.uniform (L.uniform w.rng carrier.rows).2 carrier.cols).2 3).1 = 0 := hit
    rw [if_pos hin0, if_pos hz]
    rfl
  | succ n ih =>
    rw [Encoder.nextSite]
    have h0 := hin 0 (Nat.zero_le _)
    have hin0 : w.visited.inRange (L.uniform w.rng carrier.rows).1
        (L.uniform (L.uniform w.rng carrier.rows).2 carrier.cols).1
        (L.uniform (L.uniform (L.uniform w.rng carrier.rows).2 carrier.cols).2 3).1 := h0
    have hz : ¬ w.visited.get (L.uniform w.rng carrier.rows).1
        (L.uniform (L.uniform w.rng carrier.rows).2 carrier.cols).1
        (L.uniform (L.uniform (L.uniform w.rng carrier.rows).2 carrier.cols).2 3).1 = 0 :=
      hmk 0 (Nat.succ_pos n)
    rw [if_pos hin0, if_neg hz]
    have hstep := ih
      { w with rng := (L.uniform (L.uniform (L.uniform w.rng carrier.rows).2 carrier.cols).2 3).2 }
      (fun m hm => by
        have := hin (m + 1) (Nat.succ_le_succ hm)
        rw [attemptRng_iterate_succ] at this
        exact this)
      (fun m hm => by
        have := hmk (m + 1) (Nat.succ_lt_succ hm)
        rw [attemptRng_iterate_succ] at this
        exact this)
      (by
        rw [attemptRng_iterate_succ] at hit
        exact hit)
    rw [hstep, attemptRng_iterate_succ L carrier.rows carrier.cols n w.rng,
      attemptRng_iterate_succ L carrier.rows carrier.cols (n + 1) w.rng]
    rfl

/-- With every triple of the grid marked, a selection does not end. -/
theorem Encoder.nextSite_all_marked {G D : Type} (L : Lib G D) (image : Mat) (fuel : Nat)
    (w : Walk G) (hall : ∀ x y c, w.visited.inRange x y c → w.visited.get x y c ≠ 0)
    (r : Site × Walk G) : Encoder.nextSite L image fuel w ≠ .ok r := by
  intro h
  obtain ⟨h1, h2, -⟩ := Encoder.nextSite_ok L image fuel w r h
  exact hall _ _ _ h1 h2

/-- C13. Attempt `m` of a selection is the three bounded draws number `3m`,
`3m+1`, `3m+2` of the stream, with bounds rows, cols, 3 in that order.
The loop returns: when the attempts before attempt `n` drew marked triples
and attempt `n` draws an unmarked triple, then for every fuel above `n` (the
loop itself has no bound) the selection ends with that triple, with `visited`
changed at that triple only, to 1, and with the generator after `3 * (n + 1)`
draws; the triples drawn are inside the grid when draws stay below their
bounds. Conversely a selection that ends has made some number `n` of rejected
attempts, which drew marked triples, and one accepted attempt, which drew an
unmarked triple of the grid, the site returned; `visited` afterwards is
`visited` before with 1 at that triple and nothing else changed; the
generator has made `3 * (n + 1)` draws. With every triple of the grid marked a
selection never ends, whatever the generator and the fuel. The decoder's loop
is the same function. -/
theorem C13_selection_step {G D : Type} (L : Lib G D) (image : Mat) (w : Walk G) :
    (∀ n : Nat,
        (∀ m, m ≤ n →
          w.visited.inRange (drawVal L image.rows image.cols (3 * m) w.rng)
            (drawVal L image.rows image.cols (3 * m + 1) w.rng)
            (drawVal L image.rows image.cols (3 * m + 2) w.rng)) →
        (∀ m, m < n →
          w.visited.get (drawVal L image.rows image.cols (3 * m) w.rng)
            (drawVal L image.rows image.cols (3 * m + 1) w.rng)
            (drawVal L image.rows image.cols (3 * m + 2) w.rng) ≠ 0) →
        w.visited.get (drawVal L image.rows image.cols (3 * n) w.rng)
          (drawVal L image.rows image.cols (3 * n + 1) w.rng)
          (drawVal L image.rows image.cols (3 * n + 2) w.rng) = 0 →
        ∀ fuel, n < fuel →
          Encoder.nextSite L image fuel w
              = .ok ((drawVal L image.rows image.cols (3 * n) w.rng,
                      drawVal L image.rows image.cols (3 * n + 1) w.rng,
                      drawVal L image.rows image.cols (3 * n + 2) w.rng),
                  { rng := drawRng L image.rows image.cols (3 * (n + 1)) w.rng,
                    visited := w.visited.set (drawVal L image.rows image.cols (3 * n) w.rng)
                      (drawVal L image.rows image.cols (3 * n + 1) w.rng)
                      (drawVal L image.rows image.cols (3 * n + 2) w.rng) 1,
                    sites := w.sites ++ [(drawVal L image.rows image.cols (3 * n) w.rng,
                      drawVal L image.rows image.cols (3 * n + 1) w.rng,
                      drawVal L image.rows image.cols (3 * n + 2) w.rng)] })
            ∧ Decoder.nextSite L image fuel w = Encoder.nextSite L image fuel w)
      ∧ (Bounded L → 0 < image.rows → 0 < image.cols →
          w.visited.rows = image.rows → w.visited.cols = image.cols →
          ∀ m, w.visited.inRange (drawVal L image.rows image.cols (3 * m) w.rng)
            (drawVal L image.rows image.cols (3 * m + 1) w.rng)
            (drawVal L image.rows image.cols (3 * m + 2) w.rng))
      ∧ (∀ (fuel : Nat) (r : Site × Walk G), Encoder.nextSite L image fuel w = .ok r →
          (∃ n, n < fuel
            ∧ r.1 = (drawVal L image.rows image.cols (3 * n) w.rng,
                      drawVal L image.rows image.cols (3 * n + 1) w.rng,
                      drawVal L image.rows image.cols (3 * n + 2) w.rng)
            ∧ (∀ m, m < n →
                w.visited.get (drawVal L image.rows image.cols (3 * m) w.rng)
                  (drawVal L image.rows image.cols (3 * m + 1) w.rng)
                  (drawVal L image.rows image.cols (3 * m + 2) w.rng) ≠ 0)
            ∧ r.2.rng = drawRng L image.rows image.cols (3 * (n + 1)) w.rng)
          ∧ w.visited.inRange r.1.1 r.1.2.1 r.1.2.2
          ∧ w.visited.get r.1.1 r.1.2.1 r.1.2.2 = 0
          ∧ r.2.visited.get r.1.1 r.1.2.1 r.1.2.2 = 1
          ∧ (∀ x y c, (x, y, c) ≠ r.1 → r.2.visited.get x y c = w.visited.get x y c)
          ∧ r.2.visited.rows = w.visited.rows ∧ r.2.visited.cols = w.visited.cols
          ∧ Decoder.nextSite L image fuel w = .ok r)
      ∧ (∀ m, boundAt image.rows image.cols (3 * m) = image.rows
            ∧ boundAt image.rows image.cols (3 * m + 1) = image.cols
            ∧ boundAt image.rows image.cols (3 * m + 2) = 3)
      ∧ (∀ (fuel1 : Nat) (w1 : Walk G) (r1 : Site × Walk G),
          (∀ x y c, w1.visited.inRange x y c → w1.visited.get x y c ≠ 0) →
            Encoder.nextSite L image fuel1 w1 ≠ .ok r1
              ∧ Decoder.nextSite L image fuel1 w1 ≠ .ok r1) := by
  refine ⟨?_, ?_, ?_, fun m => boundAt_three _ _ m, ?_⟩
  · intro n hin hmk hit fuel hfuel
    have key := Encoder.nextSite_first_unmarked L image n w
      (fun m hm => by rw [attemptSite_eq_drawVal]; exact hin m hm)
      (fun m hm => by rw [attemptSite_eq_drawVal]; exact hmk m hm)
      (by rw [attemptSite_eq_drawVal]; exact hit)
    rw [attemptSite_eq_drawVal, attemptRng_eq_drawRng] at key
    exact ⟨Encoder.nextSite_fuel_le L image (n + 1) fuel hfuel w _ key,
      Decoder.nextSite_eq_encoder L image fuel w⟩
  · intro hB hr hc hvr hvc m
    obtain ⟨b0, b1, b2⟩ := boundAt_three image.rows image.cols m
    refine ⟨?_, ?_, ?_⟩
    · rw [hvr]
      have := hB (drawRng L image.rows image.cols (3 * m) w.rng) image.rows hr
      unfold drawVal
      rw [b0]
      exact this
    · rw [hvc]
      have := hB (drawRng L image.rows image.cols (3 * m + 1) w.rng) image.cols hc
      unfold drawVal
      rw [b1]
      exact this
    · have := hB (drawRng L image.rows image.cols (3 * m + 2) w.rng) 3 (by decide)
      unfold drawVal
      rw [b2]
      exact this
  · intro fuel r h
    obtain ⟨h1, h2, h3, -, n, hn, h5, h6, h7⟩ := Encoder.nextSite_ok L image fuel w r h
    refine ⟨⟨n, hn, ?_, ?_, ?_⟩, h1, h2, ?_, ?_, ?_, ?_, ?_⟩
    · rw [h5, attemptSite_eq_drawVal]
    · intro m hm
      have := h7 m hm
      rw [attemptSite_eq_drawVal] at this
      exact this
    · rw [h6, attemptRng_eq_drawRng]
    · rw [h3, Mat.get_set_same]
    · intro x y c hne
      rw [h3]
      exact Mat.get_set_other _ _ _ _ _ _ _ _ hne
    · rw [h3]; rfl
    · rw [h3]; rfl
    · rw [Decoder.nextSite_eq_encoder]; exact h
  · intro fuel1 w1 r1 hall
    refine ⟨Encoder.nextSite_all_marked L image fuel1 w1 hall r1, ?_⟩
    rw [Decoder.nextSite_eq_encoder]
    exact Encoder.nextSite_all_marked L image fuel1 w1 hall r1

/-- C13 on a 6x6 grid with (0, 0, 0) taken: the first attempt draws (0, 0, 0)
and is rejected, the second draws (1, 0, 0) and is accepted, whatever the fuel
above 1; six draws have been made. -/
theorem C13_selection_step_witness :
    ∀ fuel, 1 < fuel →
      Encoder.nextSite demoLib (demoMat 6 6) fuel demoWalk
          = .ok ((1, 0, 0),
              { rng := 6, visited := ((zeroMat 6 6).set 0 0 0 1).set 1 0 0 1,
                sites := [(0, 0, 0), (1, 0, 0)] })
        ∧ Decoder.nextSite demoLib (demoMat 6 6) fuel demoWalk
            = Encoder.nextSite demoLib (demoMat 6 6) fuel demoWalk :=
  (C13_selection_step demoLib (demoMat 6 6) demoWalk).1 1
    (fun m hm => by
      have h : m = 0 ∨ m = 1 := by omega
      rcases h with h | h <;> subst h <;> decide)
    (fun m hm => by
      have h : m = 0 := by omega
      subst h
      decide)
    (by decide)

/-! ## Index safety -/

theorem forEachM_error_of_invariant {σ α : Type} (body : σ → α → Except Err σ)
    (P : σ → Prop) (Q : Err → Prop)
    (hok : ∀ s a s1, body s a = .ok s1 → P s → P s1)
    (herr : ∀ s a e, body s a = .error e → P s → Q e) (l : List α) (s : σ) (e : Err)
    (hs : P s) (h : forEachM body l s = .error e) : Q e := by
  induction l generalizing s with
  | nil => simp [forEachM] at h
  | cons a as ih =>
    unfold forEachM at h
    cases hb : body s a with
    | error e1 =>
      rw [hb] at h
      simp only [Except.error.injEq] at h
      subst h
      exact herr s a e1 hb hs
    | ok s1 =>
      rw [hb] at h
      exact ih s1 (hok s a s1 hb hs) h

/-- With bounded draws every attempt draws a triple of the grid. -/
theorem attemptSite_inRange {G D : Type} (L : Lib G D) (hB : Bounded L) (rows cols : Nat)
    (hr : 0 < rows) (hc : 0 < cols) (g : G) :
    (attemptSite L rows cols g).1 < rows ∧ (attemptSite L rows cols g).2.1 < cols
      ∧ (attemptSite L rows cols g).2.2 < 3 :=
  ⟨hB _ _ hr, hB _ _ hc, hB _ _ (by decide)⟩

/-- With bounded draws on a grid of the size of `visited`, a selection that
fails has run out of fuel: no access is outside the grid. -/
theorem Encoder.nextSite_error_bounded {G D : Type} (L : Lib G D) (hB : Bounded L)
    (image : Mat) (hr : 0 < image.rows) (hc : 0 < image.cols) (fuel : Nat) (w : Walk G)
    (hvr : w.visited.rows = image.rows) (hvc : w.visited.cols = image.cols) (e : Err)
    (h : Encoder.nextSite L image fuel w = .error e) : e = .outOfFuel := by
  induction fuel generalizing w with
  | zero =>
    simp only [Encoder.nextSite, Except.error.injEq] at h
    exact h.symm
  | succ fuel ih =>
    rw [Encoder.nextSite] at h
    have hin : w.visited.inRange (L.uniform w.rng image.rows).1
        (L.uniform (L.uniform w.rng image.rows).2 image.cols).1
        (L.uniform (L.uniform (L.uniform w.rng image.rows).2 image.cols).2 3).1 := by
      refine ⟨?_, ?_, ?_⟩
      · rw [hvr]; exact hB _ _ hr
      · rw [hvc]; exact hB _ _ hc
      · exact hB _ _ (by decide)
    rw [if_pos hin] at h
    split at h
    · simp at h
    · exact ih _ (by exact hvr) (by exact hvc) h

theorem Encoder.sizeChecks_some (W rows cols stSize : Nat) (e : Err)
    (h : Encoder.sizeChecks W rows cols stSize = some e) :
    e = .fileTooBig ∨ e = .imageTooSmall := by
  unfold Encoder.sizeChecks at h
  split at h
  · simp only [Option.some.injEq] at h
    exact Or.inl h.symm
  · simp only at h
    split at h
    · simp only [Option.some.injEq] at h
      exact Or.inl h.symm
    · split at h
      · simp only [Option.some.injEq] at h
        exact Or.inr h.symm
      · simp at h

theorem Decoder.decoder_sizeChecks_some (encoded base : Mat) (e : Err)
    (h : Decoder.sizeChecks encoded base = some e) :
    e = .sizeMismatch ∨ e = .imageTooSmall := by
  unfold Decoder.sizeChecks at h
  split at h
  · simp only [Option.some.injEq] at h
    exact Or.inl h.symm
  · split at h
    · simp only [Option.some.injEq] at h
      exact Or.inr h.symm
    · simp at h

theorem Decoder.decoder_sizeChecks_none (encoded base : Mat)
    (h : Decoder.sizeChecks encoded base = none) :
    encoded.rows = base.rows ∧ encoded.cols = base.cols := by
  unfold Decoder.sizeChecks at h
  split at h
  · simp at h
  · rename_i hd
    constructor
    · by_contra hne
      exact hd (Or.inl hne)
    · by_contra hne
      exact hd (Or.inr hne)

/-- The dimensions kept by the loops of the encoder. -/
theorem Encoder.embedStep_dims {G D : Type} (L : Lib G D) (fuel rows cols : Nat)
    (st st1 : Walk G × Mat) (bit : Nat) (h : Encoder.embedStep L fuel st bit = .ok st1)
    (hd : st.1.visited.rows = rows ∧ st.1.visited.cols = cols
      ∧ st.2.rows = rows ∧ st.2.cols = cols) :
    st1.1.visited.rows = rows ∧ st1.1.visited.cols = cols
      ∧ st1.2.rows = rows ∧ st1.2.cols = cols := by
  obtain ⟨s, hn, -⟩ := Encoder.embedStep_ok L fuel st st1 bit h
  obtain ⟨-, -, h3, -, -⟩ := Encoder.nextSite_ok L st.2 fuel st.1 _ hn
  obtain ⟨k1, k2, -⟩ := Encoder.embedStep_continues L fuel st st1 bit h
  simp only at h3
  refine ⟨?_, ?_, k1.trans hd.2.2.1, k2.trans hd.2.2.2⟩
  · rw [h3]; exact hd.1
  · rw [h3]; exact hd.2.1

/-- With bounded draws the encoder never accesses a matrix outside its grid. -/
theorem Encoder.run_in_grid {G D : Type} (L : Lib G D) (hB : Bounded L) (W fuel : Nat)
    (carrier : Mat) (file password : List Nat) :
    Encoder.run L W fuel carrier file password ≠ .error .outOfRange := by
  intro h
  rcases Encoder.run_error L W fuel carrier file password _ h with h1 | h1 | h1
  · exact absurd h1.2 (by decide)
  · rcases Encoder.sizeChecks_some _ _ _ _ _ h1.2 with h2 | h2 <;> exact absurd h2 (by decide)
  · obtain ⟨hne, hchk, -⟩ := h1
    rw [Encoder.run_eq_bitStream L W fuel carrier file password hne hchk] at h
    have hpos := (Mat.empty_eq_false_iff carrier).1 hne
    have hr : 0 < carrier.rows := Nat.pos_of_mul_pos_right hpos
    have hc : 0 < carrier.cols := Nat.pos_of_mul_pos_left hpos
    have hq := forEachM_error_of_invariant (Encoder.embedStep L fuel)
      (fun st => st.1.visited.rows = carrier.rows ∧ st.1.visited.cols = carrier.cols
        ∧ st.2.rows = carrier.rows ∧ st.2.cols = carrier.cols)
      (fun e => e = .outOfFuel)
      (fun s a s1 hs hp => Encoder.embedStep_dims L fuel _ _ s s1 a hs hp)
      (fun s a e hs hp => by
        unfold Encoder.embedStep at hs
        cases hn : Encoder.nextSite L s.2 fuel s.1 with
        | error e1 =>
          rw [hn] at hs
          simp only [Except.error.injEq] at hs
          subst hs
          exact Encoder.nextSite_error_bounded L hB s.2 (by rw [hp.2.2.1]; exact hr)
            (by rw [hp.2.2.2]; exact hc) fuel s.1 (by rw [hp.1, hp.2.2.1])
            (by rw [hp.2.1, hp.2.2.2]) e1 hn
        | ok r => rw [hn] at hs; simp at hs)
      _ _ _
      ⟨rfl, rfl, (Encoder.noiseGenerator_dims L carrier L.three _).1,
        (Encoder.noiseGenerator_dims L carrier L.three _).2⟩ h
    exact absurd hq (by decide)

theorem Decoder.sizeStep_dims {G D : Type} (L : Lib G D) (fuel rows cols : Nat)
    (encoded base : Mat) (st st1 : Decoder.SizeState G) (i : Nat)
    (h : Decoder.sizeStep L fuel encoded base st i = .ok st1)
    (hd : st.walk.visited.rows = rows ∧ st.walk.visited.cols = cols) :
    st1.walk.visited.rows = rows ∧ st1.walk.visited.cols = cols := by
  obtain ⟨s, hn⟩ := Decoder.sizeStep_ok L fuel encoded base st st1 i h
  rw [Decoder.nextSite_eq_encoder] at hn
  obtain ⟨-, -, h3, -, -⟩ := Encoder.nextSite_ok L encoded fuel st.walk _ hn
  simp only at h3
  rw [h3]
  exact hd

theorem Decoder.bitStep_dims {G D : Type} (L : Lib G D) (fuel rows cols : Nat)
    (encoded base : Mat) (st st1 : Decoder.FileState G) (j : Nat)
    (h : Decoder.bitStep L fuel encoded base st j = .ok st1)
    (hd : st.walk.visited.rows = rows ∧ st.walk.visited.cols = cols) :
    st1.walk.visited.rows = rows ∧ st1.walk.visited.cols = cols := by
  obtain ⟨s, hn⟩ := Decoder.bitStep_ok L fuel encoded base st st1 j h
  rw [Decoder.nextSite_eq_encoder] at hn
  obtain ⟨-, -, h3, -, -⟩ := Encoder.nextSite_ok L encoded fuel st.walk _ hn
  simp only at h3
  rw [h3]
  exact hd

/-- With bounded draws the decoder never accesses a matrix outside its grid. -/
theorem Decoder.decoder_run_in_grid {G D : Type} (L : Lib G D) (hB : Bounded L) (W fuel : Nat)
    (encoded base : Mat) (password : List Nat) :
    Decoder.run L W fuel encoded base password ≠ .error .outOfRange := by
  intro h
  rcases Decoder.decoder_run_error L W fuel encoded base password _ h with h1 | h1 | h1
  · exact absurd h1.2 (by decide)
  · rcases Decoder.decoder_sizeChecks_some _ _ _ h1.2 with h2 | h2 <;> exact absurd h2 (by decide)
  · obtain ⟨hne, hchk, -⟩ := h1
    have hene : encoded.empty = false := by
      cases he : encoded.empty with
      | true => rw [he] at hne; simp at hne
      | false => rfl
    have hpos := (Mat.empty_eq_false_iff encoded).1 hene
    have hr : 0 < encoded.rows := Nat.pos_of_mul_pos_right hpos
    have hc : 0 < encoded.cols := Nat.pos_of_mul_pos_left hpos
    have hnext : ∀ (w : Walk G) (e : Err), w.visited.rows = encoded.rows →
        w.visited.cols = encoded.cols → Decoder.nextSite L encoded fuel w = .error e →
        e = .outOfFuel := by
      intro w e h1 h2 h3
      rw [Decoder.nextSite_eq_encoder] at h3
      exact Encoder.nextSite_error_bounded L hB encoded hr hc fuel w h1 h2 e h3
    unfold Decoder.run at h
    rw [hne, hchk] at h
    simp only [Bool.false_eq_true, if_false] at h
    cases hhead : Decoder.headerRun L W fuel encoded base password with
    | error e1 =>
      rw [hhead] at h
      simp only [Except.error.injEq] at h
      subst h
      unfold Decoder.headerRun at hhead
      have hq := forEachM_error_of_invariant _
        (fun (st : Decoder.SizeState G) => st.walk.visited.rows = encoded.rows
          ∧ st.walk.visited.cols = encoded.cols)
        (fun e => e = .outOfFuel)
        (fun s a s1 hs hp => Decoder.sizeStep_dims L fuel _ _ _ _ s s1 a hs hp)
        (fun s a e hs hp =>
          hnext s.walk e hp.1 hp.2 (Decoder.sizeStep_error L fuel _ _ s a e hs))
        _ _ _ ⟨rfl, rfl⟩ hhead
      exact absurd hq (by decide)
    | ok dst1 =>
      rw [hhead] at h
      simp only at h
      unfold Decoder.headerRun at hhead
      have hd1 := forEachM_invariant _
        (fun (st : Decoder.SizeState G) => st.walk.visited.rows = encoded.rows
          ∧ st.walk.visited.cols = encoded.cols)
        (fun s a s1 hs hp => Decoder.sizeStep_dims L fuel _ _ _ _ s s1 a hs hp)
        _ _ _ hhead ⟨rfl, rfl⟩
      have hq := forEachM_error_of_invariant _
        (fun (st : Decoder.FileState G) => st.walk.visited.rows = encoded.rows
          ∧ st.walk.visited.cols = encoded.cols)
        (fun e => e = .outOfFuel)
        (fun s a s1 hs hp => forEachM_invariant _
          (fun (st : Decoder.FileState G) => st.walk.visited.rows = encoded.rows
            ∧ st.walk.visited.cols = encoded.cols)
          (fun s a s1 hs hp => Decoder.bitStep_dims L fuel _ _ _ _ s s1 a hs hp)
          _ _ _ hs hp)
        (fun s a e hs hp => forEachM_error_of_invariant _
          (fun (st : Decoder.FileState G) => st.walk.visited.rows = encoded.rows
            ∧ st.walk.visited.cols = encoded.cols)
          (fun e => e = .outOfFuel)
          (fun s a s1 hs hp => Decoder.bitStep_dims L fuel _ _ _ _ s s1 a hs hp)
          (fun s a e hs hp =>
            hnext s.walk e hp.1 hp.2 (Decoder.bitStep_error L fuel _ _ s a e hs))
          _ _ _ hp hs)
        _ _ _ hd1 h
      exact absurd hq (by decide)

/-- C18. With every bounded draw below its bound, and on images that `main`
accepts as non-empty (at least one row and one column): no attempt of either
program draws a triple outside the `rows x cols x 3` grid, so neither program
ends in the out-of-range result; `visited` and the carrier keep the
dimensions of the carrier in the encoder; in the decoder, past the
equal-dimension check, `visited`, the encoded image, the base and the noised
base all have the dimensions of the encoded image; and every accepted site,
where the images are read and written, is inside that grid. -/
theorem C18_index_safety {G D : Type} (L : Lib G D) (hB : Bounded L) (W fuel : Nat)
    (carrier encoded base : Mat) (file password passwordD : List Nat) :
    Encoder.main L W fuel carrier file password ≠ .error .outOfRange
      ∧ Decoder.main L W fuel encoded base passwordD ≠ .error .outOfRange
      ∧ (∀ (rows cols : Nat) (g : G), 0 < rows → 0 < cols →
          (attemptSite L rows cols g).1 < rows ∧ (attemptSite L rows cols g).2.1 < cols
            ∧ (attemptSite L rows cols g).2.2 < 3)
      ∧ (∀ st, Encoder.run L W fuel carrier file password = .ok st →
          st.1.visited.rows = carrier.rows ∧ st.1.visited.cols = carrier.cols
            ∧ st.2.rows = carrier.rows ∧ st.2.cols = carrier.cols
            ∧ ∀ s ∈ st.1.sites, s.1 < carrier.rows ∧ s.2.1 < carrier.cols ∧ s.2.2 < 3)
      ∧ (∀ dst, Decoder.run L W fuel encoded base passwordD = .ok dst →
          dst.walk.visited.rows = encoded.rows ∧ dst.walk.visited.cols = encoded.cols
            ∧ base.rows = encoded.rows ∧ base.cols = encoded.cols
            ∧ (Decoder.noiseGenerator L base L.three
                (L.mkRNG (Decoder.hash W passwordD))).rows = encoded.rows
            ∧ (Decoder.noiseGenerator L base L.three
                (L.mkRNG (Decoder.hash W passwordD))).cols = encoded.cols
            ∧ ∀ s ∈ dst.walk.sites, s.1 < encoded.rows ∧ s.2.1 < encoded.cols ∧ s.2.2 < 3) := by
  refine ⟨?_, ?_, ?_, ?_, ?_⟩
  · intro h
    exact Encoder.run_in_grid L hB W fuel carrier file password
      ((Encoder.main_error_iff L W fuel carrier file password _).1 h)
  · intro h
    exact Decoder.decoder_run_in_grid L hB W fuel encoded base passwordD
      ((Decoder.decoder_main_error_iff L W fuel encoded base passwordD _).1 h)
  · intro rows cols g hr hc
    exact attemptSite_inRange L hB rows cols hr hc g
  · intro st hrun
    obtain ⟨⟨h1, h2, -, h4, -⟩, -⟩ := Encoder.run_walkInv L W fuel carrier file password st hrun
    obtain ⟨hne, hchk, -⟩ := Encoder.run_ok L W fuel carrier file password st hrun
    rw [Encoder.run_eq_bitStream L W fuel carrier file password hne hchk] at hrun
    have hd := forEachM_invariant (Encoder.embedStep L fuel)
      (fun st => st.1.visited.rows = carrier.rows ∧ st.1.visited.cols = carrier.cols
        ∧ st.2.rows = carrier.rows ∧ st.2.cols = carrier.cols)
      (fun s a s1 hs hp => Encoder.embedStep_dims L fuel _ _ s s1 a hs hp) _ _ _ hrun
      ⟨rfl, rfl, (Encoder.noiseGenerator_dims L carrier L.three _).1,
        (Encoder.noiseGenerator_dims L carrier L.three _).2⟩
    exact ⟨h1, h2, hd.2.2.1, hd.2.2.2, h4⟩
  · intro dst hrun
    obtain ⟨h1, h2, -, h4, -⟩ := Decoder.decoder_run_walkInv L W fuel encoded base passwordD
      dst hrun
    obtain ⟨-, hchk, -⟩ := Decoder.decoder_run_ok L W fuel encoded base passwordD dst hrun
    obtain ⟨hr, hc⟩ := Decoder.decoder_sizeChecks_none encoded base hchk
    refine ⟨h1, h2, hr.symm, hc.symm, ?_, ?_, h4⟩
    · rw [Decoder.noiseGenerator_eq_encoder, (Encoder.noiseGenerator_dims L base L.three _).1]
      exact hr.symm
    · rw [Decoder.noiseGenerator_eq_encoder, (Encoder.noiseGenerator_dims L base L.three _).2]
      exact hc.symm

/-- C18 on the counter generator and 6x6 images. -/
theorem C18_index_safety_witness :
    Encoder.main demoLib 64 3 (demoMat 6 6) [1, 2] [97] ≠ .error .outOfRange
      ∧ Decoder.main demoLib 64 3 (demoMat 6 6) (demoMat 6 6) [97] ≠ .error .outOfRange :=
  ⟨(C18_index_safety demoLib demoLib_bounded 64 3 (demoMat 6 6) (demoMat 6 6) (demoMat 6 6)
      [1, 2] [97] [97]).1,
    (C18_index_safety demoLib demoLib_bounded 64 3 (demoMat 6 6) (demoMat 6 6) (demoMat 6 6)
      [1, 2] [97] [97]).2.1⟩

/-! ## The shape of the noise overlay -/

theorem foldl_range_induction {σ : Type} (f : σ → Nat → σ) (Q : Nat → σ → Prop) (n : Nat)
    (s : σ) (h0 : Q 0 s) (hstep : ∀ i t, i < n → Q i t → Q (i + 1) (f t i)) :
    Q n ((List.range n).foldl f s) := by
  induction n with
  | zero => exact h0
  | succ n ih =>
    rw [List.range_succ, List.foldl_append]
    simp only [List.foldl_cons, List.foldl_nil]
    exact hstep n _ (Nat.lt_succ_self n)
      (ih (fun i t hi hq => hstep i t (Nat.lt_succ_of_lt hi) hq))

theorem channel_index_inj (cols x y c i j k : Nat) (hy : y < cols) (hj : j < cols)
    (hc : c < 3) (hk : k < 3) (h : (x * cols + y) * 3 + c = (i * cols + j) * 3 + k) :
    x = i ∧ y = j ∧ c = k := by
  have hck : c = k := by omega
  have hxy : x * cols + y = i * cols + j := by omega
  have hxi : x = i := by
    rcases Nat.lt_trichotomy x i with hlt | heq | hgt
    · have h1 : (x + 1) * cols ≤ i * cols := Nat.mul_le_mul_right cols hlt
      rw [Nat.add_mul, Nat.one_mul] at h1
      omega
    · exact heq
    · have h1 : (i + 1) * cols ≤ x * cols := Nat.mul_le_mul_right cols hgt
      rw [Nat.add_mul, Nat.one_mul] at h1
      omega
  subst hxi
  exact ⟨rfl, by omega, hck⟩

theorem channel_index_lt (rows cols i j k : Nat) (hi : i < rows) (hj : j < cols) (hk : k < 3) :
    (i * cols + j) * 3 + k < rows * cols * 3 := by
  have h1 : (i + 1) * cols ≤ rows * cols := Nat.mul_le_mul_right cols hi
  rw [Nat.add_mul, Nat.one_mul] at h1
  omega

theorem clampByte_le (n : Int) : clampByte n ≤ 255 := by
  unfold clampByte
  split
  · decide
  · split
    · decide
    · omega

theorem Encoder.noiseStep_fst {G D : Type} (L : Lib G D) (sigma : D) (i j k : Nat)
    (st : Mat × G) :
    (Encoder.noiseStep L sigma i j st k).1
      = st.1.set i j k (clampByte (L.addToInt (st.1.get i j k) (L.gaussian st.2 sigma).1)) :=
  rfl

theorem Encoder.noiseStep_snd {G D : Type} (L : Lib G D) (sigma : D) (i j k : Nat)
    (st : Mat × G) :
    (Encoder.noiseStep L sigma i j st k).2 = (L.gaussian st.2 sigma).2 := rfl

/-- One step of the innermost loop: draw number `(i * cols + j) * 3 + k` goes
to channel `k` of pixel `(i, j)`. -/
theorem Encoder.noiseStep_done {G D : Type} (L : Lib G D) (sigma : D) (image : Mat) (g : G)
    (i j k : Nat) (hj : j < image.cols) (hk : k < 3) (st : Mat × G)
    (h : NoiseDone L sigma image g ((i * image.cols + j) * 3 + k) st) :
    NoiseDone L sigma image g ((i * image.cols + j) * 3 + k + 1)
      (Encoder.noiseStep L sigma i j st k) := by
  obtain ⟨hg, hr, hc, hv⟩ := h
  refine ⟨?_, hr, hc, ?_⟩
  · rw [Encoder.noiseStep_snd, hg]
    rfl
  · intro x y c
    rw [Encoder.noiseStep_fst]
    by_cases he : (x, y, c) = (i, j, k)
    · have hx : x = i := congrArg Prod.fst he
      have hy : y = j := congrArg (fun p => p.2.1) he
      have hcc : c = k := congrArg (fun p => p.2.2) he
      subst hx hy hcc
      have hnow : y < image.cols ∧ c < 3
          ∧ (x * image.cols + y) * 3 + c < (x * image.cols + y) * 3 + c + 1 :=
        ⟨hj, hk, Nat.lt_succ_self _⟩
      have hbefore : ¬ (y < image.cols ∧ c < 3
          ∧ (x * image.cols + y) * 3 + c < (x * image.cols + y) * 3 + c) :=
        fun h3 => Nat.lt_irrefl _ h3.2.2
      rw [Mat.get_set_same, if_pos hnow, hv x y c, if_neg hbefore, hg]
      rfl
    · rw [Mat.get_set_other _ _ _ _ _ _ _ _ he, hv x y c]
      by_cases hcond : y < image.cols ∧ c < 3 ∧ (x * image.cols + y) * 3 + c
          < (i * image.cols + j) * 3 + k
      · rw [if_pos hcond, if_pos ⟨hcond.1, hcond.2.1, Nat.lt_succ_of_lt hcond.2.2⟩]
      · rw [if_neg hcond, if_neg]
        rintro ⟨h1, h2, h3⟩
        have hne : (x * image.cols + y) * 3 + c ≠ (i * image.cols + j) * 3 + k := by
          intro heq
          obtain ⟨e1, e2, e3⟩ := channel_index_inj image.cols x y c i j k h1 hj h2 hk heq
          exact he (by rw [e1, e2, e3])
        exact hcond ⟨h1, h2, by omega⟩

/-- The three loops of `noiseGenerator` end with every channel done. -/
theorem Encoder.noiseLoop_done {G D : Type} (L : Lib G D) (sigma : D) (image : Mat) (g : G) :
    NoiseDone L sigma image g (image.rows * image.cols * 3)
      (Encoder.noiseLoop L image sigma g) := by
  unfold Encoder.noiseLoop
  refine foldl_range_induction _
    (fun i st => NoiseDone L sigma image g (i * image.cols * 3) st) image.rows _ ?_ ?_
  · have h0 : 0 * image.cols * 3 = 0 := by rw [Nat.zero_mul, Nat.zero_mul]
    show NoiseDone L sigma image g (0 * image.cols * 3) (image, g)
    rw [h0]
    refine ⟨rfl, rfl, rfl, fun x y c => ?_⟩
    rw [if_neg]
    rintro ⟨-, -, h3⟩
    exact Nat.not_lt_zero _ h3
  · intro i st _ hst
    have hend : (i + 1) * image.cols * 3 = (i * image.cols + image.cols) * 3 := by
      rw [Nat.add_mul i 1, Nat.one_mul]
    show NoiseDone L sigma image g ((i + 1) * image.cols * 3) _
    rw [hend]
    refine foldl_range_induction _
      (fun j st => NoiseDone L sigma image g ((i * image.cols + j) * 3) st) image.cols _
      hst ?_
    intro j st hj hst
    have hend2 : (i * image.cols + (j + 1)) * 3 = (i * image.cols + j) * 3 + 3 := by omega
    show NoiseDone L sigma image g ((i * image.cols + (j + 1)) * 3) _
    rw [hend2]
    refine foldl_range_induction _
      (fun k st => NoiseDone L sigma image g ((i * image.cols + j) * 3 + k) st) 3 _
      hst ?_
    intro k st hk hst
    exact Encoder.noiseStep_done L sigma image g i j k hj hk st hst

/-! ## The arithmetic of `double` -/

theorem roundHalfEven_intCast (z : Int) : roundHalfEven (z : ℚ) = z := by
  unfold roundHalfEven
  rw [Int.floor_intCast, sub_self, if_pos (by norm_num)]

/-- A number that is a `double` is a multiple of the spacing around it. -/
theorem ulpExp_dvd (x : ℚ) (m e : Int) (hx : x = m * 2 ^ e) (hm : |m| < 2 ^ 53)
    (he : -1074 ≤ e) : ∃ z : Int, x / 2 ^ ulpExp x = z := by
  have h2 : (2 : ℚ) ≠ 0 := by norm_num
  by_cases hx0 : x = 0
  · exact ⟨0, by rw [hx0]; simp⟩
  by_cases hle : ulpExp x ≤ e
  · refine ⟨m * 2 ^ (e - ulpExp x).toNat, ?_⟩
    have hd : e = ulpExp x + ((e - ulpExp x).toNat : Int) := by
      rw [Int.toNat_of_nonneg (by omega)]; ring
    have hxe : x = m * 2 ^ (ulpExp x + ((e - ulpExp x).toNat : Int)) := by
      rw [← hd]; exact hx
    generalize ulpExp x = E at hxe ⊢
    generalize (e - E).toNat = n at hxe ⊢
    rw [hxe, zpow_add₀ h2, zpow_natCast]
    have : (2 : ℚ) ^ E ≠ 0 := zpow_ne_zero _ h2
    push_cast
    field_simp
    ring
  · exfalso
    have hlt : e < ulpExp x := by omega
    have hE : ulpExp x = Int.log 2 |x| - 52 := by
      unfold ulpExp at hlt ⊢
      rcases max_cases (Int.log 2 |x| - 52) (-1074) with ⟨h1, -⟩ | ⟨h1, -⟩
      · exact h1
      · rw [h1] at hlt; omega
    have hlog : e + 53 ≤ Int.log 2 |x| := by omega
    have hpos : 0 < |x| := abs_pos.2 hx0
    have h1 : (2 : ℚ) ^ Int.log 2 |x| ≤ |x| := by
      have := Int.zpow_log_le_self (by norm_num : 1 < 2) hpos
      exact_mod_cast this
    have h3 : (2 : ℚ) ^ (e + 53) ≤ 2 ^ Int.log 2 |x| :=
      zpow_le_zpow_right₀ (by norm_num) hlog
    have h4 : |x| < 2 ^ (e + 53) := by
      rw [hx, abs_mul, abs_of_pos (zpow_pos (by norm_num : (0 : ℚ) < 2) e), zpow_add₀ h2,
        mul_comm]
      have hm1 : (|(m : ℚ)|) < 2 ^ 53 := by
        have : ((|m| : Int) : ℚ) < ((2 ^ 53 : Int) : ℚ) := by exact_mod_cast hm
        simpa using this
      have hp : (0 : ℚ) < 2 ^ e := zpow_pos (by norm_num) e
      have : (2 : ℚ) ^ (53 : Int) = 2 ^ 53 := by norm_cast
      rw [this]
      exact mul_lt_mul_of_pos_left hm1 hp
    linarith

/-- A number that is a finite `double` is the result of rounding it. -/
theorem roundDouble_exact (x : ℚ) (m e : Int) (hx : x = m * 2 ^ e) (hm : |m| < 2 ^ 53)
    (he : -1074 ≤ e) (hfin : |x| < 2 ^ 1024) : roundDouble x = some x := by
  obtain ⟨z, hz⟩ := ulpExp_dvd x m e hx hm he
  have hr : ((roundHalfEven (x / 2 ^ ulpExp x) : Int) : ℚ) * 2 ^ ulpExp x = x := by
    rw [hz, roundHalfEven_intCast, ← hz]
    have : (2 : ℚ) ^ ulpExp x ≠ 0 := zpow_ne_zero _ (by norm_num)
    field_simp
  unfold roundDouble
  simp only [hr, if_pos hfin]

/-- Discarding the fractional part moves toward zero by less than one. -/
theorem truncInt_toward_zero (x : ℚ) :
    |(truncInt x : ℚ)| ≤ |x| ∧ |x - truncInt x| < 1 ∧ 0 ≤ (truncInt x : ℚ) * x := by
  unfold truncInt
  by_cases h : 0 ≤ x
  · rw [if_pos h]
    have h1 := Int.floor_le x
    have h2 := Int.lt_floor_add_one x
    have h3 : (0 : ℚ) ≤ ⌊x⌋ := by exact_mod_cast Int.floor_nonneg.2 h
    refine ⟨?_, ?_, mul_nonneg h3 h⟩
    · rw [abs_of_nonneg h3, abs_of_nonneg h]; exact h1
    · rw [abs_lt]; constructor <;> linarith
  · rw [if_neg h]
    have hx : x < 0 := lt_of_not_ge h
    have h1 := Int.le_ceil x
    have h2 := Int.ceil_lt_add_one x
    have h3 : ((⌈x⌉ : Int) : ℚ) ≤ 0 := by
      exact_mod_cast Int.ceil_le.2 (by simpa using hx.le)
    refine ⟨?_, ?_, ?_⟩
    · rw [abs_of_nonpos h3, abs_of_neg hx]; linarith
    · rw [abs_lt]; constructor <;> linarith
    · exact mul_nonneg_of_nonpos_of_nonpos h3 hx.le

theorem truncInt_of_nonneg (x : ℚ) (n : Int) (h0 : 0 ≤ x) (h1 : (n : ℚ) ≤ x)
    (h2 : x < n + 1) : truncInt x = n := by
  unfold truncInt
  rw [if_pos h0, Int.floor_eq_iff]
  exact ⟨h1, h2⟩

theorem truncInt_of_nonpos (x : ℚ) (n : Int) (h0 : x < 0) (h1 : (n : ℚ) - 1 < x)
    (h2 : x ≤ n) : truncInt x = n := by
  unfold truncInt
  rw [if_neg (not_le.2 h0), Int.ceil_eq_iff]
  exact ⟨h1, h2⟩

/-- No integer is nearer than the one `roundHalfEven` gives, which is the
floor or the one above it. -/
theorem roundHalfEven_nearest (t : ℚ) (z : Int) :
    |(roundHalfEven t : ℚ) - t| ≤ |(z : ℚ) - t| := by
  have h1 := Int.floor_le t
  have h2 := Int.lt_floor_add_one t
  have hz : z ≤ ⌊t⌋ ∨ ⌊t⌋ + 1 ≤ z := by omega
  have hzq : (z : ℚ) ≤ ⌊t⌋ ∨ ((⌊t⌋ : Int) : ℚ) + 1 ≤ z := by
    rcases hz with h | h
    · left; exact_mod_cast h
    · right; exact_mod_cast h
  unfold roundHalfEven
  split
  · rename_i hlt
    rw [abs_of_nonpos (by linarith)]
    rcases hzq with h | h
    · rw [abs_of_nonpos (by linarith)]; linarith
    · rw [abs_of_nonneg (by linarith)]; linarith
  · rename_i hge
    split
    · rename_i hgt
      push_cast
      rw [abs_of_nonneg (by linarith)]
      rcases hzq with h | h
      · rw [abs_of_nonpos (by linarith)]; linarith
      · rw [abs_of_nonneg (by linarith)]; linarith
    · rename_i hle
      have heq : t - ⌊t⌋ = 1 / 2 := le_antisymm (not_lt.1 hle) (not_lt.1 hge)
      split
      · rw [abs_of_nonpos (by linarith)]
        rcases hzq with h | h
        · rw [abs_of_nonpos (by linarith)]; linarith
        · rw [abs_of_nonneg (by linarith)]; linarith
      · push_cast
        rw [abs_of_nonneg (by linarith)]
        rcases hzq with h | h
        · rw [abs_of_nonpos (by linarith)]; linarith
        · rw [abs_of_nonneg (by linarith)]; linarith

/-- The integer `roundHalfEven` gives is the floor or the one above it. -/
theorem roundHalfEven_bounds (t : ℚ) :
    ⌊t⌋ ≤ roundHalfEven t ∧ roundHalfEven t ≤ ⌊t⌋ + 1 := by
  unfold roundHalfEven
  split
  · omega
  · split
    · omega
    · split <;> omega

theorem ulpExp_of_lt (x : ℚ) (e : Int) (he : -1074 ≤ e) (hlt : e < ulpExp x) :
    ulpExp x = Int.log 2 |x| - 52 := by
  unfold ulpExp at hlt ⊢
  rcases max_cases (Int.log 2 |x| - 52) (-1074) with ⟨h1, -⟩ | ⟨h1, -⟩
  · exact h1
  · rw [h1] at hlt; omega

/-- A multiple of the spacing around `x` is no nearer to `x` than the rounded
value. -/
theorem round_le_multiple (x : ℚ) (z : Int) :
    |(roundHalfEven (x / 2 ^ ulpExp x) : ℚ) * 2 ^ ulpExp x - x|
      ≤ |(z : ℚ) * 2 ^ ulpExp x - x| := by
  have hu : (0 : ℚ) < 2 ^ ulpExp x := zpow_pos (by norm_num) _
  have h := roundHalfEven_nearest (x / 2 ^ ulpExp x) z
  have e1 : ∀ a : ℚ, a * 2 ^ ulpExp x - x = (a - x / 2 ^ ulpExp x) * 2 ^ ulpExp x := by
    intro a
    field_simp
  rw [e1, e1, abs_mul, abs_mul, abs_of_pos hu]
  exact mul_le_mul_of_nonneg_right h hu.le

/-- No `double` is nearer to `x` than the result of rounding `x`. -/
theorem roundDouble_nearest (x r : ℚ) (h : roundDouble x = some r) (y : ℚ) (hy : IsDouble y) :
    |r - x| ≤ |y - x| := by
  have h2 : (2 : ℚ) ≠ 0 := by norm_num
  have hr : r = (roundHalfEven (x / 2 ^ ulpExp x) : ℚ) * 2 ^ ulpExp x := by
    unfold roundDouble at h
    simp only at h
    split at h
    · exact (Option.some.inj h).symm
    · exact absurd h (by simp)
  obtain ⟨m, e, hye, hm, he, -⟩ := hy
  rw [hr]
  by_cases hx0 : x = 0
  · have hz : (roundHalfEven (x / 2 ^ ulpExp x) : ℚ) = 0 := by
      have h0 : x / 2 ^ ulpExp x = ((0 : Int) : ℚ) := by rw [hx0]; simp
      rw [h0, roundHalfEven_intCast]
      simp
    rw [hz, hx0]
    simp
  by_cases hle : ulpExp x ≤ e
  · have hd : e = ulpExp x + ((e - ulpExp x).toNat : Int) := by
      rw [Int.toNat_of_nonneg (by omega)]; ring
    have hmul : y = ((m * 2 ^ (e - ulpExp x).toNat : Int) : ℚ) * 2 ^ ulpExp x := by
      rw [hye]
      nth_rewrite 1 [hd]
      rw [zpow_add₀ h2, zpow_natCast]
      push_cast
      ring
    rw [hmul]
    exact round_le_multiple x _
  · have hlt : e < ulpExp x := by omega
    have hE := ulpExp_of_lt x e he hlt
    have hpos : 0 < |x| := abs_pos.2 hx0
    have hk : (2 : ℚ) ^ Int.log 2 |x| ≤ |x| := by
      have := Int.zpow_log_le_self (by norm_num : 1 < 2) hpos
      exact_mod_cast this
    have hkE : (2 : ℚ) ^ Int.log 2 |x| = 2 ^ 52 * 2 ^ ulpExp x := by
      have : Int.log 2 |x| = 52 + ulpExp x := by omega
      rw [this, zpow_add₀ h2]
      norm_cast
    have hyk : |y| < 2 ^ Int.log 2 |x| := by
      have hm1 : (|(m : ℚ)|) < 2 ^ 53 := by
        have : ((|m| : Int) : ℚ) < ((2 ^ 53 : Int) : ℚ) := by exact_mod_cast hm
        simpa using this
      have hp : (0 : ℚ) < 2 ^ e := zpow_pos (by norm_num) e
      have h53 : (2 : ℚ) ^ 53 * 2 ^ e = 2 ^ (53 + e) := by
        rw [zpow_add₀ h2]
        norm_cast
      have hmono : (2 : ℚ) ^ (53 + e) ≤ 2 ^ Int.log 2 |x| :=
        zpow_le_zpow_right₀ (by norm_num) (by omega)
      rw [hye, abs_mul, abs_of_pos hp]
      calc |(m : ℚ)| * 2 ^ e < 2 ^ 53 * 2 ^ e := mul_lt_mul_of_pos_right hm1 hp
        _ = 2 ^ (53 + e) := h53
        _ ≤ 2 ^ Int.log 2 |x| := hmono
    rcases lt_or_gt_of_ne hx0 with hneg | hposx
    · have hb := round_le_multiple x (-(2 ^ 52))
      have hv : ((-(2 ^ 52) : Int) : ℚ) * 2 ^ ulpExp x - x = |x| - 2 ^ Int.log 2 |x| := by
        rw [hkE, abs_of_neg hneg]
        push_cast
        ring
      have hnn : (0 : ℚ) ≤ |x| - 2 ^ Int.log 2 |x| := by linarith
      rw [hv, abs_of_nonneg hnn] at hb
      have h3 : |x| - |y| ≤ |y - x| := by
        have := abs_sub_abs_le_abs_sub x y
        rw [abs_sub_comm x y] at this
        exact this
      linarith
    · have hb := round_le_multiple x (2 ^ 52)
      have hv : (((2 ^ 52 : Int) : ℚ)) * 2 ^ ulpExp x - x = -(|x| - 2 ^ Int.log 2 |x|) := by
        rw [hkE, abs_of_pos hposx]
        push_cast
        ring
      have hnn : (0 : ℚ) ≤ |x| - 2 ^ Int.log 2 |x| := by linarith
      rw [hv, abs_neg, abs_of_nonneg hnn] at hb
      have h3 : |x| - |y| ≤ |y - x| := by
        have := abs_sub_abs_le_abs_sub x y
        rw [abs_sub_comm x y] at this
        exact this
      linarith

theorem ulpExp_ge (x : ℚ) : -1074 ≤ ulpExp x := le_max_right _ _

/-- The scaled number that `roundDouble` rounds is below `2 ^ 53` in size. -/
theorem abs_scaled_lt (x : ℚ) : |x / 2 ^ ulpExp x| < 2 ^ 53 := by
  have h2 : (2 : ℚ) ≠ 0 := by norm_num
  have hu : (0 : ℚ) < 2 ^ ulpExp x := zpow_pos (by norm_num) _
  rw [abs_div, abs_of_pos hu, div_lt_iff₀ hu]
  by_cases hx0 : x = 0
  · rw [hx0, abs_zero]
    positivity
  · have hpos : 0 < |x| := abs_pos.2 hx0
    have hk : |x| < (2 : ℚ) ^ (Int.log 2 |x| + 1) := by
      have := Int.lt_zpow_succ_log_self (by norm_num : 1 < 2) |x|
      exact_mod_cast this
    have hE : Int.log 2 |x| - 52 ≤ ulpExp x := le_max_left _ _
    have hmono : (2 : ℚ) ^ (Int.log 2 |x| + 1) ≤ 2 ^ (53 + ulpExp x) :=
      zpow_le_zpow_right₀ (by norm_num) (by omega)
    have h53 : (2 : ℚ) ^ (53 + ulpExp x) = 2 ^ 53 * 2 ^ ulpExp x := by
      rw [zpow_add₀ h2]
      norm_cast
    linarith

/-- The result of rounding is a `double`. -/
theorem roundDouble_isDouble (x r : ℚ) (h : roundDouble x = some r) : IsDouble r := by
  have h2 : (2 : ℚ) ≠ 0 := by norm_num
  have hr : r = (roundHalfEven (x / 2 ^ ulpExp x) : ℚ) * 2 ^ ulpExp x
      ∧ |r| < 2 ^ 1024 := by
    unfold roundDouble at h
    simp only at h
    split at h
    · rename_i hfin
      have := Option.some.inj h
      rw [← this]
      exact ⟨rfl, hfin⟩
    · exact absurd h (by simp)
  obtain ⟨hr, hfin⟩ := hr
  have ht := abs_scaled_lt x
  rw [abs_lt] at ht
  obtain ⟨b1, b2⟩ := roundHalfEven_bounds (x / 2 ^ ulpExp x)
  have hf1 : ⌊x / 2 ^ ulpExp x⌋ < 2 ^ 53 := by
    rw [Int.floor_lt]
    exact_mod_cast ht.2
  have hf2 : -2 ^ 53 ≤ ⌊x / 2 ^ ulpExp x⌋ := by
    rw [Int.le_floor]
    have := ht.1
    push_cast
    linarith
  have hE := ulpExp_ge x
  generalize roundHalfEven (x / 2 ^ ulpExp x) = n at hr b1 b2
  have hn : -2 ^ 53 ≤ n ∧ n ≤ 2 ^ 53 := by omega
  by_cases hlt : |n| < 2 ^ 53
  · exact ⟨n, ulpExp x, hr, hlt, hE, hfin⟩
  · have hcases : n = 2 ^ 53 ∨ n = -2 ^ 53 := by
      rcases abs_cases n with ⟨ha, -⟩ | ⟨ha, -⟩
      · left; rw [ha] at hlt; omega
      · right; rw [ha] at hlt; omega
    have hsucc : (2 : ℚ) ^ (ulpExp x + 1) = 2 ^ ulpExp x * 2 := by
      rw [zpow_add₀ h2, zpow_one]
    rcases hcases with hc | hc
    · refine ⟨2 ^ 52, ulpExp x + 1, ?_, by norm_num, by omega, hfin⟩
      rw [hr, hc, hsucc]
      push_cast
      ring
    · refine ⟨-2 ^ 52, ulpExp x + 1, ?_, by norm_num, by omega, hfin⟩
      rw [hr, hc, hsucc]
      push_cast
      ring

/-- The number a `double` stands for is a `double`. -/
theorem Double.value_isDouble (d : Double) (q : ℚ) (h : d.value = some q) : IsDouble q := by
  have h2 : (2 : ℚ) ≠ 0 := by norm_num
  unfold Double.value at h
  simp only at h
  have hfrac : d.bits % 2 ^ 64 % 2 ^ 52 < 2 ^ 52 := Nat.mod_lt _ (by norm_num)
  have hex : d.bits % 2 ^ 64 / 2 ^ 52 % 2 ^ 11 < 2 ^ 11 := Nat.mod_lt _ (by norm_num)
  generalize d.bits % 2 ^ 64 % 2 ^ 52 = frac at h hfrac
  generalize d.bits % 2 ^ 64 / 2 ^ 52 % 2 ^ 11 = ex at h hex
  have hsign : ∀ s : ℚ, (s = -1 ∨ s = 1) → ∀ (m : Nat) (e : Int), m < 2 ^ 53 → -1074 ≤ e →
      (m : ℚ) * 2 ^ e < 2 ^ 1024 → IsDouble (s * (m * 2 ^ e)) := by
    intro s hs m e hm he hlt
    have hp : (0 : ℚ) ≤ (m : ℚ) * 2 ^ e :=
      mul_nonneg (Nat.cast_nonneg m) (zpow_pos (by norm_num) e).le
    have hmi : |(m : Int)| < 2 ^ 53 := by
      rw [abs_of_nonneg (Int.natCast_nonneg m)]
      exact_mod_cast hm
    rcases hs with hs | hs
    · refine ⟨-(m : Int), e, by rw [hs]; push_cast; ring, ?_, he, ?_⟩
      · rw [abs_neg]
        exact hmi
      · rw [hs, neg_one_mul, abs_neg, abs_of_nonneg hp]
        exact hlt
    · refine ⟨(m : Int), e, by rw [hs]; push_cast; ring, hmi, he, ?_⟩
      rw [hs, one_mul, abs_of_nonneg hp]
      exact hlt
  have hs : ∀ b : Nat, ((if b / 2 ^ 63 = 1 then (-1 : ℚ) else 1) = -1
      ∨ (if b / 2 ^ 63 = 1 then (-1 : ℚ) else 1) = 1) := by
    intro b
    split
    · left; rfl
    · right; rfl
  have hsg := hs (d.bits % 2 ^ 64)
  generalize (if d.bits % 2 ^ 64 / 2 ^ 63 = 1 then (-1 : ℚ) else 1) = sign at h hsg
  split at h
  · exact absurd h (by simp)
  · rename_i hne
    split at h
    · have hq := Option.some.inj h
      rw [← hq]
      have hlt : (frac : ℚ) * 2 ^ (-1074 : Int) < 2 ^ 1024 := by
        have h1 : (frac : ℚ) < 2 ^ 52 := by exact_mod_cast hfrac
        have h3 : (2 : ℚ) ^ (-1074 : Int) ≤ 1 := by
          have := zpow_le_zpow_right₀ (by norm_num : (1 : ℚ) ≤ 2)
            (by norm_num : (-1074 : Int) ≤ 0)
          rw [zpow_zero] at this
          exact this
        have h4 : (2 : ℚ) ^ 52 ≤ 2 ^ 1024 :=
          pow_le_pow_right₀ (by norm_num) (by norm_num)
        have h5 : (frac : ℚ) * 2 ^ (-1074 : Int) ≤ frac * 1 :=
          mul_le_mul_of_nonneg_left h3 (Nat.cast_nonneg frac)
        linarith
      have he : sign * frac / 2 ^ 1074 = sign * (frac * 2 ^ (-1074 : Int)) := by
        rw [zpow_neg, zpow_ofNat, div_eq_mul_inv]
        ring
      rw [he]
      exact hsign sign hsg frac (-1074) (by omega) (by norm_num) hlt
    · rename_i hnz
      have hq := Option.some.inj h
      rw [← hq]
      have hex1 : ex ≤ 2046 := by omega
      have hpw : (2 : ℚ) ^ ((ex : Int) - 1075) = 2 ^ ex / 2 ^ 1075 := by
        rw [zpow_sub₀ h2, zpow_natCast, zpow_ofNat]
      have hlt : ((2 ^ 52 + frac : Nat) : ℚ) * 2 ^ ((ex : Int) - 1075) < 2 ^ 1024 := by
        rw [hpw]
        have h1 : ((2 ^ 52 + frac : Nat) : ℚ) < 2 ^ 53 := by
          have : 2 ^ 52 + frac < 2 ^ 53 := by omega
          exact_mod_cast this
        have h3 : (2 : ℚ) ^ ex ≤ 2 ^ 2046 := pow_le_pow_right₀ (by norm_num) hex1
        have hpos : (0 : ℚ) < 2 ^ 1075 := pow_pos (by norm_num) _
        have hpos2 : (0 : ℚ) < 2 ^ ex := pow_pos (by norm_num) _
        rw [← mul_div_assoc, div_lt_iff₀ hpos]
        have h6 : (2 : ℚ) ^ 53 * 2 ^ 2046 = 2 ^ 1024 * 2 ^ 1075 := by
          rw [← pow_add, ← pow_add]
        calc ((2 ^ 52 + frac : Nat) : ℚ) * 2 ^ ex < 2 ^ 53 * 2 ^ ex :=
              mul_lt_mul_of_pos_right h1 hpos2
          _ ≤ 2 ^ 53 * 2 ^ 2046 := mul_le_mul_of_nonneg_left h3 (pow_pos (by norm_num) _).le
          _ = 2 ^ 1024 * 2 ^ 1075 := h6
      have he : sign * (2 ^ 52 + frac) * 2 ^ ex / 2 ^ 1075
          = sign * (((2 ^ 52 + frac : Nat) : ℚ) * 2 ^ ((ex : Int) - 1075)) := by
        rw [hpw]
        push_cast
        ring
      rw [he]
      exact hsign sign hsg (2 ^ 52 + frac) ((ex : Int) - 1075) (by omega) (by omega) hlt

/-- The conversion where C defines it. -/
theorem intOfSum_defined (undef : Nat → Double → Int) (v : Nat) (d : Double) (q s : ℚ)
    (hq : d.value = some q) (hs : roundDouble (v + q) = some s)
    (hlo : -2 ^ 31 ≤ truncInt s) (hhi : truncInt s < 2 ^ 31) :
    intOfSum undef v d = truncInt s := by
  unfold intOfSum
  rw [hq]
  simp only
  rw [hs]
  simp only
  rw [if_pos ⟨hlo, hhi⟩]

theorem abs_lt_of_truncInt (x : ℚ) (hlo : -2 ^ 31 ≤ truncInt x) (hhi : truncInt x < 2 ^ 31) :
    |x| < 2 ^ 1024 := by
  obtain ⟨-, h2, -⟩ := truncInt_toward_zero x
  have h3 : (-2 ^ 31 : ℚ) ≤ truncInt x := by exact_mod_cast hlo
  have h4 : (truncInt x : ℚ) < 2 ^ 31 := by exact_mod_cast hhi
  rw [abs_lt] at h2 ⊢
  have hbig : (2 : ℚ) ^ 31 + 1 ≤ 2 ^ 1024 := by norm_num
  constructor <;> linarith [h2.1, h2.2]

/-- C12. On a `rows x cols` buffer `noiseGenerator` makes exactly
`rows*cols*3` Gaussian draws; draw number `(i*cols + j)*3 + k` is applied to
channel `k` of pixel `(i, j)`, whose value `v` becomes the clamp to `[0,255]`
of `(int)(v + draw)`; every resulting channel is in `[0,255]` and the
dimensions are unchanged. The decoder's `noiseGenerator` does the same.
With IEEE 754 `double`s and any generator, where the draw is the number `q`:
the `double` sum `s` of `v` and `q` is a `double` to which no `double` is
nearer than to `v + q`, and it is `v + q` when that is a `double`; where C
defines the conversion (the integral part of `s` is an `int`), `(int)(v +
draw)` is `s` with its fractional part discarded, so the channel becomes
`clamp(trunc(s), 0, 255)`, which is `clamp(trunc(v + q), 0, 255)` when `v + q`
is a `double`; and discarding the fractional part moves toward zero by less
than one. -/
theorem C12_noise_overlay_shape {G D : Type} (L : Lib G D) (image : Mat) (sigma : D) (g : G)
    (i j k : Nat) (hi : i < image.rows) (hj : j < image.cols) (hk : k < 3) :
    (Encoder.noiseLoop L image sigma g).2 = gaussRng L sigma (image.rows * image.cols * 3) g
      ∧ (Encoder.noiseGenerator L image sigma g).get i j k
          = clampByte (L.addToInt (image.get i j k)
              (gaussVal L sigma ((i * image.cols + j) * 3 + k) g))
      ∧ (Encoder.noiseGenerator L image sigma g).get i j k ≤ 255
      ∧ (Encoder.noiseGenerator L image sigma g).rows = image.rows
      ∧ (Encoder.noiseGenerator L image sigma g).cols = image.cols
      ∧ (∀ n : Int, clampByte n = (max 0 (min n 255)).toNat)
      ∧ (Decoder.noiseLoop L image sigma g).2 = gaussRng L sigma (image.rows * image.cols * 3) g
      ∧ (Decoder.noiseGenerator L image sigma g).get i j k
          = clampByte (L.addToInt (image.get i j k)
              (gaussVal L sigma ((i * image.cols + j) * 3 + k) g))
      ∧ (∀ (mkRNG : Nat → G) (uniform : G → Nat → Nat × G)
            (gaussian : G → Double → Double × G) (undef : Nat → Double → Int)
            (sg : Double) (q : ℚ),
          (gaussVal (ieeeLib mkRNG uniform gaussian undef) sg
              ((i * image.cols + j) * 3 + k) g).value = some q →
            IsDouble q
              ∧ (∀ s : ℚ, roundDouble (image.get i j k + q) = some s →
                  IsDouble s
                    ∧ (∀ y : ℚ, IsDouble y →
                        |s - (image.get i j k + q)| ≤ |y - (image.get i j k + q)|)
                    ∧ (-2 ^ 31 ≤ truncInt s → truncInt s < 2 ^ 31 →
                        (Encoder.noiseGenerator (ieeeLib mkRNG uniform gaussian undef) image sg
                            g).get i j k = clampByte (truncInt s)
                          ∧ (Decoder.noiseGenerator (ieeeLib mkRNG uniform gaussian undef) image
                              sg g).get i j k = clampByte (truncInt s)))
              ∧ (IsDouble (image.get i j k + q) →
                  roundDouble (image.get i j k + q) = some ((image.get i j k : ℚ) + q)
                    ∧ (-2 ^ 31 ≤ truncInt (image.get i j k + q) →
                        truncInt (image.get i j k + q) < 2 ^ 31 →
                          (Encoder.noiseGenerator (ieeeLib mkRNG uniform gaussian undef) image sg
                              g).get i j k = clampByte (truncInt (image.get i j k + q))
                            ∧ (Decoder.noiseGenerator (ieeeLib mkRNG uniform gaussian undef)
                                image sg g).get i j k
                                = clampByte (truncInt (image.get i j k + q)))))
      ∧ (∀ x : ℚ, |(truncInt x : ℚ)| ≤ |x| ∧ |x - truncInt x| < 1
          ∧ 0 ≤ (truncInt x : ℚ) * x) := by
  have hshape : ∀ {D1 : Type} (L1 : Lib G D1) (sigma1 : D1),
      (Encoder.noiseGenerator L1 image sigma1 g).get i j k
        = clampByte (L1.addToInt (image.get i j k)
            (gaussVal L1 sigma1 ((i * image.cols + j) * 3 + k) g)) := by
    intro D1 L1 sigma1
    obtain ⟨-, -, -, hv⟩ := Encoder.noiseLoop_done L1 sigma1 image g
    unfold Encoder.noiseGenerator
    rw [hv i j k, if_pos ⟨hj, hk, channel_index_lt _ _ i j k hi hj hk⟩]
  obtain ⟨hg, hr, hc, -⟩ := Encoder.noiseLoop_done L sigma image g
  have hval := hshape L sigma
  have hgen : ∀ (mkRNG : Nat → G) (uniform : G → Nat → Nat × G)
      (gaussian : G → Double → Double × G) (undef : Nat → Double → Int) (sg : Double) (q s : ℚ),
      (gaussVal (ieeeLib mkRNG uniform gaussian undef) sg
          ((i * image.cols + j) * 3 + k) g).value = some q →
      roundDouble (image.get i j k + q) = some s →
      -2 ^ 31 ≤ truncInt s → truncInt s < 2 ^ 31 →
        (Encoder.noiseGenerator (ieeeLib mkRNG uniform gaussian undef) image sg g).get
            i j k = clampByte (truncInt s)
          ∧ (Decoder.noiseGenerator (ieeeLib mkRNG uniform gaussian undef) image sg
              g).get i j k = clampByte (truncInt s) := by
    intro mkRNG uniform gaussian undef sg q s hq hs hlo hhi
    have he := hshape (ieeeLib mkRNG uniform gaussian undef) sg
    have hconv : (ieeeLib mkRNG uniform gaussian undef).addToInt (image.get i j k)
        (gaussVal (ieeeLib mkRNG uniform gaussian undef) sg ((i * image.cols + j) * 3 + k) g)
          = truncInt s :=
      intOfSum_defined undef _ _ q s hq hs hlo hhi
    rw [hconv] at he
    refine ⟨he, ?_⟩
    rw [Decoder.noiseGenerator_eq_encoder]
    exact he
  refine ⟨hg, hval, ?_, hr, hc, ?_, hg, hval, ?_, truncInt_toward_zero⟩
  · rw [hval]; exact clampByte_le _
  · intro n
    unfold clampByte
    split
    · rw [min_eq_right (by omega), max_eq_right (by omega)]
    · split
      · rw [min_eq_left (by omega), max_eq_left (by omega)]
      · rw [min_eq_left (by omega), max_eq_right (by omega)]
  · intro mkRNG uniform gaussian undef sg q hq
    refine ⟨Double.value_isDouble _ q hq, ?_, ?_⟩
    · intro s hs
      exact ⟨roundDouble_isDouble _ s hs, fun y hy => roundDouble_nearest _ s hs y hy,
        fun hlo hhi => hgen mkRNG uniform gaussian undef sg q s hq hs hlo hhi⟩
    · rintro ⟨m, e, hx, hm, he, hfin⟩
      have hex := roundDouble_exact _ m e hx hm he hfin
      exact ⟨hex, fun hlo hhi => hgen mkRNG uniform gaussian undef sg q _ hq hex hlo hhi⟩

theorem demoGaussian_value (t : Nat) :
    (demoGaussian t ⟨0x4008000000000000⟩).1.value
      = some (if t % 3 = 0 then -7 / 2 else if t % 3 = 1 then 3 / 4 else 1201 / 4) := by
  unfold demoGaussian
  split
  · unfold Double.value; norm_num
  · split
    · unfold Double.value; norm_num
    · unfold Double.value; norm_num

/-- C12 on a 2x3 buffer with the counter generator in state 6 and IEEE 754
`double`s: channel 1 of pixel (1, 2) holds 48 and gets draw number 16, which
is 0.75, so it stays 48; channel 0 of pixel (0, 0) holds 0 and gets draw
number 0, which is -3.5, so it stays 0; channel 2 of pixel (0, 0) holds 254
and gets draw number 2, which is 300.25, so it becomes 255. -/
theorem C12_noise_overlay_shape_witness :
    (Encoder.noiseLoop demoLib (demoMat 2 3) 3 6).2
        = gaussRng demoLib 3 ((demoMat 2 3).rows * (demoMat 2 3).cols * 3) 6
      ∧ (Encoder.noiseGenerator (ieeeLib demoLib.mkRNG demoLib.uniform demoGaussian
            (fun _ _ => 0)) (demoMat 2 3) ⟨0x4008000000000000⟩ 6).get 1 2 1 = 48
      ∧ (Encoder.noiseGenerator (ieeeLib demoLib.mkRNG demoLib.uniform demoGaussian
            (fun _ _ => 0)) (demoMat 2 3) ⟨0x4008000000000000⟩ 6).get 0 0 0 = 0
      ∧ (Encoder.noiseGenerator (ieeeLib demoLib.mkRNG demoLib.uniform demoGaussian
            (fun _ _ => 0)) (demoMat 2 3) ⟨0x4008000000000000⟩ 6).get 0 0 2 = 255 := by
  have hv1 : (demoMat 2 3).get 1 2 1 = 48 := by decide
  have hv2 : (demoMat 2 3).get 0 0 0 = 0 := by decide
  have hv3 : (demoMat 2 3).get 0 0 2 = 254 := by decide
  have t1 : truncInt (((48 : Nat) : ℚ) + 3 / 4) = 48 :=
    truncInt_of_nonneg _ 48 (by norm_num) (by norm_num) (by norm_num)
  have t2 : truncInt (((0 : Nat) : ℚ) + -7 / 2) = -3 :=
    truncInt_of_nonpos _ (-3) (by norm_num) (by norm_num) (by norm_num)
  have t3 : truncInt (((254 : Nat) : ℚ) + 1201 / 4) = 554 :=
    truncInt_of_nonneg _ 554 (by norm_num) (by norm_num) (by norm_num)
  refine ⟨(C12_noise_overlay_shape demoLib (demoMat 2 3) 3 6 1 2 1 (by decide) (by decide)
      (by decide)).1, ?_, ?_, ?_⟩
  · have h := ((C12_noise_overlay_shape demoLib (demoMat 2 3) 3 6 1 2 1 (by decide) (by decide)
      (by decide)).2.2.2.2.2.2.2.2.1 demoLib.mkRNG demoLib.uniform demoGaussian (fun _ _ => 0)
      ⟨0x4008000000000000⟩ (3 / 4) (demoGaussian_value 22)).2.2
    rw [hv1, t1] at h
    exact ((h ⟨195, -2, by norm_num, by norm_num, by norm_num,
      by rw [abs_lt]; constructor <;> norm_num⟩).2
      (by norm_num) (by norm_num)).1
  · have h := ((C12_noise_overlay_shape demoLib (demoMat 2 3) 3 6 0 0 0 (by decide) (by decide)
      (by decide)).2.2.2.2.2.2.2.2.1 demoLib.mkRNG demoLib.uniform demoGaussian (fun _ _ => 0)
      ⟨0x4008000000000000⟩ (-7 / 2) (demoGaussian_value 6)).2.2
    rw [hv2, t2] at h
    exact ((h ⟨-7, -1, by norm_num, by norm_num, by norm_num,
      by rw [abs_lt]; constructor <;> norm_num⟩).2
      (by norm_num) (by norm_num)).1
  · have h := ((C12_noise_overlay_shape demoLib (demoMat 2 3) 3 6 0 0 2 (by decide) (by decide)
      (by decide)).2.2.2.2.2.2.2.2.1 demoLib.mkRNG demoLib.uniform demoGaussian (fun _ _ => 0)
      ⟨0x4008000000000000⟩ (1201 / 4) (demoGaussian_value 8)).2.2
    rw [hv3, t3] at h
    exact ((h ⟨2217, -2, by norm_num, by norm_num, by norm_num,
      by rw [abs_lt]; constructor <;> norm_num⟩).2
      (by norm_num) (by norm_num)).1

/-! ## The traversal alone -/

theorem walkN_dims {G D : Type} (L : Lib G D) (a b : Mat) (hr : a.rows = b.rows)
    (hc : a.cols = b.cols) (fuel n : Nat) (w : Walk G) :
    walkN L a fuel n w = walkN L b fuel n w := by
  induction n generalizing w with
  | zero => rfl
  | succ n ih =>
    simp only [walkN, Encoder.nextSite_dims L a b hr hc]
    cases Encoder.nextSite L b fuel w with
    | error e => rfl
    | ok r => exact ih r.2

theorem walkN_fuel_le {G D : Type} (L : Lib G D) (a : Mat) (fuel fuel1 : Nat)
    (hle : fuel ≤ fuel1) (n : Nat) (w x : Walk G) (h : walkN L a fuel n w = .ok x) :
    walkN L a fuel1 n w = .ok x := by
  induction n generalizing w with
  | zero => exact h
  | succ n ih =>
    simp only [walkN] at h ⊢
    cases hn : Encoder.nextSite L a fuel w with
    | error e => rw [hn] at h; simp at h
    | ok r =>
      rw [hn] at h
      rw [Encoder.nextSite_fuel_le L a fuel fuel1 hle w r hn]
      exact ih r.2 h

theorem walkN_add {G D : Type} (L : Lib G D) (a : Mat) (fuel m n : Nat) (w : Walk G) :
    walkN L a fuel (m + n) w =
      match walkN L a fuel m w with
      | .error e => .error e
      | .ok x => walkN L a fuel n x := by
  induction m generalizing w with
  | zero => simp [walkN]
  | succ m ih =>
    rw [Nat.succ_add]
    simp only [walkN]
    cases Encoder.nextSite L a fuel w with
    | error e => rfl
    | ok r => exact ih r.2

theorem walkN_sites {G D : Type} (L : Lib G D) (a : Mat) (fuel n : Nat) (w x : Walk G)
    (h : walkN L a fuel n w = .ok x) : ∃ l, x.sites = w.sites ++ l ∧ l.length = n := by
  induction n generalizing w with
  | zero =>
    simp only [walkN, Except.ok.injEq] at h
    subst h
    exact ⟨[], (List.append_nil _).symm, rfl⟩
  | succ n ih =>
    simp only [walkN] at h
    cases hn : Encoder.nextSite L a fuel w with
    | error e => rw [hn] at h; simp at h
    | ok r =>
      rw [hn] at h
      obtain ⟨l, hl, hlen⟩ := ih r.2 h
      obtain ⟨-, -, -, h4, -⟩ := Encoder.nextSite_ok L a fuel w r hn
      refine ⟨r.1 :: l, ?_, by rw [List.length_cons, hlen]⟩
      rw [hl, h4, List.append_assoc]
      rfl

/-- Two traversals from the same state on grids of the same size, whatever
their fuel: the shorter one's sites are the first sites of the longer one,
and with the same number of selections they end in the same state. -/
theorem walkN_agree {G D : Type} (L : Lib G D) (a b : Mat) (hr : a.rows = b.rows)
    (hc : a.cols = b.cols) (f1 f2 n m : Nat) (hnm : n ≤ m) (w x y : Walk G)
    (hx : walkN L a f1 n w = .ok x) (hy : walkN L b f2 m w = .ok y) :
    (∃ l, y.sites = x.sites ++ l) ∧ (n = m → x = y) := by
  have hx1 := walkN_fuel_le L a f1 (max f1 f2) (le_max_left _ _) n w x hx
  have hy1 := walkN_fuel_le L b f2 (max f1 f2) (le_max_right _ _) m w y hy
  rw [← walkN_dims L a b hr hc] at hy1
  obtain ⟨d, hd⟩ := Nat.exists_eq_add_of_le hnm
  subst hd
  rw [walkN_add, hx1] at hy1
  simp only at hy1
  obtain ⟨l, hl, -⟩ := walkN_sites L a _ d x y hy1
  refine ⟨⟨l, hl⟩, fun h0 => ?_⟩
  have hd0 : d = 0 := by omega
  subst hd0
  simp only [walkN, Except.ok.injEq] at hy1
  exact hy1

theorem Encoder.embedBits_walkN {G D : Type} (L : Lib G D) (fuel : Nat) (bits : List Nat)
    (st st1 : Walk G × Mat) (h : forEachM (Encoder.embedStep L fuel) bits st = .ok st1) :
    walkN L st.2 fuel bits.length st.1 = .ok st1.1 := by
  induction bits generalizing st with
  | nil =>
    simp only [forEachM, Except.ok.injEq] at h
    subst h
    rfl
  | cons b bs ih =>
    obtain ⟨st2, hstep, hrest⟩ := forEachM_cons_ok _ _ _ _ _ h
    obtain ⟨s, hn, -⟩ := Encoder.embedStep_ok L fuel st st2 b hstep
    obtain ⟨k1, k2, -⟩ := Encoder.embedStep_continues L fuel st st2 b hstep
    simp only [List.length_cons, walkN, hn]
    rw [walkN_dims L st.2 st2.2 k1.symm k2.symm]
    exact ih st2 hrest

/-- A loop whose every step makes `c` selections makes `c` times its length. -/
theorem forEachM_walkN {G D σ α : Type} (L : Lib G D) (image : Mat) (fuel c : Nat)
    (walk : σ → Walk G) (body : σ → α → Except Err σ)
    (hstep : ∀ s a s1, body s a = .ok s1 → walkN L image fuel c (walk s) = .ok (walk s1))
    (l : List α) (s s1 : σ) (h : forEachM body l s = .ok s1) :
    walkN L image fuel (c * l.length) (walk s) = .ok (walk s1) := by
  induction l generalizing s with
  | nil =>
    simp only [forEachM, Except.ok.injEq] at h
    subst h
    rfl
  | cons a as ih =>
    obtain ⟨s2, hb, hrest⟩ := forEachM_cons_ok _ _ _ _ _ h
    have hlen : c * (a :: as).length = c + c * as.length := by
      rw [List.length_cons, Nat.mul_succ, Nat.add_comm]
    rw [hlen, walkN_add, hstep s a s2 hb]
    exact ih s2 hrest

theorem walkN_one {G D : Type} (L : Lib G D) (image : Mat) (fuel : Nat) (w : Walk G)
    (r : Site × Walk G) (h : Encoder.nextSite L image fuel w = .ok r) :
    walkN L image fuel 1 w = .ok r.2 := by
  simp only [walkN, h]

theorem Decoder.sizeLoop_walkN {G D : Type} (L : Lib G D) (fuel : Nat) (encoded base : Mat)
    (l : List Nat) (st st1 : Decoder.SizeState G)
    (h : forEachM (Decoder.sizeStep L fuel encoded base) l st = .ok st1) :
    walkN L encoded fuel l.length st.walk = .ok st1.walk := by
  have := forEachM_walkN L encoded fuel 1 (fun (s : Decoder.SizeState G) => s.walk)
    (Decoder.sizeStep L fuel encoded base)
    (fun s a s1 hs => by
      obtain ⟨t, hn⟩ := Decoder.sizeStep_ok L fuel encoded base s s1 a hs
      rw [Decoder.nextSite_eq_encoder] at hn
      exact walkN_one L encoded fuel s.walk _ hn) l st st1 h
  rw [Nat.one_mul] at this
  exact this

theorem Decoder.byteLoop_walkN {G D : Type} (L : Lib G D) (fuel : Nat) (encoded base : Mat)
    (l : List Nat) (st st1 : Decoder.FileState G)
    (h : forEachM (Decoder.byteStep L fuel encoded base) l st = .ok st1) :
    walkN L encoded fuel (8 * l.length) st.walk = .ok st1.walk := by
  refine forEachM_walkN L encoded fuel 8 (fun (s : Decoder.FileState G) => s.walk)
    (Decoder.byteStep L fuel encoded base) ?_ l st st1 h
  intro s a s1 hs
  have := forEachM_walkN L encoded fuel 1 (fun (s : Decoder.FileState G) => s.walk)
    (Decoder.bitStep L fuel encoded base)
    (fun s a s1 hs => by
      obtain ⟨t, hn⟩ := Decoder.bitStep_ok L fuel encoded base s s1 a hs
      rw [Decoder.nextSite_eq_encoder] at hn
      exact walkN_one L encoded fuel s.walk _ hn) (List.range 8) s s1 hs
  simpa using this

/-- The traversal of a run of the encoder: `32 + 8 * fileSize` selections
from the seeded generator on a fresh grid of the size of the carrier. -/
theorem Encoder.run_walkN {G D : Type} (L : Lib G D) (W fuel : Nat) (carrier : Mat)
    (file password : List Nat) (st : Walk G × Mat)
    (h : Encoder.run L W fuel carrier file password = .ok st) :
    walkN L carrier fuel (32 + 8 * (file.length % 2 ^ W))
      { rng := L.mkRNG (Encoder.hash W password),
        visited := zeroMat carrier.rows carrier.cols, sites := [] } = .ok st.1 := by
  obtain ⟨hne, hchk, -⟩ := Encoder.run_ok L W fuel carrier file password st h
  rw [Encoder.run_eq_bitStream L W fuel carrier file password hne hchk] at h
  have := Encoder.embedBits_walkN L fuel _ _ st h
  rw [Encoder.bitStream_length] at this
  rw [walkN_dims L carrier _ (Encoder.noiseGenerator_dims L carrier L.three _).1.symm
    (Encoder.noiseGenerator_dims L carrier L.three _).2.symm]
  exact this

/-- The traversal of a run of the decoder: 32 selections and 8 more for each
byte of the length read, from the seeded generator on a fresh grid of the size
of the encoded image. -/
theorem Decoder.decoder_run_walkN {G D : Type} (L : Lib G D) (W fuel : Nat)
    (encoded base : Mat) (password : List Nat) (dst : Decoder.FileState G)
    (h : Decoder.run L W fuel encoded base password = .ok dst) :
    ∃ dst1, Decoder.headerRun L W fuel encoded base password = .ok dst1
      ∧ walkN L encoded fuel (32 + 8 * dst1.fileSize)
          { rng := L.mkRNG (Decoder.hash W password),
            visited := zeroMat encoded.rows encoded.cols, sites := [] } = .ok dst.walk := by
  obtain ⟨-, -, dst1, hhead, hpay⟩ := Decoder.decoder_run_ok L W fuel encoded base password dst h
  refine ⟨dst1, hhead, ?_⟩
  unfold Decoder.headerRun at hhead
  have h1 := Decoder.sizeLoop_walkN L fuel _ _ _ _ _ hhead
  have h2 := Decoder.byteLoop_walkN L fuel _ _ _ _ _ hpay
  rw [List.length_range] at h1 h2
  rw [walkN_add, h1]
  exact h2

/-- The image a run of the encoder ends with has the size of the carrier. -/
theorem Encoder.run_dims {G D : Type} (L : Lib G D) (W fuel : Nat) (carrier : Mat)
    (file password : List Nat) (st : Walk G × Mat)
    (h : Encoder.run L W fuel carrier file password = .ok st) :
    st.2.rows = carrier.rows ∧ st.2.cols = carrier.cols := by
  obtain ⟨hne, hchk, -⟩ := Encoder.run_ok L W fuel carrier file password st h
  rw [Encoder.run_eq_bitStream L W fuel carrier file password hne hchk] at h
  have hd := forEachM_invariant (Encoder.embedStep L fuel)
    (fun st => st.1.visited.rows = carrier.rows ∧ st.1.visited.cols = carrier.cols
      ∧ st.2.rows = carrier.rows ∧ st.2.cols = carrier.cols)
    (fun s a s1 hs hp => Encoder.embedStep_dims L fuel _ _ s s1 a hs hp) _ _ _ h
    ⟨rfl, rfl, (Encoder.noiseGenerator_dims L carrier L.three _).1,
      (Encoder.noiseGenerator_dims L carrier L.three _).2⟩
  exact ⟨hd.2.2.1, hd.2.2.2⟩

theorem walkN_same_sites {G D : Type} (L : Lib G D) (a b : Mat) (hr : a.rows = b.rows)
    (hc : a.cols = b.cols) (f1 f2 n m : Nat) (w x y : Walk G)
    (hx : walkN L a f1 n w = .ok x) (hy : walkN L b f2 m w = .ok y) :
    (∀ k, k < x.sites.length → k < y.sites.length → x.sites[k]? = y.sites[k]?)
      ∧ (x.sites.length = y.sites.length → x = y) := by
  obtain ⟨lx, hlx, hnx⟩ := walkN_sites L a f1 n w x hx
  obtain ⟨ly, hly, hny⟩ := walkN_sites L b f2 m w y hy
  have hxl : x.sites.length = w.sites.length + n := by rw [hlx, List.length_append, hnx]
  have hyl : y.sites.length = w.sites.length + m := by rw [hly, List.length_append, hny]
  rcases Nat.le_total n m with hnm | hmn
  · obtain ⟨⟨l, hl⟩, heq⟩ := walkN_agree L a b hr hc f1 f2 n m hnm w x y hx hy
    refine ⟨fun k hk _ => ?_, fun hlen => heq (by omega)⟩
    rw [hl, List.getElem?_append_left hk]
  · obtain ⟨⟨l, hl⟩, heq⟩ := walkN_agree L b a hr.symm hc.symm f2 f1 m n hmn w y x hy hx
    refine ⟨fun k _ hk => ?_, fun hlen => (heq (by omega)).symm⟩
    rw [hl, List.getElem?_append_left hk]

/-- C11. Take two runs of the encoder and a run of the decoder, with any
fuel, on images of the same dimensions and with passwords of the same hash;
the pixel values, the files and the fuel may differ. Then for every `k` the
`k`-th site selected is the same in all of them as far as each run goes, and
two of the runs that make the same number of selections end in the same
traversal state: the same sites in the same order, the same `visited`
matrix, the same generator. -/
theorem C11_traversal_replay {G D : Type} (L : Lib G D) (W f1 f2 f3 : Nat)
    (carrier1 carrier2 encoded base : Mat) (file1 file2 password1 password2 passwordD : List Nat)
    (st1 st2 : Walk G × Mat) (dst : Decoder.FileState G)
    (hseed : Encoder.hash W password2 = Encoder.hash W password1)
    (hseedD : Decoder.hash W passwordD = Encoder.hash W password1)
    (hr2 : carrier2.rows = carrier1.rows) (hc2 : carrier2.cols = carrier1.cols)
    (hrE : encoded.rows = carrier1.rows) (hcE : encoded.cols = carrier1.cols)
    (h1 : Encoder.run L W f1 carrier1 file1 password1 = .ok st1)
    (h2 : Encoder.run L W f2 carrier2 file2 password2 = .ok st2)
    (hD : Decoder.run L W f3 encoded base passwordD = .ok dst) :
    (∀ k, k < st1.1.sites.length → k < st2.1.sites.length →
        st1.1.sites[k]? = st2.1.sites[k]?)
      ∧ (∀ k, k < st1.1.sites.length → k < dst.walk.sites.length →
        st1.1.sites[k]? = dst.walk.sites[k]?)
      ∧ (st1.1.sites.length = st2.1.sites.length → st1.1 = st2.1)
      ∧ (st1.1.sites.length = dst.walk.sites.length → st1.1 = dst.walk) := by
  have w1 := Encoder.run_walkN L W f1 carrier1 file1 password1 st1 h1
  have w2 := Encoder.run_walkN L W f2 carrier2 file2 password2 st2 h2
  obtain ⟨dst1, -, wD⟩ := Decoder.decoder_run_walkN L W f3 encoded base passwordD dst hD
  rw [hseed, hr2, hc2] at w2
  rw [hseedD, hrE, hcE] at wD
  obtain ⟨a1, a2⟩ := walkN_same_sites L carrier1 carrier2 hr2.symm hc2.symm f1 f2 _ _ _ _ _ w1 w2
  obtain ⟨b1, b2⟩ := walkN_same_sites L carrier1 encoded hrE.symm hcE.symm f1 f3 _ _ _ _ _ w1 wD
  exact ⟨a1, b1, a2, b2⟩

/-- C11 on two 6x6 carriers with different pixels and different four-byte
files, and the decoder on the first result. -/
theorem C11_traversal_replay_witness :
    ∃ (f1 f2 : Nat) (st1 st2 : Walk Nat × Mat) (dst : Decoder.FileState Nat),
      Encoder.run demoLib 64 f1 (demoMat 6 6) [1, 2, 255, 0] [97, 98] = .ok st1
        ∧ Encoder.run demoLib 64 f2 (zeroMat 6 6) [9, 8, 7, 6] [97, 98] = .ok st2
        ∧ Decoder.run demoLib 64 f1 st1.2 (demoMat 6 6) [97, 98] = .ok dst
        ∧ st1.1 = st2.1 ∧ st1.1 = dst.walk := by
  obtain ⟨F1, st1, hF1⟩ := Encoder.run_terminates demoLib 64 (demoMat 6 6) [1, 2, 255, 0]
    [97, 98] demoLib_bounded (demoLib_fair _) (by decide) (by decide) (by decide)
  obtain ⟨F2, st2, hF2⟩ := Encoder.run_terminates demoLib 64 (zeroMat 6 6) [9, 8, 7, 6]
    [97, 98] demoLib_bounded (demoLib_fair _) (by decide) (by decide) (by decide)
  have h1 := hF1 F1 (Nat.le_refl _)
  have h2 := hF2 F2 (Nat.le_refl _)
  obtain ⟨dst, hd, -, hw⟩ := decode_of_encoded demoLib 64 F1 (demoMat 6 6) [1, 2, 255, 0]
    [97, 98] (by decide) (by decide) st1 h1
  have hl1 := (Encoder.run_walkInv demoLib 64 F1 (demoMat 6 6) [1, 2, 255, 0] [97, 98] st1 h1).2
  have hl2 := (Encoder.run_walkInv demoLib 64 F2 (zeroMat 6 6) [9, 8, 7, 6] [97, 98] st2 h2).2
  obtain ⟨hdr, hdc⟩ := Encoder.run_dims demoLib 64 F1 (demoMat 6 6) [1, 2, 255, 0] [97, 98]
    st1 h1
  have h := C11_traversal_replay demoLib 64 F1 F2 F1 (demoMat 6 6) (zeroMat 6 6) st1.2
    (demoMat 6 6) [1, 2, 255, 0] [9, 8, 7, 6] [97, 98] [97, 98] [97, 98] st1 st2 dst rfl
    (Decoder.hash_eq_encoder 64 [97, 98]) rfl rfl hdr hdc h1 h2 hd
  exact ⟨F1, F2, st1, st2, dst, h1, h2, hd, h.2.2.1 (by rw [hl1, hl2]; decide), hw.symm⟩

/-! ## The frame of the embedding -/

theorem Encoder.fileAccept_get_self (carrier : Mat) (bit : Nat) (s : Site) :
    (Encoder.fileAccept carrier bit s).get s.1 s.2.1 s.2.2
      = embedded bit (carrier.get s.1 s.2.1 s.2.2) := by
  unfold Encoder.fileAccept embedded
  split
  · split
    · rw [Mat.get_set_same]
    · split
      · rw [Mat.get_set_same]
      · rfl
  · rfl

/-- A pass of `embedStep` over `bits`: the new sites, one per bit, hold the
embedded value of what they held, and every other channel is unchanged. -/
theorem Encoder.embedBits_frame {G D : Type} (L : Lib G D) (fuel rows cols : Nat)
    (bits : List Nat) :
    ∀ (st st1 : Walk G × Mat), forEachM (Encoder.embedStep L fuel) bits st = .ok st1 →
      WalkInv rows cols st.1 →
      ∃ ss : List Site, st1.1.sites = st.1.sites ++ ss ∧ ss.length = bits.length
        ∧ (∀ (k : Nat) (s : Site) (b : Nat), ss[k]? = some s → bits[k]? = some b →
            st1.2.get s.1 s.2.1 s.2.2 = embedded b (st.2.get s.1 s.2.1 s.2.2))
        ∧ (∀ x y c, (x, y, c) ∉ ss → st1.2.get x y c = st.2.get x y c) := by
  induction bits with
  | nil =>
    intro st st1 h _
    simp only [forEachM, Except.ok.injEq] at h
    subst h
    refine ⟨[], (List.append_nil _).symm, rfl, ?_, fun _ _ _ _ => rfl⟩
    intro k s b hk
    simp at hk
  | cons b0 bs ih =>
    intro st st1 h hw
    obtain ⟨st2, hstep, hrest⟩ := forEachM_cons_ok _ _ _ _ _ h
    obtain ⟨s0, hn, himg⟩ := Encoder.embedStep_ok L fuel st st2 b0 hstep
    obtain ⟨-, -, -, h4, -⟩ := Encoder.nextSite_ok L st.2 fuel st.1 _ hn
    simp only at h4
    obtain ⟨hw2, -⟩ := Encoder.embedStep_walkInv L fuel rows cols st st2 b0 hstep hw
    obtain ⟨ss, hss, hlen, hsel, hother⟩ := ih st2 st1 hrest hw2
    obtain ⟨hw1, -⟩ := (Encoder.embedBits_facts L fuel rows cols st.2 bs st2 st1 hrest).2.2 hw2
    have hsites : st1.1.sites = st.1.sites ++ s0 :: ss := by
      rw [hss, h4, List.append_assoc]
      rfl
    have hnd : (st.1.sites ++ s0 :: ss).Nodup := by
      rw [← hsites]; exact hw1.2.2.1
    have hs0 : s0 ∉ ss := by
      have := (List.nodup_append.1 hnd).2.1
      exact (List.nodup_cons.1 this).1
    refine ⟨s0 :: ss, hsites, by rw [List.length_cons, List.length_cons, hlen], ?_, ?_⟩
    · intro k s b hk hb
      cases k with
      | zero =>
        simp only [List.getElem?_cons_zero, Option.some.injEq] at hk hb
        subst hk hb
        rw [hother s0.1 s0.2.1 s0.2.2 hs0, himg]
        exact Encoder.fileAccept_get_self st.2 b0 s0
      | succ k =>
        simp only [List.getElem?_cons_succ] at hk hb
        have hmem : s ∈ ss := List.getElem?_mem hk
        have hne : (s.1, s.2.1, s.2.2) ≠ s0 := by
          intro he
          apply hs0
          have : s = s0 := he
          rw [← this]; exact hmem
        rw [hsel k s b hk hb, himg, Encoder.fileAccept_other _ _ _ _ _ _ hne]
    · intro x y c hnot
      have hne : (x, y, c) ≠ s0 := fun he => hnot (by rw [he]; exact List.mem_cons_self _ _)
      have hnss : (x, y, c) ∉ ss := fun hm => hnot (List.mem_cons_of_mem _ hm)
      rw [hother x y c hnss, himg]
      exact Encoder.fileAccept_other _ _ _ _ _ _ hne

theorem embedded_facts (bit v : Nat) (hv : v ≤ 255) :
    (bit ≠ 0 → (embedded bit v = v + 1 ∨ embedded bit v + 1 = v))
      ∧ (bit = 0 → embedded bit v = v) := by
  unfold embedded
  constructor
  · intro hb
    rw [if_pos hb]
    by_cases hlt : v < 255
    · rw [if_pos hlt]; exact Or.inl rfl
    · have he : v = 255 := by omega
      rw [if_neg hlt, if_pos he]
      right; omega
  · intro hb
    rw [if_neg (by simpa using hb)]

/-- What a run of the encoder leaves, site by site, against the noised carrier. -/
theorem Encoder.run_frame {G D : Type} (L : Lib G D) (W fuel : Nat) (carrier : Mat)
    (file password : List Nat) (st : Walk G × Mat)
    (h : Encoder.run L W fuel carrier file password = .ok st) :
    st.1.sites.length = (Encoder.bitStream (file.length % 2 ^ W) file).length
      ∧ (∀ (k : Nat) (s : Site) (b : Nat), st.1.sites[k]? = some s →
          (Encoder.bitStream (file.length % 2 ^ W) file)[k]? = some b →
          st.2.get s.1 s.2.1 s.2.2
              = embedded b ((Encoder.noiseGenerator L carrier L.three
                  (L.mkRNG (Encoder.hash W password))).get s.1 s.2.1 s.2.2)
            ∧ (Encoder.noiseGenerator L carrier L.three
                  (L.mkRNG (Encoder.hash W password))).get s.1 s.2.1 s.2.2 ≤ 255)
      ∧ (∀ x y c, (x, y, c) ∉ st.1.sites →
          st.2.get x y c = (Encoder.noiseGenerator L carrier L.three
            (L.mkRNG (Encoder.hash W password))).get x y c) := by
  obtain ⟨⟨-, -, -, hin, -⟩, -⟩ := Encoder.run_walkInv L W fuel carrier file password st h
  obtain ⟨hne, hchk, -⟩ := Encoder.run_ok L W fuel carrier file password st h
  rw [Encoder.run_eq_bitStream L W fuel carrier file password hne hchk] at h
  obtain ⟨ss, hss, hlen, hsel, hother⟩ :=
    Encoder.embedBits_frame L fuel carrier.rows carrier.cols _ _ st h (WalkInv_zero _ _ _)
  simp only [List.nil_append] at hss
  rw [hss]
  refine ⟨hlen, ?_, hother⟩
  intro k s b hk hb
  refine ⟨hsel k s b hk hb, ?_⟩
  have hmem : s ∈ st.1.sites := by rw [hss]; exact List.getElem?_mem hk
  obtain ⟨i1, i2, i3⟩ := hin s hmem
  apply Encoder.noiseGenerator_isByte L carrier L.three (L.mkRNG (Encoder.hash W password))
  · rw [(Encoder.noiseGenerator_dims L carrier L.three _).1]; exact i1
  · rw [(Encoder.noiseGenerator_dims L carrier L.three _).2]; exact i2
  · exact i3

/-- C17. When a run of the encoder ends, there is one selected site for each
bit embedded; the output image differs from the noised carrier exactly at the
selected sites whose bit is not 0, and there by exactly one; at a selected
site whose bit is 0 and at every channel that is not a selected site it
equals the noised carrier. -/
theorem C17_embedding_frame {G D : Type} (L : Lib G D) (W fuel : Nat) (carrier : Mat)
    (file password : List Nat) (st : Walk G × Mat)
    (h : Encoder.run L W fuel carrier file password = .ok st) :
    st.1.sites.length = (Encoder.bitStream (file.length % 2 ^ W) file).length
      ∧ (∀ x y c,
          st.2.get x y c ≠ (Encoder.noiseGenerator L carrier L.three
              (L.mkRNG (Encoder.hash W password))).get x y c
            ↔ ∃ (k b : Nat), st.1.sites[k]? = some (x, y, c)
                ∧ (Encoder.bitStream (file.length % 2 ^ W) file)[k]? = some b ∧ b ≠ 0)
      ∧ (∀ (k : Nat) (s : Site) (b : Nat), st.1.sites[k]? = some s →
          (Encoder.bitStream (file.length % 2 ^ W) file)[k]? = some b → b ≠ 0 →
            st.2.get s.1 s.2.1 s.2.2 = (Encoder.noiseGenerator L carrier L.three
                (L.mkRNG (Encoder.hash W password))).get s.1 s.2.1 s.2.2 + 1
              ∨ st.2.get s.1 s.2.1 s.2.2 + 1 = (Encoder.noiseGenerator L carrier L.three
                (L.mkRNG (Encoder.hash W password))).get s.1 s.2.1 s.2.2)
      ∧ (∀ (k : Nat) (s : Site), st.1.sites[k]? = some s →
          (Encoder.bitStream (file.length % 2 ^ W) file)[k]? = some 0 →
            st.2.get s.1 s.2.1 s.2.2 = (Encoder.noiseGenerator L carrier L.three
                (L.mkRNG (Encoder.hash W password))).get s.1 s.2.1 s.2.2)
      ∧ (∀ x y c, (x, y, c) ∉ st.1.sites →
          st.2.get x y c = (Encoder.noiseGenerator L carrier L.three
            (L.mkRNG (Encoder.hash W password))).get x y c) := by
  obtain ⟨hlen, hsel, hother⟩ := Encoder.run_frame L W fuel carrier file password st h
  refine ⟨hlen, ?_, ?_, ?_, hother⟩
  · intro x y c
    constructor
    · intro hne
      have hmem : (x, y, c) ∈ st.1.sites := by
        by_contra hnot
        exact hne (hother x y c hnot)
      obtain ⟨k, hk⟩ := List.mem_iff_getElem?.1 hmem
      have hklt : k < st.1.sites.length := (List.getElem?_eq_some.1 hk).1
      have hex : ∃ b, (Encoder.bitStream (file.length % 2 ^ W) file)[k]? = some b := by
        cases hbk : (Encoder.bitStream (file.length % 2 ^ W) file)[k]? with
        | none =>
          have := List.getElem?_eq_none_iff.1 hbk
          omega
        | some b => exact ⟨b, rfl⟩
      obtain ⟨b, hb⟩ := hex
      refine ⟨k, b, hk, hb, ?_⟩
      intro hz
      obtain ⟨hv, hle⟩ := hsel k (x, y, c) _ hk hb
      rw [(embedded_facts _ _ hle).2 hz] at hv
      exact hne hv
    · rintro ⟨k, b, hk, hb, hb0⟩
      obtain ⟨hv, hle⟩ := hsel k (x, y, c) b hk hb
      simp only at hv hle
      rw [hv]
      rcases (embedded_facts b _ hle).1 hb0 with h1 | h1 <;> omega
  · intro k s b hk hb hb0
    obtain ⟨hv, hle⟩ := hsel k s b hk hb
    rw [hv]
    exact (embedded_facts b _ hle).1 hb0
  · intro k s hk hb
    obtain ⟨hv, hle⟩ := hsel k s 0 hk hb
    rw [hv]
    exact (embedded_facts 0 _ hle).2 rfl

/-- C17 on a run of the encoder on a 6x6 carrier. -/
theorem C17_embedding_frame_witness :
    ∃ (fuel : Nat) (st : Walk Nat × Mat),
      Encoder.run demoLib 64 fuel (demoMat 6 6) [1, 2, 255, 0] [97, 98] = .ok st
        ∧ st.1.sites.length
            = (Encoder.bitStream ([1, 2, 255, 0].length % 2 ^ 64) [1, 2, 255, 0]).length
        ∧ (∀ x y c, (x, y, c) ∉ st.1.sites →
            st.2.get x y c = (Encoder.noiseGenerator demoLib (demoMat 6 6) demoLib.three
              (demoLib.mkRNG (Encoder.hash 64 [97, 98]))).get x y c) := by
  obtain ⟨F, st, hF⟩ := Encoder.run_terminates demoLib 64 (demoMat 6 6) [1, 2, 255, 0]
    [97, 98] demoLib_bounded (demoLib_fair _) (by decide) (by decide) (by decide)
  have h := C17_embedding_frame demoLib 64 F (demoMat 6 6) [1, 2, 255, 0] [97, 98] st
    (hF F (Nat.le_refl _))
  exact ⟨F, st, hF F (Nat.le_refl _), h.1, h.2.2.2.2⟩

/-! ## What the decoder reads -/

theorem forEachM_range_induction {σ : Type} (body : σ → Nat → Except Err σ)
    (Q : Nat → σ → Prop) (n : Nat) (s : σ) (h0 : Q 0 s)
    (hstep : ∀ i t t1, i < n → Q i t → body t i = .ok t1 → Q (i + 1) t1) :
    ∀ s1, forEachM body (List.range n) s = .ok s1 → Q n s1 := by
  induction n with
  | zero =>
    intro s1 h
    simp only [List.range_zero, forEachM, Except.ok.injEq] at h
    subst h
    exact h0
  | succ n ih =>
    intro s1 h
    rw [List.range_succ, forEachM_append] at h
    cases hp : forEachM body (List.range n) s with
    | error e => rw [hp] at h; simp at h
    | ok t =>
      rw [hp] at h
      simp only at h
      obtain ⟨t1, hb, hnil⟩ := forEachM_cons_ok _ _ _ _ _ h
      simp only [forEachM, Except.ok.injEq] at hnil
      subst hnil
      exact hstep n t t1 (Nat.lt_succ_self n)
        (ih (fun i t t1 hi hq hb => hstep i t t1 (Nat.lt_succ_of_lt hi) hq hb) t hp) hb

theorem diffBit_le (encoded base : Mat) (s : Site) : diffBit encoded base s ≤ 1 := by
  unfold diffBit
  split <;> omega

theorem bitsVal_append (l1 l2 : List Nat) :
    bitsVal (l1 ++ l2) = bitsVal l1 + 2 ^ l1.length * bitsVal l2 := by
  induction l1 with
  | nil => simp [bitsVal]
  | cons b bs ih =>
    show b + 2 * bitsVal (bs ++ l2) = (b + 2 * bitsVal bs) + 2 ^ (bs.length + 1) * bitsVal l2
    rw [ih, pow_succ]
    ring

theorem bitsVal_lt (bits : List Nat) (h : ∀ b ∈ bits, b ≤ 1) :
    bitsVal bits < 2 ^ bits.length := by
  induction bits with
  | nil => simp [bitsVal]
  | cons b bs ih =>
    have hb := h b (List.mem_cons_self _ _)
    have hr := ih (fun x hx => h x (List.mem_cons_of_mem _ hx))
    simp only [bitsVal, List.length_cons, pow_succ]
    omega

/-- Bit `j` of the value of a list of bits is the `j`-th bit of the list. -/
theorem bitsVal_testBit (bits : List Nat) (h : ∀ b ∈ bits, b ≤ 1) (j : Nat) :
    (bitsVal bits).testBit j = true ↔ bits[j]? = some 1 := by
  induction bits generalizing j with
  | nil => simp [bitsVal]
  | cons b bs ih =>
    have hb := h b (List.mem_cons_self _ _)
    have hr := ih (fun x hx => h x (List.mem_cons_of_mem _ hx))
    cases j with
    | zero =>
      simp only [bitsVal, Nat.testBit_zero, List.getElem?_cons_zero, Option.some.injEq,
        decide_eq_true_eq]
      omega
    | succ j =>
      have hdiv : (b + 2 * bitsVal bs) / 2 = bitsVal bs := by omega
      rw [List.getElem?_cons_succ]
      simp only [bitsVal]
      rw [Nat.testBit_succ, hdiv]
      exact hr j

theorem map_diffBit_le (encoded base : Mat) (ss : List Site) :
    ∀ b ∈ ss.map (diffBit encoded base), b ≤ 1 := by
  intro b hb
  obtain ⟨s, -, hs⟩ := List.mem_map.1 hb
  rw [← hs]
  exact diffBit_le encoded base s

/-- The byte in assembly after one more bit is read at site `s`. -/
theorem read_bit (encoded base : Mat) (ss : List Site) (s : Site) (hlen : ss.length < 8) :
    (if encoded.get s.1 s.2.1 s.2.2 ≠ base.get s.1 s.2.1 s.2.2 then
        Decoder.setBitN (bitsVal (ss.map (diffBit encoded base)) % 256) ss.length
      else bitsVal (ss.map (diffBit encoded base)))
      = bitsVal ((ss ++ [s]).map (diffBit encoded base)) := by
  have hlt := bitsVal_lt _ (map_diffBit_le encoded base ss)
  rw [List.length_map] at hlt
  have h7 : 2 ^ ss.length ≤ 2 ^ 7 := Nat.pow_le_pow_right (by decide) (by omega)
  have h128 : (2 : Nat) ^ 7 = 128 := by norm_num
  rw [List.map_append, bitsVal_append, List.length_map]
  simp only [List.map_cons, List.map_nil, bitsVal]
  by_cases hd : encoded.get s.1 s.2.1 s.2.2 ≠ base.get s.1 s.2.1 s.2.2
  · have h1 : diffBit encoded base s = 1 := by
      unfold diffBit
      rw [if_pos hd]
    rw [if_pos hd, h1, Nat.mod_eq_of_lt (by omega), Decoder.setBitN_eq_add _ _ hlen hlt]
    omega
  · have h0 : diffBit encoded base s = 0 := by
      unfold diffBit
      rw [if_neg hd]
    rw [if_neg hd, h0]
    omega

/-- The decoder's loop over the eight bits of a byte: eight new sites, and
the byte written is the value of the differences seen at them, in order. -/
theorem Decoder.byteStep_reads {G D : Type} (L : Lib G D) (fuel : Nat) (encoded base : Mat)
    (st st1 : Decoder.FileState G) (i : Nat)
    (h : Decoder.byteStep L fuel encoded base st i = .ok st1) (hn : st.n = 0)
    (hseq : st.sequence0 = 0) :
    ∃ ss : List Site, ss.length = 8 ∧ st1.walk.sites = st.walk.sites ++ ss
      ∧ st1.n = 0 ∧ st1.sequence0 = 0
      ∧ st1.out = st.out ++ [bitsVal (ss.map (diffBit encoded base))] := by
  have key := forEachM_range_induction (Decoder.bitStep L fuel encoded base)
    (fun j (t : Decoder.FileState G) => ∃ ss : List Site, ss.length = j
      ∧ t.walk.sites = st.walk.sites ++ ss
      ∧ (j < 8 → t.n = j ∧ t.sequence0 = bitsVal (ss.map (diffBit encoded base))
          ∧ t.out = st.out)
      ∧ (j = 8 → t.n = 0 ∧ t.sequence0 = 0
          ∧ t.out = st.out ++ [bitsVal (ss.map (diffBit encoded base))]))
    8 st
    ⟨[], rfl, (List.append_nil _).symm, fun _ => ⟨hn, by rw [hseq]; rfl, rfl⟩,
      fun h0 => absurd h0 (by decide)⟩
    (by
      rintro j t t1 hj ⟨ss, hlen, hsites, hpart, -⟩ hb
      obtain ⟨hn1, hs1, ho1⟩ := hpart hj
      cases hnx : Decoder.nextSite L encoded fuel t.walk with
      | error e =>
        unfold Decoder.bitStep at hb
        rw [hnx] at hb
        simp at hb
      | ok r =>
        rw [Decoder.bitStep_of_next L fuel encoded base t j r.1 r.2 hnx] at hb
        simp only [Except.ok.injEq] at hb
        rw [Decoder.nextSite_eq_encoder] at hnx
        obtain ⟨-, -, -, h4, -⟩ := Encoder.nextSite_ok L encoded fuel t.walk r hnx
        have hread := read_bit encoded base ss r.1 (by omega)
        rw [hlen] at hread
        rw [hn1, hs1, hread] at hb
        refine ⟨ss ++ [r.1], by rw [List.length_append, hlen]; rfl, ?_, ?_, ?_⟩
        · rw [← hb]
          have : (if (j + 1) % 8 = 0 then
              ({ walk := r.2, sequence0 := 0, n := 0,
                 out := t.out ++ [bitsVal ((ss ++ [r.1]).map (diffBit encoded base))] } :
                  Decoder.FileState G)
            else { walk := r.2,
                   sequence0 := bitsVal ((ss ++ [r.1]).map (diffBit encoded base)),
                   n := j + 1, out := t.out }).walk = r.2 := by
            split <;> rfl
          rw [this, h4, hsites, List.append_assoc]
        · intro hlt
          have h8 : ¬ ((j + 1) % 8 = 0) := by omega
          rw [if_neg h8] at hb
          rw [← hb]
          exact ⟨rfl, rfl, ho1⟩
        · intro heq
          have h8 : (j + 1) % 8 = 0 := by omega
          rw [if_pos h8] at hb
          rw [← hb]
          refine ⟨rfl, rfl, ?_⟩
          simp only
          rw [ho1])
    st1 h
  obtain ⟨ss, hlen, hsites, -, hfull⟩ := key
  obtain ⟨h1, h2, h3⟩ := hfull rfl
  exact ⟨ss, hlen, hsites, h1, h2, h3⟩

/-- The decoder's payload loop from an empty output: eight new sites per
byte, and byte `i` written is the value of the differences seen at the eight
sites of its group. -/
theorem Decoder.byteLoop_reads {G D : Type} (L : Lib G D) (fuel : Nat) (encoded base : Mat)
    (n : Nat) (st st1 : Decoder.FileState G)
    (h : forEachM (Decoder.byteStep L fuel encoded base) (List.range n) st = .ok st1)
    (hn : st.n = 0) (hseq : st.sequence0 = 0) (hout : st.out = []) :
    ∃ S : List Site, S.length = 8 * n ∧ st1.walk.sites = st.walk.sites ++ S
      ∧ st1.out.length = n
      ∧ ∀ i, i < n →
          st1.out[i]? = some (bitsVal (((S.drop (8 * i)).take 8).map (diffBit encoded base))) := by
  have key := forEachM_range_induction (Decoder.byteStep L fuel encoded base)
    (fun k (t : Decoder.FileState G) => t.n = 0 ∧ t.sequence0 = 0
      ∧ ∃ S : List Site, S.length = 8 * k ∧ t.walk.sites = st.walk.sites ++ S
        ∧ t.out.length = k
        ∧ ∀ i, i < k →
            t.out[i]? = some (bitsVal (((S.drop (8 * i)).take 8).map (diffBit encoded base))))
    n st
    ⟨hn, hseq, [], rfl, (List.append_nil _).symm, by rw [hout]; rfl,
      fun i hi => absurd hi (Nat.not_lt_zero i)⟩
    (by
      rintro k t t1 _ ⟨hn1, hs1, S, hlen, hsites, holen, hbytes⟩ hb
      obtain ⟨ss, hss, hsites1, hn2, hs2, hout1⟩ :=
        Decoder.byteStep_reads L fuel encoded base t t1 k hb hn1 hs1
      refine ⟨hn2, hs2, S ++ ss, ?_, ?_, ?_, ?_⟩
      · rw [List.length_append, hlen, hss]; omega
      · rw [hsites1, hsites, List.append_assoc]
      · rw [hout1, List.length_append, holen]; rfl
      · intro i hi
        rw [hout1]
        by_cases hik : i < k
        · have h1 : 8 * i ≤ S.length := by omega
          have h2 : 8 ≤ (S.drop (8 * i)).length := by rw [List.length_drop]; omega
          rw [List.getElem?_append_left (by omega), hbytes i hik,
            List.drop_append_of_le_length h1, List.take_append_of_le_length h2]
        · have hieq : i = k := by omega
          subst hieq
          have h1 : S.length = 8 * i := hlen
          rw [List.getElem?_append_right (by omega), holen, Nat.sub_self,
            List.drop_left' h1, List.take_of_length_le (by omega)]
          rfl)
    st1 h
  obtain ⟨-, -, S, h1, h2, h3, h4⟩ := key
  exact ⟨S, h1, h2, h3, h4⟩

/-- The decoder's header loop: 32 sites, and the length it rebuilds is the
value of the differences seen at them, in order. -/
theorem Decoder.sizeLoop_reads {G D : Type} (L : Lib G D) (fuel : Nat) (encoded base : Mat)
    (g : G) (visited : Mat) (dst1 : Decoder.SizeState G)
    (h : forEachM (Decoder.sizeStep L fuel encoded base) (List.range 32)
      { walk := { rng := g, visited := visited, sites := [] },
        fileSize := 0, tmpSize := 0, n := 0 } = .ok dst1) :
    dst1.walk.sites.length = 32
      ∧ dst1.fileSize = bitsVal (dst1.walk.sites.map (diffBit encoded base)) := by
  have key := forEachM_range_induction (Decoder.sizeStep L fuel encoded base)
    (fun i (t : Decoder.SizeState G) => t.walk.sites.length = i ∧ t.n = i % 8
      ∧ t.fileSize
          = bitsVal ((t.walk.sites.take (8 * (i / 8))).map (diffBit encoded base))
      ∧ t.tmpSize
          = bitsVal ((t.walk.sites.drop (8 * (i / 8))).map (diffBit encoded base)))
    32
    { walk := { rng := g, visited := visited, sites := [] },
      fileSize := 0, tmpSize := 0, n := 0 }
    ⟨rfl, rfl, rfl, rfl⟩
    (by
      rintro i t t1 hi ⟨hlen, hn1, hfs, htmp⟩ hb
      cases hnx : Decoder.nextSite L encoded fuel t.walk with
      | error e =>
        unfold Decoder.sizeStep at hb
        rw [hnx] at hb
        simp at hb
      | ok r =>
        rw [Decoder.sizeStep_of_next L fuel encoded base t i r.1 r.2 hnx] at hb
        simp only [Except.ok.injEq] at hb
        rw [Decoder.nextSite_eq_encoder] at hnx
        obtain ⟨-, -, -, h4, -⟩ := Encoder.nextSite_ok L encoded fuel t.walk r hnx
        have hq : 8 * (i / 8) ≤ t.walk.sites.length := by omega
        have hdl : (t.walk.sites.drop (8 * (i / 8))).length = i % 8 := by
          rw [List.length_drop]; omega
        have hread := read_bit encoded base (t.walk.sites.drop (8 * (i / 8))) r.1
          (by rw [hdl]; omega)
        rw [hdl, ← htmp, ← hn1] at hread
        rw [hread] at hb
        have hdrop : r.2.sites.drop (8 * (i / 8))
            = t.walk.sites.drop (8 * (i / 8)) ++ [r.1] := by
          rw [h4, List.drop_append_of_le_length hq]
        have hlen1 : r.2.sites.length = i + 1 := by
          rw [h4, List.length_append, hlen]; rfl
        by_cases h8 : (i + 1) % 8 = 0
        · rw [if_pos h8] at hb
          rw [← hb]
          have hq1 : 8 * ((i + 1) / 8) = i + 1 := by omega
          have hk7 : i - 7 = 8 * (i / 8) := by omega
          refine ⟨hlen1, by simp only; omega, ?_, ?_⟩
          · simp only
            rw [hq1, List.take_of_length_le (by omega), hfs, hk7, ← hdrop]
            have hsplit : r.2.sites
                = t.walk.sites.take (8 * (i / 8)) ++ r.2.sites.drop (8 * (i / 8)) := by
              rw [hdrop, ← List.append_assoc, List.take_append_drop, h4]
            have htl : (t.walk.sites.take (8 * (i / 8))).length = 8 * (i / 8) := by
              rw [List.length_take]; omega
            have hval : bitsVal (r.2.sites.map (diffBit encoded base))
                = bitsVal ((t.walk.sites.take (8 * (i / 8))).map (diffBit encoded base))
                  + 2 ^ (8 * (i / 8))
                    * bitsVal ((r.2.sites.drop (8 * (i / 8))).map (diffBit encoded base)) := by
              conv_lhs => rw [hsplit]
              rw [List.map_append, bitsVal_append, List.length_map, htl]
            have hlt := bitsVal_lt _ (map_diffBit_le encoded base r.2.sites)
            rw [List.length_map, hlen1] at hlt
            have hp : 2 ^ (i + 1) ≤ 2 ^ 32 := Nat.pow_le_pow_right (by decide) (by omega)
            rw [hval] at hlt ⊢
            rw [Nat.mul_comm (bitsVal _) (2 ^ (8 * (i / 8)))]
            exact Nat.mod_eq_of_lt (by omega)
          · simp only
            rw [hq1, List.drop_of_length_le (by omega)]
            rfl
        · rw [if_neg h8] at hb
          rw [← hb]
          have hq1 : (i + 1) / 8 = i / 8 := by omega
          refine ⟨hlen1, by simp only; omega, ?_, ?_⟩
          · simp only
            rw [hq1, hfs, h4, List.take_append_of_le_length hq]
          · simp only
            rw [hq1, hdrop])
    dst1 h
  obtain ⟨h1, -, h3, -⟩ := key
  refine ⟨h1, ?_⟩
  rw [h3, List.take_of_length_le (by omega)]

/-- C14. When a run of the decoder ends: the length `fileSize` its header loop
rebuilt is the value of the differences between the encoded image and the
noised base at the first 32 selected sites; it has written exactly `fileSize`
bytes and selected exactly `32 + 8 * fileSize` sites; and bit `j` of byte `i`
of the output is set exactly when the encoded image and the noised base
differ at selected site number `32 + 8 * i + j`. -/
theorem C14_decoder_output {G D : Type} (L : Lib G D) (W fuel : Nat) (encoded base : Mat)
    (password : List Nat) (dst : Decoder.FileState G)
    (h : Decoder.run L W fuel encoded base password = .ok dst) :
    ∃ dst1, Decoder.headerRun L W fuel encoded base password = .ok dst1
      ∧ dst1.fileSize
          = bitsVal ((dst.walk.sites.take 32).map
              (diffBit encoded
                (Decoder.noiseGenerator L base L.three (L.mkRNG (Decoder.hash W password)))))
      ∧ Decoder.main L W fuel encoded base password = .ok dst.out
      ∧ dst.out.length = dst1.fileSize
      ∧ dst.walk.sites.length = 32 + 8 * dst1.fileSize
      ∧ ∀ i j, i < dst1.fileSize → j < 8 →
          ∃ (s : Site) (b : Nat), dst.walk.sites[32 + 8 * i + j]? = some s
            ∧ dst.out[i]? = some b
            ∧ (b.testBit j = true
                ↔ encoded.get s.1 s.2.1 s.2.2
                    ≠ (Decoder.noiseGenerator L base L.three
                        (L.mkRNG (Decoder.hash W password))).get s.1 s.2.1 s.2.2) := by
  obtain ⟨-, -, dst1, hhead, hpay⟩ := Decoder.decoder_run_ok L W fuel encoded base password dst h
  have hhead1 := hhead
  unfold Decoder.headerRun at hhead1
  obtain ⟨h32, hfs⟩ := Decoder.sizeLoop_reads L fuel encoded _ _ _ dst1 hhead1
  obtain ⟨S, hSlen, hsites, holen, hbytes⟩ :=
    Decoder.byteLoop_reads L fuel encoded _ dst1.fileSize _ dst hpay rfl rfl rfl
  simp only at hsites
  refine ⟨dst1, hhead, ?_, Decoder.main_of_run L W fuel encoded base password dst h, holen, ?_, ?_⟩
  · rw [hsites, List.take_left' h32]
    exact hfs
  · rw [hsites, List.length_append, h32, hSlen]
  · intro i j hi hj
    have hidx : dst.walk.sites[32 + 8 * i + j]? = S[8 * i + j]? := by
      rw [hsites, List.getElem?_append_right (by omega), h32]
      congr 1
      omega
    have hex : ∃ s, S[8 * i + j]? = some s := by
      cases hs : S[8 * i + j]? with
      | none =>
        have := List.getElem?_eq_none_iff.1 hs
        omega
      | some s => exact ⟨s, rfl⟩
    obtain ⟨s, hs⟩ := hex
    refine ⟨s, _, by rw [hidx]; exact hs, hbytes i hi, ?_⟩
    rw [bitsVal_testBit _ (map_diffBit_le _ _ _), List.getElem?_map, List.getElem?_take,
      if_pos hj, List.getElem?_drop, hs]
    simp only [Option.map_some', Option.some.injEq]
    unfold diffBit
    split
    · rename_i hd
      simp [hd]
    · rename_i hd
      simp [hd]

/-- C14 on the decoder run on the result of an encoder run on a 6x6 carrier. -/
theorem C14_decoder_output_witness :
    ∃ (fuel : Nat) (st : Walk Nat × Mat) (dst : Decoder.FileState Nat),
      Encoder.run demoLib 64 fuel (demoMat 6 6) [1, 2, 255, 0] [97, 98] = .ok st
        ∧ Decoder.run demoLib 64 fuel st.2 (demoMat 6 6) [97, 98] = .ok dst
        ∧ dst.out = [1, 2, 255, 0]
        ∧ ∃ dst1, Decoder.headerRun demoLib 64 fuel st.2 (demoMat 6 6) [97, 98] = .ok dst1
            ∧ dst.out.length = dst1.fileSize
            ∧ dst.walk.sites.length = 32 + 8 * dst1.fileSize := by
  obtain ⟨F, st, hF⟩ := Encoder.run_terminates demoLib 64 (demoMat 6 6) [1, 2, 255, 0]
    [97, 98] demoLib_bounded (demoLib_fair _) (by decide) (by decide) (by decide)
  obtain ⟨dst, hd, hout, -⟩ := decode_of_encoded demoLib 64 F (demoMat 6 6) [1, 2, 255, 0]
    [97, 98] (by decide) (by decide) st (hF F (Nat.le_refl _))
  obtain ⟨dst1, h1, -, -, h4, h5, -⟩ :=
    C14_decoder_output demoLib 64 F st.2 (demoMat 6 6) [97, 98] dst hd
  exact ⟨F, st, dst, hF F (Nat.le_refl _), hd, hout, dst1, h1, h4, h5⟩

end Stenography
